import Mathlib

/-!
Verification of the BDRC etext-sync conversion core.

This file gives a shallow embedding, in Lean 4, of the position-tracking and
standoff-conversion code of the repository (`bdrc_etext_sync/tei_to_standoff.py`,
`bdrc_etext_sync/es_utils.py`, `bdrc_etext_sync/buda_api.py`) and proves or
refutes the specified properties against that embedding.

Modelling conventions:
* Python `str` values are modeled as `List Char` (one entry per code point,
  matching Python's character indexing); `s[a:b]` becomes `pySlice`.
* Python `int` is modeled as `Int`; list indices and lengths use `Nat`.
* `bisect.bisect` is standard-library binary search; it is only ever called on
  the `positions` list, which `add_position_diff` keeps strictly increasing, and
  on a sorted list binary search returns the number of elements `≤` the key,
  which is how it is embedded here.
* Regular-expression matching is not re-implemented; every rewrite pass is
  parameterized by the list of matches (offsets and captured groups) that
  `re.finditer` found, and theorems carry the validity facts (ordered,
  non-overlapping, in-bounds, group shapes) that true `finditer` output always
  satisfies for the concrete pattern of that pass.
-/

/-- Python strings as lists of code points. -/
abbrev PyStr := List Char

/-- Python slicing `l[a:b]` for `0 ≤ a ≤ b` (the only form the code uses). -/
def pySlice (l : PyStr) (a b : Nat) : PyStr := (l.take b).drop a

/-- `bisect.bisect(positions, x)`: on a sorted list, the number of elements
`≤ x` (insertion point to the right of existing entries). -/
def bisect (positions : List Nat) (x : Int) : Nat :=
  positions.countP (fun p : Nat => decide ((p : Int) ≤ x))

/-- `add_position_diff` from `tei_to_standoff.py` (lines 69-76; the copy in
`es_utils.py` lines 579-585 is identical): append a new breakpoint when it
exceeds the last recorded one, otherwise overwrite the latest diff. -/
def add_position_diff (positions : List Nat) (diffs : List Int)
    (position : Nat) (cumulative_diff : Int) : List Nat × List Int :=
  match positions.getLast? with
  | none => (positions ++ [position], diffs ++ [cumulative_diff])
  | some last =>
      if last < position then (positions ++ [position], diffs ++ [cumulative_diff])
      else (positions, diffs.dropLast ++ [cumulative_diff])

/-- `correct_position` from `tei_to_standoff.py` (lines 79-84; identical copy in
`es_utils.py` lines 587-591). -/
def correct_position (current_position : Int) (positions : List Nat)
    (diffs : List Int) : Int :=
  let previous_position_i := bisect positions current_position
  if previous_position_i < 1 then current_position
  else current_position + diffs.getD (previous_position_i - 1) 0

/-- Replay a sequence of `add_position_diff` calls starting from empty state. -/
def recordAll (entries : List (Nat × Int)) : List Nat × List Int :=
  entries.foldl (fun pd e => add_position_diff pd.1 pd.2 e.1 e.2) ([], [])

/-- The cumulative diff of the last recorded breakpoint `≤ x`, read directly off
the recorded arrays (the reference semantics the spec states for `resolve`). -/
def lastDiffLE (positions : List Nat) (diffs : List Int) (x : Int) : Option Int :=
  (((positions.zip diffs).filter
    (fun pd : Nat × Int => decide ((pd.1 : Int) ≤ x))).getLast?).map (·.2)

theorem bisect_le_length (positions : List Nat) (x : Int) :
    bisect positions x ≤ positions.length :=
  List.countP_le_length _

theorem zip_filter_le_eq_take (x : Int) :
    ∀ (ps : List Nat) (ds : List Int), ps.Sorted (· ≤ ·) →
      (ps.zip ds).filter (fun pd : Nat × Int => decide ((pd.1 : Int) ≤ x)) =
        (ps.zip ds).take (bisect ps x) := by
  intro ps
  induction ps with
  | nil => intro ds _; simp
  | cons p ps ih =>
    intro ds hs
    cases ds with
    | nil => simp
    | cons d ds =>
      by_cases hp : (p : Int) ≤ x
      · have hb : bisect (p :: ps) x = bisect ps x + 1 := by
          simp [bisect, List.countP_cons, hp]
        rw [List.zip_cons_cons, hb]
        rw [List.filter_cons_of_pos (by simpa using hp), List.take_succ_cons]
        rw [ih ds hs.of_cons]
      · have hall : ∀ q ∈ ps, ¬ ((q : Int) ≤ x) := by
          intro q hq hqx
          have hpq : p ≤ q := List.rel_of_sorted_cons hs q hq
          exact hp (le_trans (by exact_mod_cast hpq) hqx)
        have hb : bisect (p :: ps) x = 0 := by
          simp only [bisect, List.countP_cons]
          rw [List.countP_eq_zero.mpr (by intro q hq; simpa using hall q hq)]
          simp [hp]
        rw [hb, List.take_zero]
        rw [List.filter_eq_nil_iff.mpr]
        intro pd hpd
        rcases List.of_mem_zip hpd with ⟨h1, _⟩
        rcases List.mem_cons.mp h1 with h | h
        · subst h; simpa using hp
        · simpa using hall _ h

theorem getLast?_take_eq (l : List (Nat × Int)) (k : Nat) (h1 : 1 ≤ k)
    (h2 : k ≤ l.length) : (l.take k).getLast? = l[k - 1]? := by
  induction l generalizing k with
  | nil => simp at h2; omega
  | cons a l ih =>
    match k, h1 with
    | 1, _ => simp
    | (k+2), _ =>
      have hlen2 : k + 1 ≤ l.length := by
        simp only [List.length_cons] at h2; omega
      have hih := ih (k+1) (by omega) hlen2
      have hne : l.take (k+1) ≠ [] := by
        have hl : (l.take (k+1)).length = k+1 := by
          rw [List.length_take]; omega
        intro hnil; rw [hnil] at hl; simp at hl
      obtain ⟨c, l', htk⟩ : ∃ c l', l.take (k+1) = c :: l' := by
        cases htk' : l.take (k+1) with
        | nil => exact absurd htk' hne
        | cons c l' => exact ⟨c, l', rfl⟩
      rw [List.take_succ_cons, htk, List.getLast?_cons_cons, ← htk, hih]
      simp

theorem correct_position_resolves (ps : List Nat) (ds : List Int) (x : Int)
    (hs : ps.Sorted (· ≤ ·)) (hl : ps.length = ds.length) :
    (∀ d, lastDiffLE ps ds x = some d → correct_position x ps ds = x + d) ∧
      (lastDiffLE ps ds x = none → correct_position x ps ds = x) := by
  have hfil := zip_filter_le_eq_take x ps ds hs
  have hziplen : (ps.zip ds).length = ps.length := by
    rw [List.length_zip, hl, min_self]
  rcases Nat.eq_zero_or_pos (bisect ps x) with hk | hk
  · constructor
    · intro d hd
      exfalso
      unfold lastDiffLE at hd
      rw [hfil, hk] at hd
      simp at hd
    · intro _
      unfold correct_position
      simp [hk]
  · have hkle : bisect ps x ≤ (ps.zip ds).length := by
      rw [hziplen]; exact bisect_le_length ps x
    have hget := getLast?_take_eq (ps.zip ds) (bisect ps x) hk hkle
    have hidx : bisect ps x - 1 < (ps.zip ds).length := by omega
    have hidxp : bisect ps x - 1 < ps.length := by rw [← hziplen]; omega
    have hidxd : bisect ps x - 1 < ds.length := by rw [← hl]; exact hidxp
    have hzip_get : (ps.zip ds)[bisect ps x - 1]? =
        some ((ps.zip ds).get ⟨bisect ps x - 1, hidx⟩) := List.getElem?_eq_getElem hidx
    have hpair : (ps.zip ds).get ⟨bisect ps x - 1, hidx⟩ =
        (ps.get ⟨bisect ps x - 1, hidxp⟩, ds.get ⟨bisect ps x - 1, hidxd⟩) :=
      List.getElem_zip
    constructor
    · intro d hd
      unfold lastDiffLE at hd
      rw [hfil, hget, hzip_get, hpair] at hd
      simp only [Option.map_some'] at hd
      have hdd : ds.get ⟨bisect ps x - 1, hidxd⟩ = d := by
        exact Option.some.inj hd
      unfold correct_position
      have hnlt : ¬ (bisect ps x < 1) := by omega
      simp only [hnlt, if_false]
      congr 1
      rw [← hdd]
      exact List.getD_eq_getElem ds 0 hidxd
    · intro hnone
      exfalso
      unfold lastDiffLE at hnone
      rw [hfil, hget, hzip_get, hpair] at hnone
      simp at hnone

theorem sorted_all_le_getLast : ∀ (l : List Nat), l.Sorted (· < ·) →
    ∀ a ∈ l, ∀ b, l.getLast? = some b → a ≤ b := by
  intro l
  induction l with
  | nil => intro _ a ha; simp at ha
  | cons p ps ih =>
    intro hs a ha b hb
    cases ps with
    | nil =>
      simp only [List.mem_singleton] at ha
      rw [List.getLast?_singleton] at hb
      subst ha
      exact le_of_eq (Option.some.inj hb)
    | cons q qs =>
      rw [List.getLast?_cons_cons] at hb
      rcases List.mem_cons.mp ha with h | h
      · subst h
        have hq : a < q := List.rel_of_sorted_cons hs q (by simp)
        have := ih hs.of_cons q (by simp) b hb
        omega
      · exact ih hs.of_cons a h b hb

theorem add_position_diff_invariant (ps : List Nat) (ds : List Int) (p : Nat) (d : Int)
    (hs : ps.Sorted (· < ·)) (hl : ps.length = ds.length) :
    (add_position_diff ps ds p d).1.Sorted (· < ·) ∧
      (add_position_diff ps ds p d).1.length = (add_position_diff ps ds p d).2.length := by
  unfold add_position_diff
  cases hlast : ps.getLast? with
  | none =>
    have : ps = [] := by
      cases ps with
      | nil => rfl
      | cons a l => simp [List.getLast?_cons] at hlast
    subst this
    have hds : ds = [] := List.length_eq_zero.mp hl.symm
    subst hds
    exact ⟨List.sorted_singleton p, rfl⟩
  | some last =>
    by_cases hlt : last < p
    · simp only [hlt, if_true]
      constructor
      · rw [List.Sorted, List.pairwise_append]
        refine ⟨hs, List.pairwise_singleton _ _, ?_⟩
        intro a ha b hb
        simp only [List.mem_singleton] at hb
        subst hb
        have := sorted_all_le_getLast ps hs a ha last hlast
        omega
      · simp [hl]
    · simp only [hlt, if_false]
      refine ⟨hs, ?_⟩
      have hne : ps ≠ [] := by
        intro h; subst h; simp at hlast
      have hdne : ds ≠ [] := by
        intro h
        subst h
        simp only [List.length_nil] at hl
        exact hne (List.length_eq_zero.mp hl)
      simp only [List.length_append, List.length_dropLast, List.length_singleton]
      have : 1 ≤ ds.length := by
        cases ds with
        | nil => exact absurd rfl hdne
        | cons _ _ => simp
      omega

theorem recordAll_invariant (entries : List (Nat × Int)) :
    (recordAll entries).1.Sorted (· < ·) ∧
      (recordAll entries).1.length = (recordAll entries).2.length := by
  unfold recordAll
  suffices h : ∀ (ps : List Nat) (ds : List Int), ps.Sorted (· < ·) → ps.length = ds.length →
      (entries.foldl (fun pd e => add_position_diff pd.1 pd.2 e.1 e.2) (ps, ds)).1.Sorted (· < ·) ∧
      (entries.foldl (fun pd e => add_position_diff pd.1 pd.2 e.1 e.2) (ps, ds)).1.length =
        (entries.foldl (fun pd e => add_position_diff pd.1 pd.2 e.1 e.2) (ps, ds)).2.length by
    exact h [] [] (List.sorted_nil) rfl
  induction entries with
  | nil => intro ps ds hs hl; exact ⟨hs, hl⟩
  | cons e es ih =>
    intro ps ds hs hl
    simp only [List.foldl_cons]
    have := add_position_diff_invariant ps ds e.1 e.2 hs hl
    exact ih _ _ this.1 this.2

/-- C4: for a state built by `add_position_diff` calls in non-decreasing
breakpoint order, `correct_position` returns the offset plus the cumulative diff
of the last recorded breakpoint `≤` it (the offset unchanged when no recorded
breakpoint precedes it), and `add_position_diff` appends exactly when the new
breakpoint exceeds the last recorded one, otherwise overwriting the last diff. -/
theorem C4_position_tracker (entries : List (Nat × Int)) (x : Int)
    (hmono : (entries.map Prod.fst).Pairwise (· ≤ ·)) :
    ((∀ d, lastDiffLE (recordAll entries).1 (recordAll entries).2 x = some d →
        correct_position x (recordAll entries).1 (recordAll entries).2 = x + d) ∧
      (lastDiffLE (recordAll entries).1 (recordAll entries).2 x = none →
        correct_position x (recordAll entries).1 (recordAll entries).2 = x)) ∧
    (∀ (ps : List Nat) (ds : List Int) (p : Nat) (d : Int),
      (ps.getLast? = none → add_position_diff ps ds p d = (ps ++ [p], ds ++ [d])) ∧
      (∀ last, ps.getLast? = some last →
        (last < p → add_position_diff ps ds p d = (ps ++ [p], ds ++ [d])) ∧
        (¬ last < p → add_position_diff ps ds p d = (ps, ds.dropLast ++ [d])))) := by
  constructor
  · have hinv := recordAll_invariant entries
    exact correct_position_resolves _ _ x (hinv.1.le_of_lt) hinv.2
  · intro ps ds p d
    constructor
    · intro hnone
      unfold add_position_diff
      rw [hnone]
    · intro last hlast
      constructor
      · intro hlt
        unfold add_position_diff
        rw [hlast]
        simp [hlt]
      · intro hge
        unfold add_position_diff
        rw [hlast]
        simp [hge]

/-- Witness for C4 at a concrete recorded sequence and offset. -/
theorem C4_position_tracker_witness :
    (([((2 : Nat), (-1 : Int)), (5, -3)].map Prod.fst).Pairwise (· ≤ ·)) ∧
      correct_position 6 (recordAll [(2, -1), (5, -3)]).1 (recordAll [(2, -1), (5, -3)]).2 = 3 := by
  refine ⟨by decide, ?_⟩
  have h := (C4_position_tracker [(2, -1), (5, -3)] 6 (by decide)).1.1 (-3) (by decide)
  simpa using h

/-- A single `re.finditer` match: offsets plus the captured groups that the
rewrite passes read. Groups that a pattern does not define are `none`/`[]`. -/
structure RMatch where
  s : Nat
  e : Nat
  g0 : PyStr := []
  pname : Option PyStr := none
  gid : PyStr := []
  rend : PyStr := []
  content : Option PyStr := none
  ot : Option PyStr := none
deriving Repr, DecidableEq, Inhabited

/-- A page record `{pname?, pnum, cstart, cend}` as built by `convert_pages`. -/
structure PageAnn where
  pname : Option PyStr := none
  pnum : Int := 0
  cstart : Int := 0
  cend : Int := 0
deriving Repr, DecidableEq

/-- A highlight record `{rend, cstart, cend}` as built by `convert_hi`. -/
structure HiAnn where
  rend : PyStr := []
  cstart : Int := 0
  cend : Int := 0
deriving Repr, DecidableEq

/-- A div-boundary record; `tei_to_standoff.py` stores it under keys
`cstart`/`cend`, the `es_utils.py` copy under `start`/`end`. -/
structure DivAnn where
  cstart : Int := 0
  cend : Int := 0
deriving Repr, DecidableEq

/-- The mutable `annotations` dict. A key that is absent behaves exactly like
one mapped to an empty list/dict in every function of the code (iteration,
truthiness tests), so presence is modeled by non-emptiness. The `milestones`
dict is an insertion-ordered association list. -/
structure Anns where
  pages : List PageAnn := []
  hi : List HiAnn := []
  milestones : List (PyStr × Int) := []
  div_boundaries : List DivAnn := []
deriving Repr, DecidableEq

/-- Python dict update `d[k] = v`: overwrite in place if the key exists,
otherwise append (insertion order preserved). -/
def dictUpsert (l : List (PyStr × Int)) (k : PyStr) (v : Int) : List (PyStr × Int) :=
  if l.any (fun kv => kv.1 == k) then
    l.map (fun kv => if kv.1 == k then (kv.1, v) else kv)
  else l ++ [(k, v)]

/-- `remap_if_inside_shrunk` from `tei_to_standoff.py` lines 96-111: map a point
that fell inside a shrinking match to the replacement's resolved start plus the
relative offset clamped to the replacement length. -/
def remap_if_inside_shrunk (collapsed_spans : List (Nat × Nat × Nat))
    (positions : List Nat) (diffs : List Int) (orig_pos : Int) : Option Int :=
  match collapsed_spans.find?
      (fun sp => decide ((sp.1 : Int) ≤ orig_pos) && decide (orig_pos < (sp.2.1 : Int))) with
  | some (s, _, repl_len) =>
      let rel := orig_pos - (s : Int)
      let out_start := correct_position (s : Int) positions diffs
      let clamped_rel := if rel < (repl_len : Int) then rel else (repl_len : Int)
      some (out_start + clamped_rel)
  | none => none

/-- `adjust_point` from `tei_to_standoff.py` lines 113-118. -/
def adjust_point (collapsed_spans : List (Nat × Nat × Nat))
    (positions : List Nat) (diffs : List Int) (orig_pos : Int) : Int :=
  match remap_if_inside_shrunk collapsed_spans positions diffs orig_pos with
  | some mapped => mapped
  | none => correct_position orig_pos positions diffs

/-- `apply_position_diffs` from `tei_to_standoff.py` lines 87-129: adjust every
coordinate of every annotation kind (milestone coordinates and the
`cstart`/`cend` fields of the list-valued kinds). -/
def apply_position_diffs (positions : List Nat) (diffs : List Int)
    (ann : Anns) (collapsed_spans : List (Nat × Nat × Nat)) : Anns :=
  let adj := adjust_point collapsed_spans positions diffs
  { pages := ann.pages.map (fun p => { p with cstart := adj p.cstart, cend := adj p.cend }),
    hi := ann.hi.map (fun h => { h with cstart := adj h.cstart, cend := adj h.cend }),
    milestones := ann.milestones.map (fun kv => (kv.1, adj kv.2)),
    div_boundaries := ann.div_boundaries.map
      (fun b => { b with cstart := adj b.cstart, cend := adj b.cend }) }

/-- The state of `get_string`'s match loop (`tei_to_standoff.py` lines 146-186);
`st` is the state of the Python closures feeding `repl_fun` (local lists plus
the shared `annotations` object). -/
structure GSState (τ : Type) where
  output : PyStr := []
  output_len : Nat := 0
  cumulative : Int := 0
  positions : List Nat := []
  diffs : List Int := []
  last_match_end : Nat := 0
  collapsed_spans : List (Nat × Nat × Nat) := []
  st : Anns × τ

/-- The `for i in range(group_size, replacement_len)` loop of `get_string`'s
growing-replacement branch (`tei_to_standoff.py` lines 182-184). -/
def growth_diffs (output_len group_size replacement_len : Nat) (cumulative : Int)
    (positions : List Nat) (diffs : List Int) : Int × List Nat × List Int :=
  (List.range' group_size (replacement_len - group_size)).foldl
    (fun acc i =>
      let c := acc.1 - 1
      let pd := add_position_diff acc.2.1 acc.2.2 (output_len + i) c
      (c, pd.1, pd.2))
    (cumulative, positions, diffs)

/-- One iteration of the `finditer` loop of `get_string`
(`tei_to_standoff.py` lines 157-187). -/
def process_match {τ : Type} (orig : PyStr)
    (repl_fun : RMatch → Nat → Anns × τ → PyStr × (Anns × τ))
    (acc : GSState τ) (m : RMatch) : GSState τ :=
  let group_size := m.e - m.s
  let skipped_size := m.s - acc.last_match_end
  let output := acc.output ++ pySlice orig acc.last_match_end m.s
  let last_match_end := m.e
  let output_len := acc.output_len + skipped_size
  let rs := repl_fun m output_len acc.st
  let replacement := rs.1
  let st := rs.2
  let replacement_len := replacement.length
  if replacement_len < group_size then
    let collapsed_spans := acc.collapsed_spans ++ [(m.s, m.e, replacement_len)]
    let pd0 :=
      match m.ot with
      | some ot => add_position_diff acc.positions acc.diffs (m.s + 1)
          (acc.cumulative - (ot.length : Int))
      | none => (acc.positions, acc.diffs)
    let cumulative := acc.cumulative + (replacement_len : Int) - (group_size : Int)
    let pd := add_position_diff pd0.1 pd0.2 m.e cumulative
    { output := output ++ replacement, output_len := output_len + replacement_len,
      cumulative := cumulative, positions := pd.1, diffs := pd.2,
      last_match_end := last_match_end, collapsed_spans := collapsed_spans, st := st }
  else if group_size < replacement_len then
    let cpd := growth_diffs output_len group_size replacement_len
      acc.cumulative acc.positions acc.diffs
    { output := output ++ replacement, output_len := output_len + replacement_len,
      cumulative := cpd.1, positions := cpd.2.1, diffs := cpd.2.2,
      last_match_end := last_match_end, collapsed_spans := acc.collapsed_spans, st := st }
  else
    { output := output ++ replacement, output_len := output_len + replacement_len,
      cumulative := acc.cumulative, positions := acc.positions, diffs := acc.diffs,
      last_match_end := last_match_end, collapsed_spans := acc.collapsed_spans, st := st }

/-- `get_string` from `tei_to_standoff.py` lines 132-198, parameterized by the
match list that `re.finditer(pattern, orig)` produced. The Python replacement
callback mutates closure state (local lists and possibly the `annotations`
object); here that state is threaded explicitly as `Anns × τ`. -/
def get_string {τ : Type} (orig : PyStr) (mlist : List RMatch)
    (repl_fun : RMatch → Nat → Anns × τ → PyStr × (Anns × τ))
    (st0 : Anns × τ) : PyStr × (Anns × τ) :=
  let init : GSState τ := { st := st0 }
  let acc := mlist.foldl (process_match orig repl_fun) init
  if acc.last_match_end == 0 then (orig, acc.st)
  else
    let output :=
      if acc.last_match_end < orig.length then acc.output ++ orig.drop acc.last_match_end
      else acc.output
    (output,
      (apply_position_diffs acc.positions acc.diffs acc.st.1 acc.collapsed_spans, acc.st.2))

/-- `apply_position_diffs` from `es_utils.py` lines 593-607: same as the
tei_to_standoff version but with no shrunk-span remapping, and it skips the
`div_boundaries` key. -/
def es_apply_position_diffs (positions : List Nat) (diffs : List Int)
    (ann : Anns) : Anns :=
  { pages := ann.pages.map (fun p =>
      { p with cstart := correct_position p.cstart positions diffs,
               cend := correct_position p.cend positions diffs }),
    hi := ann.hi.map (fun h =>
      { h with cstart := correct_position h.cstart positions diffs,
               cend := correct_position h.cend positions diffs }),
    milestones := ann.milestones.map (fun kv => (kv.1, correct_position kv.2 positions diffs)),
    div_boundaries := ann.div_boundaries }

/-- One iteration of the match loop of `es_utils.get_string`
(`es_utils.py` lines 618-641): identical to the tei_to_standoff version except
that no collapsed spans are recorded. -/
def es_process_match {τ : Type} (orig : PyStr)
    (repl_fun : RMatch → Nat → Anns × τ → PyStr × (Anns × τ))
    (acc : GSState τ) (m : RMatch) : GSState τ :=
  let group_size := m.e - m.s
  let skipped_size := m.s - acc.last_match_end
  let output := acc.output ++ pySlice orig acc.last_match_end m.s
  let last_match_end := m.e
  let output_len := acc.output_len + skipped_size
  let rs := repl_fun m output_len acc.st
  let replacement := rs.1
  let st := rs.2
  let replacement_len := replacement.length
  if replacement_len < group_size then
    let pd0 :=
      match m.ot with
      | some ot => add_position_diff acc.positions acc.diffs (m.s + 1)
          (acc.cumulative - (ot.length : Int))
      | none => (acc.positions, acc.diffs)
    let cumulative := acc.cumulative + (replacement_len : Int) - (group_size : Int)
    let pd := add_position_diff pd0.1 pd0.2 m.e cumulative
    { output := output ++ replacement, output_len := output_len + replacement_len,
      cumulative := cumulative, positions := pd.1, diffs := pd.2,
      last_match_end := last_match_end, collapsed_spans := [], st := st }
  else if group_size < replacement_len then
    let cpd := growth_diffs output_len group_size replacement_len
      acc.cumulative acc.positions acc.diffs
    { output := output ++ replacement, output_len := output_len + replacement_len,
      cumulative := cpd.1, positions := cpd.2.1, diffs := cpd.2.2,
      last_match_end := last_match_end, collapsed_spans := [], st := st }
  else
    { output := output ++ replacement, output_len := output_len + replacement_len,
      cumulative := acc.cumulative, positions := acc.positions, diffs := acc.diffs,
      last_match_end := last_match_end, collapsed_spans := [], st := st }

/-- `get_string` from `es_utils.py` lines 609-661. -/
def es_get_string {τ : Type} (orig : PyStr) (mlist : List RMatch)
    (repl_fun : RMatch → Nat → Anns × τ → PyStr × (Anns × τ))
    (st0 : Anns × τ) : PyStr × (Anns × τ) :=
  let init : GSState τ := { st := st0 }
  let acc := mlist.foldl (es_process_match orig repl_fun) init
  if acc.last_match_end == 0 then (orig, acc.st)
  else
    let output :=
      if acc.last_match_end < orig.length then acc.output ++ orig.drop acc.last_match_end
      else acc.output
    (output, (es_apply_position_diffs acc.positions acc.diffs acc.st.1, acc.st.2))

/-- C9: a rewrite pass whose pattern finds no match is the identity on both the
text and the annotations: both `get_string` implementations return the input
string and leave the threaded annotations state untouched. -/
theorem C9_no_match_identity {τ : Type} (orig : PyStr)
    (repl_fun : RMatch → Nat → Anns × τ → PyStr × (Anns × τ)) (st0 : Anns × τ) :
    get_string orig [] repl_fun st0 = (orig, st0) ∧
      es_get_string orig [] repl_fun st0 = (orig, st0) := by
  constructor <;> rfl

/-- The two-newline separator string. -/
def nl2 : PyStr := ['\n', '\n']

def isPrefixChars : List Char → List Char → Bool
  | [], _ => true
  | _ :: _, [] => false
  | a :: xs, b :: ys => a == b && isPrefixChars xs ys

/-- Python substring containment `needle in hay`. -/
def hasSubstring (needle : List Char) : List Char → Bool
  | [] => isPrefixChars needle []
  | hay@(_ :: rest) => isPrefixChars needle hay || hasSubstring needle rest

/-- The replacement callback of `convert_div_boundaries`
(`tei_to_standoff.py` lines 262-273); local state is the `div_boundaries` list
under construction and `current_div_index`. -/
def repl_div_marker (m : RMatch) (cstart : Nat) (st : Anns × (List DivAnn × Int)) :
    PyStr × (Anns × (List DivAnn × Int)) :=
  let ann := st.1
  let divs := st.2.1
  let idx := st.2.2
  if hasSubstring "div_start_marker".data m.g0 then
    ([], (ann, (divs ++ [{ cstart := (cstart : Int), cend := -1 }], idx + 1)))
  else if hasSubstring "div_end_marker".data m.g0 then
    let divs1 :=
      if 0 ≤ idx ∧ idx < (divs.length : Int) then
        divs.set idx.toNat { divs.getD idx.toNat {} with cend := (cstart : Int) }
      else divs
    (nl2, (ann, (divs1, idx)))
  else ([], (ann, (divs, idx)))

/-- `convert_div_boundaries` from `tei_to_standoff.py` lines 253-284. -/
def convert_div_boundaries (text : PyStr) (mlist : List RMatch) (ann : Anns) :
    PyStr × Anns :=
  let r := get_string text mlist repl_div_marker (ann, ([], -1))
  let div_boundaries := r.2.2.1.filter (fun b => b.cend != -1)
  if div_boundaries ≠ [] then (r.1, { r.2.1 with div_boundaries := div_boundaries })
  else (r.1, r.2.1)

/-- The replacement callback of `convert_milestones`
(`tei_to_standoff.py` lines 240-243); local state is the `milestone_coords`
dict. -/
def repl_milestone_marker (m : RMatch) (cstart : Nat) (st : Anns × List (PyStr × Int)) :
    PyStr × (Anns × List (PyStr × Int)) :=
  ([], (st.1, dictUpsert st.2 m.gid (cstart : Int)))

/-- `convert_milestones` from `tei_to_standoff.py` lines 232-250. -/
def convert_milestones (text : PyStr) (mlist : List RMatch) (ann : Anns) :
    PyStr × Anns :=
  let r := get_string text mlist repl_milestone_marker (ann, [])
  if r.2.2 ≠ [] then (r.1, { r.2.1 with milestones := r.2.2 })
  else (r.1, r.2.1)

/-- The replacement callback of `convert_pages`
(`tei_to_standoff.py` lines 205-216); local state is the `page_annotations`
list of `(pname?, cstart)` records (`pnum` and `cend` are filled in after the
pass). -/
def repl_pb_marker (m : RMatch) (cstart : Nat) (st : Anns × List (Option PyStr × Int)) :
    PyStr × (Anns × List (Option PyStr × Int)) :=
  let pname := match m.pname with | some p => p | none => []
  let part : Option PyStr × Int :=
    ((if pname ≠ [] then some pname else none),
     (if 0 < cstart then (cstart : Int) + 2 else 0))
  ((if 0 < cstart then nl2 else []), (st.1, st.2 ++ [part]))

/-- The post-pass loop of `convert_pages` (`tei_to_standoff.py` lines 221-227):
1-based sequential page numbers, each `cend` the next page's `cstart` minus the
2-character separator, the last `cend` the output length. -/
def build_pages (parts : List (Option PyStr × Int)) (output_len : Nat) : List PageAnn :=
  (List.range parts.length).map (fun i =>
    let part := parts.getD i (none, 0)
    { pname := part.1, pnum := (i : Int) + 1,
      cstart := part.2,
      cend := if i < parts.length - 1 then (parts.getD (i+1) (none, 0)).2 - 2
              else (output_len : Int) })

/-- `convert_pages` from `tei_to_standoff.py` lines 201-229. -/
def convert_pages (text : PyStr) (mlist : List RMatch) (ann : Anns) : PyStr × Anns :=
  let r := get_string text mlist repl_pb_marker (ann, [])
  (r.1, { r.2.1 with pages := build_pages r.2.2 r.1.length })

/-- The replacement callback of `convert_hi` (`tei_to_standoff.py` lines
293-297): it appends to the (shared) annotations object itself, recording the
whole-match offsets, and replaces the match by the content group. -/
def repl_hi_marker (m : RMatch) (cstart : Nat) (st : Anns × Unit) :
    PyStr × (Anns × Unit) :=
  let ann := st.1
  (m.content.getD [],
    ({ ann with hi := ann.hi ++ [{ rend := m.rend, cstart := (m.s : Int), cend := (m.e : Int) }] }, ()))

/-- `convert_hi` from `tei_to_standoff.py` lines 287-301. -/
def convert_hi (text : PyStr) (mlist : List RMatch) (ann : Anns) : PyStr × Anns :=
  let r := get_string text mlist repl_hi_marker (ann, ())
  (r.1, r.2.1)

/-- `remove_other_markers` from `tei_to_standoff.py` lines 304-311. -/
def remove_other_markers (text : PyStr) (mlist : List RMatch) (ann : Anns) :
    PyStr × Anns :=
  let r := get_string text mlist (fun _ _ st => (([] : PyStr), st)) (ann, ())
  (r.1, r.2.1)

/-- The `simple_replacements` table of `unescape_xml`
(`tei_to_standoff.py` lines 332-338). -/
def simple_replacements (esc : PyStr) : Option PyStr :=
  if esc = "&quot;".data then some "\"".data
  else if esc = "&apos;".data then some "'".data
  else if esc = "&lt;".data then some "<".data
  else if esc = "&gt;".data then some ">".data
  else if esc = "&amp;".data then some "&".data
  else none

/-- Python `int(num, 16)` on the digit strings the `&#\d+;` pattern can
produce (characters `0`-`9` only): base-16 positional value. -/
def parse_base16_digits (l : PyStr) : Nat :=
  l.foldl (fun a c => a * 16 + (c.toNat - '0'.toNat)) 0

/-- The replacement callback of `unescape_xml`
(`tei_to_standoff.py` lines 340-348): table lookup for the named entities,
otherwise `chr(int(entity[2:-1], 16))`. (`Char.ofNat` stands for `chr`; for
values past the Unicode range Python raises where `Char.ofNat` defaults, which
only differs on inputs where the Python code crashes.) -/
def repl_esc_xml (m : RMatch) (cstart : Nat) (st : Anns × Unit) :
    PyStr × (Anns × Unit) :=
  match simple_replacements m.g0 with
  | some r => (r, st)
  | none => ([Char.ofNat (parse_base16_digits ((m.g0.drop 2).dropLast))], st)

/-- `unescape_xml` from `tei_to_standoff.py` lines 329-352. -/
def unescape_xml (text : PyStr) (mlist : List RMatch) (ann : Anns) : PyStr × Anns :=
  let r := get_string text mlist repl_esc_xml (ann, ())
  (r.1, r.2.1)

/-- `normalize_new_lines` from `tei_to_standoff.py` lines 314-326: two passes,
whitespace-flanked newline runs to one newline, then 3+ newlines to two. -/
def normalize_new_lines (text : PyStr) (mlist1 mlist2 : List RMatch) (ann : Anns) :
    PyStr × Anns :=
  let r1 := get_string text mlist1 (fun _ _ st => ((['\n'] : PyStr), st)) (ann, ())
  let r2 := get_string r1.1 mlist2 (fun _ _ st => (nl2, st)) (r1.2.1, ())
  (r2.1, r2.2.1)

/-- Python `\s` on the ASCII whitespace the pipeline produces. -/
def pyIsSpace (c : Char) : Bool :=
  c == ' ' || c == '\t' || c == '\n' || c == '\r' || c == '\x0b' || c == '\x0c'

/-- `_shift_all_annotations` from `tei_to_standoff.py` lines 355-380: shift all
coordinates, clamping each at 0. -/
def _shift_all_annotations (ann : Anns) (offset : Int) : Anns :=
  if offset = 0 then ann
  else
    { pages := ann.pages.map (fun p =>
        { p with cstart := max 0 (p.cstart + offset), cend := max 0 (p.cend + offset) }),
      hi := ann.hi.map (fun h =>
        { h with cstart := max 0 (h.cstart + offset), cend := max 0 (h.cend + offset) }),
      milestones := ann.milestones.map (fun kv => (kv.1, max 0 (kv.2 + offset))),
      div_boundaries := ann.div_boundaries.map (fun b =>
        { b with cstart := max 0 (b.cstart + offset), cend := max 0 (b.cend + offset) }) }

/-- The clamping loop of `trim_text_and_adjust_annotations`
(`tei_to_standoff.py` lines 534-546): any coordinate beyond the new length is
pulled back to it. -/
def clamp_above (ann : Anns) (new_length : Int) : Anns :=
  { pages := ann.pages.map (fun p =>
      { p with cstart := if new_length < p.cstart then new_length else p.cstart,
               cend := if new_length < p.cend then new_length else p.cend }),
    hi := ann.hi.map (fun h =>
      { h with cstart := if new_length < h.cstart then new_length else h.cstart,
               cend := if new_length < h.cend then new_length else h.cend }),
    milestones := ann.milestones.map (fun kv =>
      if new_length < kv.2 then (kv.1, new_length) else kv),
    div_boundaries := ann.div_boundaries.map (fun b =>
      { b with cstart := if new_length < b.cstart then new_length else b.cstart,
               cend := if new_length < b.cend then new_length else b.cend }) }

/-- `trim_text_and_adjust_annotations` from `tei_to_standoff.py` lines 503-548. -/
def trim_text_and_adjust_annotations (text : PyStr) (ann : Anns) : PyStr × Anns :=
  let s_count := (text.takeWhile pyIsSpace).length
  let text1 := if 0 < s_count then text.drop s_count else text
  let ann1 := if 0 < s_count then _shift_all_annotations ann (-(s_count : Int)) else ann
  let e_count := (text1.reverse.takeWhile pyIsSpace).length
  if 0 < e_count then
    let new_length := text1.length - e_count
    (text1.take new_length, clamp_above ann1 (new_length : Int))
  else (text1, ann1)

/-- Python `text[i]` as the skip-newline loop reads it (negative indices wrap
from the end; a negative index past the front, where Python would raise, yields
`none` and stops the loop). -/
def pyCharAt (text : PyStr) (i : Int) : Option Char :=
  if 0 ≤ i then text.get? i.toNat
  else if 0 ≤ i + (text.length : Int) then text.get? (i + (text.length : Int)).toNat
  else none

def skip_newlines_fuel (text : PyStr) : Nat → Int → Int
  | 0, p => p
  | fuel+1, p =>
      if p < (text.length : Int) ∧ pyCharAt text p = some '\n'
      then skip_newlines_fuel text fuel (p + 1) else p

/-- `_skip_newlines` from `align_div_milestones_nl`
(`tei_to_standoff.py` lines 406-409). -/
def skip_newlines (text : PyStr) (p : Int) : Int :=
  skip_newlines_fuel text ((text.length : Int) - p).toNat p

/-- `align_div_milestones_nl` from `tei_to_standoff.py` lines 383-418. -/
def align_div_milestones_nl (text : PyStr) (ann : Anns) : Anns :=
  if ann.div_boundaries = [] ∨ ann.milestones = [] then ann
  else
    { ann with
      milestones := ann.milestones.map (fun kv => (kv.1, skip_newlines text kv.2)),
      div_boundaries := ann.div_boundaries.map
        (fun b => { b with cend := skip_newlines text b.cend }) }

/-- `synthesize_page_boundary_milestones` from `tei_to_standoff.py`
lines 421-458. -/
def synthesize_page_boundary_milestones (ann : Anns) : Anns :=
  { ann with
    milestones := ann.pages.foldl (fun ms p =>
      let ms1 := dictUpsert ms (("bop:" ++ toString p.pnum).data) p.cstart
      dictUpsert ms1 (("eop:" ++ toString p.pnum).data) p.cend) ann.milestones }

/-- The match lists found by `re.finditer` for the eight string-rewrite passes
of `convert_tei_root_to_standoff`, in pass order. -/
structure MatchData where
  mdiv : List RMatch := []
  mmil : List RMatch := []
  mpb : List RMatch := []
  mhi : List RMatch := []
  mrm : List RMatch := []
  mesc : List RMatch := []
  mnl1 : List RMatch := []
  mnl2 : List RMatch := []

/-- The string-level pipeline of `convert_tei_root_to_standoff`
(`tei_to_standoff.py` lines 748-775): the tree pre-processing stage only
determines the serialized input string `xml_str` (and hence the match lists),
over which this function is universally quantified. -/
def convert_standoff_pipeline (xml_str : PyStr) (xml_space_preserve : Bool)
    (md : MatchData) : PyStr × Anns :=
  let ann : Anns := {}
  let r1 := convert_div_boundaries xml_str md.mdiv ann
  let r2 := convert_milestones r1.1 md.mmil r1.2
  let r3 := convert_pages r2.1 md.mpb r2.2
  let r4 := convert_hi r3.1 md.mhi r3.2
  let r5 := remove_other_markers r4.1 md.mrm r4.2
  let r6 := unescape_xml r5.1 md.mesc r5.2
  let r7 := normalize_new_lines r6.1 md.mnl1 md.mnl2 r6.2
  let r8 := trim_text_and_adjust_annotations r7.1 r7.2
  let ann9 := if xml_space_preserve then r8.2 else align_div_milestones_nl r8.1 r8.2
  let ann10 := synthesize_page_boundary_milestones ann9
  (r8.1, ann10)

/-- Milestone dict lookup `milestones[k]` / `k in milestones`. -/
def lookupMs (l : List (PyStr × Int)) (k : PyStr) : Option Int :=
  (l.find? (fun kv => kv.1 == k)).map (·.2)

/-- `milestones.get(k, dflt)`. -/
def lookupMsD (l : List (PyStr × Int)) (k : PyStr) (dflt : Int) : Int :=
  match lookupMs l k with
  | some v => v
  | none => dflt

/-- `EtextSegment` from `buda_api.py` lines 262-301: a view of a converted
etext between two milestone boundaries. -/
structure EtextSegment where
  full_text : PyStr
  anns : Anns
  start_id : Option PyStr
  end_id : Option PyStr
  etext_num : Int
  milestones : List (PyStr × Int)
  start_pos : Int
  end_pos : Int
deriving Repr, DecidableEq

/-- `EtextSegment.__init__` (`buda_api.py` lines 271-301): a start/end id that
is falsy or absent from the milestone table leaves the boundary at the document
start/end (the code logs a warning in the absent case). -/
def mkEtextSegment (text : PyStr) (ann : Anns) (start_id end_id : Option PyStr)
    (etext_num : Int) : EtextSegment :=
  let milestones := ann.milestones
  let start_pos : Int :=
    match start_id with
    | some sid =>
        if sid ≠ [] then
          match lookupMs milestones sid with
          | some v => v
          | none => 0
        else 0
    | none => 0
  let end_pos : Int :=
    match end_id with
    | some eid =>
        if eid ≠ [] then
          match lookupMs milestones eid with
          | some v => v
          | none => (text.length : Int)
        else (text.length : Int)
    | none => (text.length : Int)
  { full_text := text, anns := ann, start_id := start_id, end_id := end_id,
    etext_num := etext_num, milestones := milestones,
    start_pos := start_pos, end_pos := end_pos }

/-- `EtextSegment.get_text` (`buda_api.py` lines 303-310); the positions are
non-negative in every reachable state, which is the case `pySlice` covers. -/
def EtextSegment.get_text (seg : EtextSegment) : PyStr :=
  pySlice seg.full_text seg.start_pos.toNat seg.end_pos.toNat

/-- `EtextSegment.get_annotations_for_segment` (`buda_api.py` lines 312-361). -/
def EtextSegment.get_annotations_for_segment (seg : EtextSegment) (offset : Int) : Anns :=
  { pages := (seg.anns.pages.filter (fun p =>
      decide (seg.start_pos ≤ p.cstart) && decide (p.cstart < seg.end_pos))).map
      (fun p => { p with cstart := p.cstart - seg.start_pos + offset,
                         cend := min p.cend seg.end_pos - seg.start_pos + offset }),
    hi := (seg.anns.hi.filter (fun h =>
      decide (seg.start_pos ≤ h.cstart) && decide (h.cstart < seg.end_pos))).map
      (fun h => { h with cstart := h.cstart - seg.start_pos + offset,
                         cend := min h.cend seg.end_pos - seg.start_pos + offset }),
    milestones := (seg.anns.milestones.filter (fun kv =>
      decide (seg.start_pos ≤ kv.2) && decide (kv.2 < seg.end_pos))).map
      (fun kv => (kv.1, kv.2 - seg.start_pos + offset)),
    div_boundaries := (seg.anns.div_boundaries.filter (fun b =>
      decide (seg.start_pos ≤ b.cstart) && decide (b.cstart < seg.end_pos))).map
      (fun b => { b with cstart := b.cstart - seg.start_pos + offset,
                         cend := min b.cend seg.end_pos - seg.start_pos + offset }) }

/-- A content-location record as consumed by `_find_matching_cl`
(`es_utils.py`): target id `mw`, etext index range, optional boundary
milestone ids. -/
structure ContentLocation where
  mw : PyStr := []
  etextnum_start : Option Int := none
  etextnum_end : Option Int := none
  id_in_etext : Option PyStr := none
  end_id_in_etext : Option PyStr := none
deriving Repr, DecidableEq

/-- Python `v or dflt` on an optional int (`None` and `0` are falsy). -/
def pyOrInt (v : Option Int) (dflt : Int) : Int :=
  match v with
  | some x => if x = 0 then dflt else x
  | none => dflt

/-- Python truthiness of an optional string (`None` and `""` are falsy). -/
def pyTruthyStr (v : Option PyStr) : Bool :=
  match v with
  | some sv => sv ≠ []
  | none => false

/-- The per-candidate test of `_find_matching_cl` (`es_utils.py` lines 264-294):
`true` exactly when the loop body reaches `return cl` instead of `continue`. -/
def _cl_matches_segment (seg : EtextSegment) (cl : ContentLocation) : Bool :=
  let cl_start_etext := pyOrInt cl.etextnum_start 1
  let cl_end_etext := pyOrInt cl.etextnum_end seg.etext_num
  if seg.etext_num < cl_start_etext ∨ cl_end_etext < seg.etext_num then false
  else
    let startOk : Bool :=
      if seg.etext_num = cl_start_etext ∧ pyTruthyStr cl.id_in_etext then
        match cl.id_in_etext with
        | none => true
        | some sid =>
          match lookupMs seg.milestones sid with
          | none => false
          | some clv =>
            match seg.start_id with
            | none => true
            | some st_id =>
                if st_id ≠ [] then decide (¬ lookupMsD seg.milestones st_id 0 < clv)
                else true
      else true
    let endOk : Bool :=
      if seg.etext_num = cl_end_etext ∧ pyTruthyStr cl.end_id_in_etext then
        match cl.end_id_in_etext with
        | none => true
        | some eid =>
          match lookupMs seg.milestones eid with
          | none => false
          | some clv =>
            match seg.end_id with
            | none => true
            | some en_id =>
                if en_id ≠ [] then
                  match lookupMs seg.milestones en_id with
                  | some segv => decide (¬ clv < segv)
                  | none => false
                else true
      else true
    startOk && endOk

/-- `_find_matching_cl` from `es_utils.py` lines 249-296: the first content
location whose test passes, or `none` (the segment is then treated as a gap). -/
def _find_matching_cl (seg : EtextSegment) (content_locations : List ContentLocation) :
    Option ContentLocation :=
  content_locations.find? (_cl_matches_segment seg)

/-- `_is_end_of_content_location` from `es_utils.py` lines 298-323. -/
def _is_end_of_content_location (seg : EtextSegment) (cl : ContentLocation) : Bool :=
  let cl_end_etext := pyOrInt cl.etextnum_end seg.etext_num
  if seg.etext_num = cl_end_etext then
    if pyTruthyStr cl.end_id_in_etext then decide (seg.end_id = cl.end_id_in_etext)
    else decide (seg.end_id = none)
  else false

/-- `_shift_pages` from `es_utils.py` lines 570-577: shift every page number by
`p_shift` in place (no-op for a zero shift or no pages). -/
def _shift_pages (ann : Anns) (p_shift : Int) : Anns :=
  if p_shift = 0 ∨ ann.pages = [] then ann
  else { ann with pages := ann.pages.map (fun p => { p with pnum := p.pnum + p_shift }) }

/-- `_get_last_pnum` from `es_utils.py` lines 338-342. -/
def _get_last_pnum (ann : Anns) (current_last : Int) : Int :=
  match ann.pages.getLast? with
  | some p => p.pnum
  | none => current_last

/-- `_shift_all_annotations` from `es_utils.py` lines 547-568 (unlike the
tei_to_standoff namesake it does not clamp at zero and it does shift
`div_boundaries`). -/
def es_shift_all_annotations (ann : Anns) (start_at_c : Int) : Anns :=
  if start_at_c = 0 then ann
  else
    { pages := ann.pages.map (fun p =>
        { p with cstart := p.cstart + start_at_c, cend := p.cend + start_at_c }),
      hi := ann.hi.map (fun h =>
        { h with cstart := h.cstart + start_at_c, cend := h.cend + start_at_c }),
      milestones := ann.milestones.map (fun kv => (kv.1, kv.2 + start_at_c)),
      div_boundaries := ann.div_boundaries.map (fun b =>
        { b with cstart := b.cstart + start_at_c, cend := b.cend + start_at_c }) }

/-- The slice of the indexed document built by `_build_etext_doc`
(`es_utils.py` lines 492-545) that the verified properties concern: character
range, pages and spans. The constant indexing metadata fields and the chunk
list (chunking is the external collaborator excluded from the core) are
omitted; they read but do not write pages or spans. -/
structure EtextDoc where
  cstart : Int
  cend : Int
  etext_pages : List PageAnn
  etext_spans : List HiAnn
deriving Repr, DecidableEq

/-- `_build_etext_doc` (`es_utils.py` lines 492-545, annotation-relevant part):
shifts all character coordinates by `start_at_c`, shifts page numbers by
`last_pnum`, and copies the resulting pages/spans into the document. It
mutates the annotations dict in place; the mutated dict is returned alongside. -/
def _build_etext_doc (base_string : PyStr) (ann : Anns) (start_at_c : Int)
    (last_pnum : Int) : EtextDoc × Anns :=
  let ann1 := es_shift_all_annotations ann start_at_c
  let ann2 := _shift_pages ann1 last_pnum
  ({ cstart := start_at_c, cend := start_at_c + (base_string.length : Int),
     etext_pages := ann2.pages, etext_spans := ann2.hi }, ann2)

/-- `_create_document_from_parts` from `es_utils.py` lines 344-362: shifts the
page numbers by `last_pnum` and then delegates to `_build_etext_doc`, passing
`last_pnum` again. -/
def _create_document_from_parts (text : PyStr) (ann : Anns) (start_at_c : Int)
    (last_pnum : Int) : EtextDoc × Anns :=
  let ann1 := _shift_pages ann last_pnum
  _build_etext_doc text ann1 start_at_c last_pnum

/-- The body-missing branch of `convert_tei_root_to_standoff`
(`tei_to_standoff.py` lines 610-614): the explicit no-content 3-tuple. -/
def convert_tei_root_to_standoff_no_body : Option PyStr × Option Anns × Option PyStr :=
  (none, none, none)

/-- The keyword arguments Python's `logging.error(msg, *args, **kwargs)`
forwards to `Logger._log`: `exc_info`, `extra`, `stack_info`, `stacklevel`.
Modelled from the Python standard-library API that
`es_utils.convert_tei_root_to_text` calls; any other keyword raises
`TypeError`. -/
def logging_error_accepts_kwarg (k : PyStr) : Bool :=
  k == "exc_info".data || k == "extra".data || k == "stack_info".data ||
    k == "stacklevel".data

/-- The body-missing branch of `es_utils.convert_tei_root_to_text`
(`es_utils.py` lines 910-912): it calls
`logging.error("No body element found in the TEI document", file=sys.stderr)` —
which raises `TypeError`, captured by `Except.error` — and, were that call to
succeed, would `return None`: a single value, not the documented 3-tuple. -/
def convert_tei_root_to_text_no_body :
    Except PyStr (Option (PyStr × Anns × Option PyStr)) :=
  if logging_error_accepts_kwarg "file".data then Except.ok none
  else Except.error "TypeError: error() got an unexpected keyword argument".data

/-- C7 (code evaluated at the failing input): on a tree with no body element,
`convert_tei_root_to_standoff` yields the explicit no-content 3-tuple, while
the `es_utils.convert_tei_root_to_text` copy raises (its
`logging.error(..., file=sys.stderr)` call passes a keyword `logging.error`
does not accept) instead of returning the documented 3-tuple. -/
theorem C7_no_body_result :
    convert_tei_root_to_standoff_no_body = (none, none, none) ∧
      ∃ msg, convert_tei_root_to_text_no_body = Except.error msg := by
  refine ⟨rfl, "TypeError: error() got an unexpected keyword argument".data, ?_⟩
  rfl

/-- C8 (code evaluated at the failing input): the five named references are
replaced by the character they denote, but a numeric character reference is
parsed as hexadecimal although `&#N;` denotes code point `N` in decimal:
`unescape_xml` turns `a&#38;b` into `a8b` (`chr(0x38)`), not `a&b`
(`chr(38)`). -/
theorem C8_numeric_entity_decoded_as_hex :
    (unescape_xml "a&quot;b".data [{ s := 1, e := 7, g0 := "&quot;".data }] {}).1
        = "a\"b".data ∧
    (unescape_xml "a&apos;b".data [{ s := 1, e := 7, g0 := "&apos;".data }] {}).1
        = "a'b".data ∧
    (unescape_xml "a&lt;b".data [{ s := 1, e := 5, g0 := "&lt;".data }] {}).1
        = "a<b".data ∧
    (unescape_xml "a&gt;b".data [{ s := 1, e := 5, g0 := "&gt;".data }] {}).1
        = "a>b".data ∧
    (unescape_xml "a&amp;b".data [{ s := 1, e := 6, g0 := "&amp;".data }] {}).1
        = "a&b".data ∧
    (unescape_xml "a&#38;b".data [{ s := 1, e := 6, g0 := "&#38;".data }] {}).1
        = "a8b".data ∧
    (unescape_xml "a&#38;b".data [{ s := 1, e := 6, g0 := "&#38;".data }] {}).1
        ≠ "a&b".data := by
  refine ⟨rfl, rfl, rfl, rfl, rfl, rfl, ?_⟩
  decide

/-- The annotations of the first converted etext in the C6 scenario: three
pages numbered 1..3 by the converter. -/
def c6ann1 : Anns :=
  { pages := [ { pnum := 1, cstart := 0, cend := 2 },
               { pnum := 2, cstart := 4, cend := 6 },
               { pnum := 3, cstart := 8, cend := 10 } ] }

/-- The annotations of the second converted etext in the C6 scenario: two
pages numbered 1..2 by the converter. -/
def c6ann2 : Anns :=
  { pages := [ { pnum := 1, cstart := 0, cend := 2 },
               { pnum := 2, cstart := 4, cend := 6 } ] }

/-- C6 (code evaluated at the failing input): in the outline path the emission
sequence is `_create_document_from_parts` (which shifts page numbers by
`last_pnum` and then calls `_build_etext_doc`, which shifts them by `last_pnum`
again) followed by `_get_last_pnum` on the mutated annotations. For a document
of 3 pages followed by one of 2 pages, the second document's first page is
numbered 7 = 1 + 2·3, not 4 = 3 + 1 as continuous renumbering requires. -/
theorem C6_page_renumbering_not_continuous :
    (let r1 := _create_document_from_parts "aaaaaaaaaa".data c6ann1 0 0
     let lp := _get_last_pnum r1.2 0
     let r2 := _create_document_from_parts "aaaaaa".data c6ann2 10 lp
     lp = 3 ∧ r1.1.etext_pages.map (·.pnum) = [1, 2, 3] ∧
       r2.1.etext_pages.map (·.pnum) = [7, 8] ∧
       ((r2.1.etext_pages.map (·.pnum)).head? = some 7 ∧
         ¬ (r2.1.etext_pages.map (·.pnum)).head? = some 4)) := by
  decide

/-- Concatenation of page texts with the synthetic 2-character separator
between consecutive pages. -/
def joinSep : List PyStr → PyStr
  | [] => []
  | [x] => x
  | x :: xs => x ++ nl2 ++ joinSep xs

/-- A segment of a document with no milestones at all. -/
def c5seg : EtextSegment := mkEtextSegment "hello".data {} none none 1

/-- A content location whose start milestone id `m1` does not occur in the
document. -/
def c5cl : ContentLocation :=
  { mw := "A".data, etextnum_start := some 1, etextnum_end := some 1,
    id_in_etext := some "m1".data }

/-- C5 counterexample: the only content location of the volume references a
start milestone id absent from the document's milestone table; the matcher
does not fall back to the document start — it skips the content location, so
the segment matches nothing and becomes a gap. -/
theorem C5_counterexample_absent_milestone_makes_gap :
    _find_matching_cl c5seg [c5cl] = none := by decide

/-- C5 amended: an absent (or falsy) boundary milestone id falls back to the
document start/end only when the `EtextSegment` itself is constructed; a
`ContentLocation` whose start (resp. end) milestone id is absent from the
milestone table of a segment in its boundary etext is skipped by
`_find_matching_cl` for that segment, which can therefore become a gap. -/
theorem C5_absent_milestone_behavior (text : PyStr) (ann : Anns) (sid eid : PyStr)
    (n : Int) (seg : EtextSegment) (cl : ContentLocation)
    (rest : List ContentLocation) :
    (sid ≠ [] → lookupMs ann.milestones sid = none →
      (mkEtextSegment text ann (some sid) (some eid) n).start_pos = 0) ∧
    (eid ≠ [] → lookupMs ann.milestones eid = none →
      (mkEtextSegment text ann (some sid) (some eid) n).end_pos = (text.length : Int)) ∧
    (seg.etext_num = pyOrInt cl.etextnum_start 1 →
      (∀ s0, cl.id_in_etext = some s0 → s0 ≠ [] ∧ lookupMs seg.milestones s0 = none) →
      cl.id_in_etext ≠ none →
      _find_matching_cl seg (cl :: rest) = _find_matching_cl seg rest) ∧
    (seg.etext_num = pyOrInt cl.etextnum_end seg.etext_num →
      (∀ e0, cl.end_id_in_etext = some e0 → e0 ≠ [] ∧ lookupMs seg.milestones e0 = none) →
      cl.end_id_in_etext ≠ none →
      _find_matching_cl seg (cl :: rest) = _find_matching_cl seg rest) := by
  refine ⟨?_, ?_, ?_, ?_⟩
  · intro hne habs
    simp [mkEtextSegment, habs]
  · intro hne habs
    simp [mkEtextSegment, habs]
  · intro hstart hids hsome
    cases hid : cl.id_in_etext with
    | none => exact absurd hid hsome
    | some s0 =>
      obtain ⟨hs0ne, hs0abs⟩ := hids s0 hid
      have hfalse : _cl_matches_segment seg cl = false := by
        unfold _cl_matches_segment
        by_cases hrange : seg.etext_num < pyOrInt cl.etextnum_start 1 ∨
            pyOrInt cl.etextnum_end seg.etext_num < seg.etext_num
        · simp [hrange]
        · have htr : pyTruthyStr cl.id_in_etext = true := by
            simp [pyTruthyStr, hid, hs0ne]
          simp only [if_neg hrange]
          rw [if_pos ⟨hstart, htr⟩, hid]
          simp [hs0abs]
      unfold _find_matching_cl
      rw [List.find?_cons_of_neg _ (by simp [hfalse])]
  · intro hend hids hsome
    cases hid : cl.end_id_in_etext with
    | none => exact absurd hid hsome
    | some e0 =>
      obtain ⟨he0ne, he0abs⟩ := hids e0 hid
      have hfalse : _cl_matches_segment seg cl = false := by
        unfold _cl_matches_segment
        by_cases hrange : seg.etext_num < pyOrInt cl.etextnum_start 1 ∨
            pyOrInt cl.etextnum_end seg.etext_num < seg.etext_num
        · simp [hrange]
        · have htr : pyTruthyStr cl.end_id_in_etext = true := by
            simp [pyTruthyStr, hid, he0ne]
          simp only [if_neg hrange]
          rw [if_pos (show seg.etext_num = pyOrInt cl.etextnum_end seg.etext_num ∧
                pyTruthyStr cl.end_id_in_etext = true from ⟨hend, htr⟩), hid]
          simp [he0abs]
      unfold _find_matching_cl
      rw [List.find?_cons_of_neg _ (by simp [hfalse])]

/-- Witness for C5's amended statement at a concrete segment, content location
and milestone tables. -/
theorem C5_absent_milestone_behavior_witness :
    (("m9".data : PyStr) ≠ [] ∧ lookupMs (Anns.milestones {}) "m9".data = none ∧
      (mkEtextSegment "hello".data {} (some "m9".data) (some "m8".data) 1).start_pos = 0) ∧
    (c5seg.etext_num = pyOrInt c5cl.etextnum_start 1 ∧
      _find_matching_cl c5seg (c5cl :: []) = _find_matching_cl c5seg []) := by
  constructor
  · refine ⟨by decide, by decide, ?_⟩
    exact (C5_absent_milestone_behavior "hello".data {} "m9".data "m8".data 1
      c5seg c5cl []).1 (by decide) (by decide)
  · refine ⟨by decide, ?_⟩
    exact (C5_absent_milestone_behavior "hello".data {} "m9".data "m8".data 1
      c5seg c5cl []).2.2.1 (by decide) (by decide) (by decide)

/-- C10: segment annotation extraction keeps exactly the annotations whose
start offset lies in `[start_pos, end_pos)`, truncates their end at the segment
end before applying the offset, and every returned coordinate lies within
`[offset, offset + (end_pos - start_pos)]`. -/
theorem C10_segment_annotation_bounds (seg : EtextSegment) (offset : Int)
    (hoff : 0 ≤ offset)
    (hpage : ∀ p ∈ seg.anns.pages, p.cstart ≤ p.cend)
    (hhi : ∀ h ∈ seg.anns.hi, h.cstart ≤ h.cend)
    (hdiv : ∀ b ∈ seg.anns.div_boundaries, b.cstart ≤ b.cend) :
    (∀ p ∈ (seg.get_annotations_for_segment offset).pages,
        offset ≤ p.cstart ∧ p.cstart ≤ offset + (seg.end_pos - seg.start_pos) ∧
        offset ≤ p.cend ∧ p.cend ≤ offset + (seg.end_pos - seg.start_pos)) ∧
    (∀ h ∈ (seg.get_annotations_for_segment offset).hi,
        offset ≤ h.cstart ∧ h.cstart ≤ offset + (seg.end_pos - seg.start_pos) ∧
        offset ≤ h.cend ∧ h.cend ≤ offset + (seg.end_pos - seg.start_pos)) ∧
    (∀ kv ∈ (seg.get_annotations_for_segment offset).milestones,
        offset ≤ kv.2 ∧ kv.2 ≤ offset + (seg.end_pos - seg.start_pos)) ∧
    (∀ b ∈ (seg.get_annotations_for_segment offset).div_boundaries,
        offset ≤ b.cstart ∧ b.cstart ≤ offset + (seg.end_pos - seg.start_pos) ∧
        offset ≤ b.cend ∧ b.cend ≤ offset + (seg.end_pos - seg.start_pos)) ∧
    ((seg.get_annotations_for_segment offset).pages =
      (seg.anns.pages.filter (fun p =>
        decide (seg.start_pos ≤ p.cstart) && decide (p.cstart < seg.end_pos))).map
        (fun p => { p with cstart := p.cstart - seg.start_pos + offset,
                           cend := min p.cend seg.end_pos - seg.start_pos + offset })) := by
  refine ⟨?_, ?_, ?_, ?_, rfl⟩
  · intro p hp
    simp only [EtextSegment.get_annotations_for_segment, List.mem_map,
      List.mem_filter] at hp
    obtain ⟨q, ⟨hqm, hqf⟩, rfl⟩ := hp
    simp only [Bool.and_eq_true, decide_eq_true_eq] at hqf
    have := hpage q hqm
    simp only
    omega
  · intro h hh
    simp only [EtextSegment.get_annotations_for_segment, List.mem_map,
      List.mem_filter] at hh
    obtain ⟨q, ⟨hqm, hqf⟩, rfl⟩ := hh
    simp only [Bool.and_eq_true, decide_eq_true_eq] at hqf
    have := hhi q hqm
    simp only
    omega
  · intro kv hkv
    simp only [EtextSegment.get_annotations_for_segment, List.mem_map,
      List.mem_filter] at hkv
    obtain ⟨q, ⟨hqm, hqf⟩, rfl⟩ := hkv
    simp only [Bool.and_eq_true, decide_eq_true_eq] at hqf
    simp only
    omega
  · intro b hb
    simp only [EtextSegment.get_annotations_for_segment, List.mem_map,
      List.mem_filter] at hb
    obtain ⟨q, ⟨hqm, hqf⟩, rfl⟩ := hb
    simp only [Bool.and_eq_true, decide_eq_true_eq] at hqf
    have := hdiv q hqm
    simp only
    omega

/-- A concrete segment of a 6-character document between milestones `m1` (at 2)
and `m2` (at 4), with one page and one highlight annotation. -/
def c10seg : EtextSegment :=
  mkEtextSegment "abcdef".data
    { pages := [ { pnum := 1, cstart := 0, cend := 6 },
                 { pnum := 2, cstart := 3, cend := 6 } ],
      hi := [ { rend := "head".data, cstart := 2, cend := 5 } ],
      milestones := [("m1".data, 2), ("m2".data, 4)] }
    (some "m1".data) (some "m2".data) 1

/-- Witness for C10 at a concrete segment and offset. -/
theorem C10_segment_annotation_bounds_witness :
    ((0 : Int) ≤ 10 ∧ ∀ p ∈ c10seg.anns.pages, p.cstart ≤ p.cend) ∧
    (∀ kv ∈ (c10seg.get_annotations_for_segment 10).milestones,
        (10 : Int) ≤ kv.2 ∧ kv.2 ≤ 10 + (c10seg.end_pos - c10seg.start_pos)) := by
  refine ⟨⟨by decide, by decide⟩, ?_⟩
  exact (C10_segment_annotation_bounds c10seg 10 (by decide) (by decide)
    (by decide) (by decide)).2.2.1

/-- The C3 counterexample input: text before the first page marker. -/
def c3text : PyStr := "abc<pb_marker>1</pb_marker>def".data

/-- The single `finditer` match of the page-marker pattern on `c3text`. -/
def c3match : RMatch :=
  { s := 3, e := 27, g0 := "<pb_marker>1</pb_marker>".data, pname := some "1".data }

/-- C3 counterexample: when text precedes the first page marker, the emitted
pages do not partition the text — the sole page is `[5, 8)` = `"def"` of the
8-character output `"abc\n\ndef"`, so concatenating the page texts (with the
2-character separators between consecutive pages) does not reproduce the
text. -/
theorem C3_counterexample_prefix_before_first_page :
    (convert_pages c3text [c3match] {}).1 = "abc\n\ndef".data ∧
    (convert_pages c3text [c3match] {}).2.pages =
      [ { pname := some "1".data, pnum := 1, cstart := 5, cend := 8 } ] ∧
    joinSep ((convert_pages c3text [c3match] {}).2.pages.map
        (fun p => pySlice (convert_pages c3text [c3match] {}).1 p.cstart.toNat p.cend.toNat)) ≠
      (convert_pages c3text [c3match] {}).1 := by
  refine ⟨by decide, by decide, by decide⟩

theorem pyFind_append {α : Type} (p : α → Bool) (l1 l2 : List α) :
    (l1 ++ l2).find? p = match l1.find? p with
      | some x => some x
      | none => l2.find? p := by
  induction l1 with
  | nil => simp
  | cons a l ih =>
    by_cases h : p a
    · simp [List.find?_cons_of_pos _ h]
    · simp [List.find?_cons_of_neg _ h, ih]

theorem bisect_append_gt (l1 l2 : List Nat) (x : Int)
    (h : ∀ q ∈ l2, x < (q : Int)) : bisect (l1 ++ l2) x = bisect l1 x := by
  unfold bisect
  rw [List.countP_append]
  have hz : l2.countP (fun p : Nat => decide ((p : Int) ≤ x)) = 0 := by
    rw [List.countP_eq_zero]
    intro q hq
    simp only [decide_eq_true_eq]
    exact not_le.mpr (h q hq)
  omega

theorem getD_append_left_int (l1 l2 : List Int) (i : Nat) (h : i < l1.length) :
    (l1 ++ l2).getD i 0 = l1.getD i 0 := by
  rw [List.getD_eq_getElem _ _ (by rw [List.length_append]; omega),
      List.getD_eq_getElem _ _ h]
  exact List.getElem_append_left h

theorem correct_position_append_stable (x : Int) (ps news : List Nat)
    (ds newd : List Int) (hlen : ps.length = ds.length)
    (hnew : ∀ q ∈ news, x < (q : Int)) :
    correct_position x (ps ++ news) (ds ++ newd) = correct_position x ps ds := by
  unfold correct_position
  rw [bisect_append_gt ps news x hnew]
  by_cases h : bisect ps x < 1
  · simp [h]
  · simp only [h, if_false]
    congr 1
    apply getD_append_left_int
    have h1 := bisect_le_length ps x
    omega

theorem correct_position_full (x : Int) (ps : List Nat) (ds : List Int) (cum : Int)
    (hlen : ps.length = ds.length) (hne : ps ≠ [])
    (hall : ∀ q ∈ ps, (q : Int) ≤ x) (hlast : ds.getLast? = some cum) :
    correct_position x ps ds = x + cum := by
  have hfull : bisect ps x = ps.length := by
    unfold bisect
    rw [List.countP_eq_length]
    intro q hq
    simp [hall q hq]
  have hpos : 1 ≤ ps.length := by
    cases ps with
    | nil => exact absurd rfl hne
    | cons _ _ => simp
  have hd : ds ≠ [] := by
    intro h
    rw [h] at hlen
    simp at hlen
    exact hne hlen
  have hdl : ds.length - 1 < ds.length := by
    cases ds with
    | nil => exact absurd rfl hd
    | cons _ _ => simp
  unfold correct_position
  simp only [hfull]
  rw [if_neg (by omega : ¬ ps.length < 1)]
  have hgd : ds.getD (ps.length - 1) 0 = cum := by
    rw [hlen, List.getD_eq_getElem _ _ hdl]
    rw [List.getLast?_eq_getElem?, List.getElem?_eq_getElem hdl] at hlast
    exact Option.some.inj hlast
  rw [hgd]

theorem getLast?_append_right_int (l1 l2 : List Int) (h : l2 ≠ []) :
    (l1 ++ l2).getLast? = l2.getLast? := by
  induction l1 with
  | nil => simp
  | cons a l ih =>
    rw [List.cons_append, List.getLast?_cons, ih]
    cases l2 with
    | nil => exact absurd rfl h
    | cons b l2' =>
      have : l ++ b :: l2' ≠ [] := by simp
      cases hx : l ++ b :: l2' with
      | nil => exact absurd hx this
      | cons c l3 => simp [List.getLast?_cons]

theorem pySlice_length (l : PyStr) (a b : Nat) (h1 : a ≤ b) (h2 : b ≤ l.length) :
    (pySlice l a b).length = b - a := by
  simp only [pySlice, List.length_drop, List.length_take]
  omega

/-- The point-adjustment function determined by a `get_string` loop state. -/
def GSadj {τ : Type} (acc : GSState τ) : Int → Int :=
  adjust_point acc.collapsed_spans acc.positions acc.diffs

/-- The loop invariant of `get_string`'s match loop. `map_tail`, `map_bound`
and `map_mono` summarize the behavior of point adjustment over the processed
region: identity-plus-cumulative past the last match, bounded by the output
produced so far before it, and monotone. -/
structure GSInv {τ : Type} (acc : GSState τ) : Prop where
  sorted : acc.positions.Sorted (· < ·)
  len_eq : acc.positions.length = acc.diffs.length
  pos_le : ∀ p ∈ acc.positions, p ≤ acc.last_match_end
  out_eq : (acc.output_len : Int) = (acc.last_match_end : Int) + acc.cumulative
  out_str : acc.output.length = acc.output_len
  cum_zero : acc.positions = [] → acc.cumulative = 0
  last_diff : acc.positions ≠ [] → acc.diffs.getLast? = some acc.cumulative
  spans_le : ∀ sp ∈ acc.collapsed_spans, sp.1 < sp.2.1 ∧ sp.2.1 ≤ acc.last_match_end
  map_tail : ∀ c : Int, (acc.last_match_end : Int) ≤ c → GSadj acc c = c + acc.cumulative
  map_bound : ∀ c : Int, 0 ≤ c → c ≤ (acc.last_match_end : Int) →
      0 ≤ GSadj acc c ∧ GSadj acc c ≤ (acc.output_len : Int)
  map_mono : ∀ c1 c2 : Int, 0 ≤ c1 → c1 ≤ c2 → GSadj acc c1 ≤ GSadj acc c2

theorem adjust_point_no_span (positions : List Nat) (diffs : List Int) (c : Int) :
    adjust_point [] positions diffs c = correct_position c positions diffs := rfl

theorem GSInv_init {τ : Type} (st0 : Anns × τ) :
    GSInv ({ st := st0 } : GSState τ) := by
  refine ⟨List.sorted_nil, rfl, by simp, by simp, rfl, fun _ => rfl,
    fun h => absurd rfl h, by simp, ?_, ?_, ?_⟩
  · intro c _
    show adjust_point [] [] [] c = c + 0
    rw [adjust_point_no_span]
    unfold correct_position bisect
    simp
  · intro c hc0 hcle
    have : c = 0 := le_antisymm (by simpa using hcle) hc0
    subst this
    show 0 ≤ adjust_point [] [] [] 0 ∧ adjust_point [] [] [] 0 ≤ (0 : Int)
    rw [adjust_point_no_span]
    unfold correct_position bisect
    simp
  · intro c1 c2 _ h12
    show adjust_point [] [] [] c1 ≤ adjust_point [] [] [] c2
    rw [adjust_point_no_span, adjust_point_no_span]
    unfold correct_position bisect
    simpa using h12

theorem add_position_diff_append (ps : List Nat) (ds : List Int) (p : Nat) (d : Int)
    (h : ∀ q ∈ ps, q < p) :
    add_position_diff ps ds p d = (ps ++ [p], ds ++ [d]) := by
  unfold add_position_diff
  cases hl : ps.getLast? with
  | none => rfl
  | some last =>
    have hmem : last ∈ ps := by
      have hx : last ∈ ps.getLast? := Option.mem_def.mpr hl
      obtain ⟨hne, heq⟩ := List.mem_getLast?_eq_getLast hx
      rw [heq]
      exact List.getLast_mem hne
    simp only []
    rw [if_pos (h last hmem)]

theorem adjust_point_of_found (spans : List (Nat × Nat × Nat)) (ps : List Nat)
    (ds : List Int) (c : Int) (s e r : Nat)
    (hfind : spans.find?
      (fun sp => decide ((sp.1 : Int) ≤ c) && decide (c < (sp.2.1 : Int))) =
      some (s, e, r)) :
    adjust_point spans ps ds c =
      correct_position (s : Int) ps ds +
        (if c - (s : Int) < (r : Int) then c - (s : Int) else (r : Int)) := by
  unfold adjust_point remap_if_inside_shrunk
  rw [hfind]

theorem adjust_point_of_none (spans : List (Nat × Nat × Nat)) (ps : List Nat)
    (ds : List Int) (c : Int)
    (hfind : spans.find?
      (fun sp => decide ((sp.1 : Int) ≤ c) && decide (c < (sp.2.1 : Int))) = none) :
    adjust_point spans ps ds c = correct_position c ps ds := by
  unfold adjust_point remap_if_inside_shrunk
  rw [hfind]

theorem shrink_state_inv {τ : Type} (acc : GSState τ) (m : RMatch) (hinv : GSInv acc)
    (hse : m.s < m.e) (hlast : acc.last_match_end ≤ m.s)
    (r : Nat) (hshrink : r < m.e - m.s)
    (news : List Nat) (newd : List Int)
    (hnlen : news.length = newd.length) (hnne : news ≠ [])
    (hngt : ∀ q ∈ news, acc.last_match_end < q ∧ m.s < q ∧ q ≤ m.e)
    (hnsorted : news.Sorted (· < ·))
    (hnlast : newd.getLast? =
      some (acc.cumulative + (r : Int) - ((m.e - m.s : Nat) : Int)))
    (out : PyStr) (st : Anns × τ)
    (houtlen : out.length = (acc.output_len + (m.s - acc.last_match_end)) + r) :
    GSInv ({ output := out,
             output_len := (acc.output_len + (m.s - acc.last_match_end)) + r,
             cumulative := acc.cumulative + (r : Int) - ((m.e - m.s : Nat) : Int),
             positions := acc.positions ++ news, diffs := acc.diffs ++ newd,
             last_match_end := m.e,
             collapsed_spans := acc.collapsed_spans ++ [(m.s, m.e, r)],
             st := st } : GSState τ) ∧
    (∀ c : Int, (m.s : Int) ≤ c → c < (m.e : Int) →
      adjust_point (acc.collapsed_spans ++ [(m.s, m.e, r)])
          (acc.positions ++ news) (acc.diffs ++ newd) c =
        ((m.s : Int) + acc.cumulative) + min (c - (m.s : Int)) (r : Int)) ∧
    (correct_position (m.s : Int) (acc.positions ++ news) (acc.diffs ++ newd) =
      (m.s : Int) + acc.cumulative) ∧
    (∀ c : Int, c < (m.s : Int) →
      adjust_point (acc.collapsed_spans ++ [(m.s, m.e, r)])
          (acc.positions ++ news) (acc.diffs ++ newd) c = GSadj acc c) := by
  have hnewd_ne : newd ≠ [] := by
    intro h
    rw [h] at hnlen
    simp at hnlen
    exact hnne hnlen
  have hold_le : ∀ q ∈ acc.positions, (q : Int) ≤ (m.s : Int) := by
    intro q hq
    exact_mod_cast le_trans (hinv.pos_le q hq) hlast
  have hnl : ((acc.output_len + (m.s - acc.last_match_end) : Nat) : Int) =
      (m.s : Int) + acc.cumulative := by
    have h1 := hinv.out_eq
    omega
  -- resolved position of the match start
  have hCPs : correct_position (m.s : Int) (acc.positions ++ news) (acc.diffs ++ newd) =
      (m.s : Int) + acc.cumulative := by
    rw [correct_position_append_stable _ _ _ _ _ hinv.len_eq
      (fun q hq => by exact_mod_cast (hngt q hq).2.1)]
    by_cases hps : acc.positions = []
    · have hds : acc.diffs = [] := by
        have hld := hinv.len_eq
        rw [hps] at hld
        simp only [List.length_nil] at hld
        exact List.length_eq_zero.mp hld.symm
      rw [hps, hds, hinv.cum_zero hps]
      unfold correct_position bisect
      simp
    · exact correct_position_full _ _ _ _ hinv.len_eq hps hold_le (hinv.last_diff hps)
  -- tail: adjustment past the new match end
  have htail : ∀ c : Int, (m.e : Int) ≤ c →
      adjust_point (acc.collapsed_spans ++ [(m.s, m.e, r)])
          (acc.positions ++ news) (acc.diffs ++ newd) c =
        c + (acc.cumulative + (r : Int) - ((m.e - m.s : Nat) : Int)) := by
    intro c hc
    have hfind : (acc.collapsed_spans ++ [(m.s, m.e, r)]).find?
        (fun sp => decide ((sp.1 : Int) ≤ c) && decide (c < (sp.2.1 : Int))) = none := by
      rw [List.find?_eq_none]
      intro sp hsp
      rcases List.mem_append.mp hsp with h | h
      · have := (hinv.spans_le sp h).2
        simp only [Bool.and_eq_true, decide_eq_true_eq, not_and]
        intro _
        have : (sp.2.1 : Int) ≤ acc.last_match_end := by exact_mod_cast this
        omega
      · simp only [List.mem_singleton] at h
        subst h
        simp only [Bool.and_eq_true, decide_eq_true_eq, not_and]
        intro _
        omega
    rw [adjust_point_of_none _ _ _ _ hfind]
    apply correct_position_full
    · rw [List.length_append, List.length_append, hinv.len_eq, hnlen]
    · simp [hnne]
    · intro q hq
      rcases List.mem_append.mp hq with h | h
      · have h1 := hold_le q h
        omega
      · have h1 := (hngt q h).2.2
        have : (q : Int) ≤ (m.e : Int) := by exact_mod_cast h1
        omega
    · rw [getLast?_append_right_int _ _ hnewd_ne]
      exact hnlast
  -- interior of the shrinking match
  have hmid : ∀ c : Int, (m.s : Int) ≤ c → c < (m.e : Int) →
      adjust_point (acc.collapsed_spans ++ [(m.s, m.e, r)])
          (acc.positions ++ news) (acc.diffs ++ newd) c =
        ((m.s : Int) + acc.cumulative) + min (c - (m.s : Int)) (r : Int) := by
    intro c hc1 hc2
    have hfind : (acc.collapsed_spans ++ [(m.s, m.e, r)]).find?
        (fun sp => decide ((sp.1 : Int) ≤ c) && decide (c < (sp.2.1 : Int))) =
        some (m.s, m.e, r) := by
      rw [pyFind_append]
      have hold : acc.collapsed_spans.find?
          (fun sp => decide ((sp.1 : Int) ≤ c) && decide (c < (sp.2.1 : Int))) = none := by
        rw [List.find?_eq_none]
        intro sp hsp
        have := (hinv.spans_le sp hsp).2
        simp only [Bool.and_eq_true, decide_eq_true_eq, not_and]
        intro _
        have : (sp.2.1 : Int) ≤ acc.last_match_end := by exact_mod_cast this
        omega
      rw [hold]
      simp only [List.find?_cons]
      have : (decide ((m.s : Int) ≤ c) && decide (c < ((m.e : Nat) : Int))) = true := by
        simp [hc1, hc2]
      rw [this]
    rw [adjust_point_of_found _ _ _ _ _ _ _ hfind, hCPs]
    congr 1
    rcases lt_or_le (c - (m.s : Int)) (r : Int) with h | h
    · rw [if_pos h, min_eq_left (le_of_lt h)]
    · rw [if_neg (not_lt.mpr h), min_eq_right h]
  -- before the match: unchanged
  have hlt : ∀ c : Int, c < (m.s : Int) →
      adjust_point (acc.collapsed_spans ++ [(m.s, m.e, r)])
          (acc.positions ++ news) (acc.diffs ++ newd) c = GSadj acc c := by
    intro c hc
    have hsplit : (acc.collapsed_spans ++ [(m.s, m.e, r)]).find?
        (fun sp => decide ((sp.1 : Int) ≤ c) && decide (c < (sp.2.1 : Int))) =
        acc.collapsed_spans.find?
          (fun sp => decide ((sp.1 : Int) ≤ c) && decide (c < (sp.2.1 : Int))) := by
      rw [pyFind_append]
      cases hf : acc.collapsed_spans.find?
          (fun sp => decide ((sp.1 : Int) ≤ c) && decide (c < (sp.2.1 : Int))) with
      | some sp => rfl
      | none =>
        simp only [List.find?_cons]
        have : (decide ((m.s : Int) ≤ c) && decide (c < ((m.e : Nat) : Int))) = false := by
          simp only [Bool.and_eq_false_iff]
          left
          simpa using not_le.mpr hc
        rw [this]
        rfl
    cases hf : acc.collapsed_spans.find?
        (fun sp => decide ((sp.1 : Int) ≤ c) && decide (c < (sp.2.1 : Int))) with
    | some sp =>
      obtain ⟨s0, e0, r0⟩ := sp
      have hmem := List.mem_of_find?_eq_some hf
      have hs0 := (hinv.spans_le _ hmem).1
      have he0 := (hinv.spans_le _ hmem).2
      have hstable : correct_position (s0 : Int) (acc.positions ++ news) (acc.diffs ++ newd) =
          correct_position (s0 : Int) acc.positions acc.diffs := by
        apply correct_position_append_stable _ _ _ _ _ hinv.len_eq
        intro q hq
        have h1 := (hngt q hq).1
        have : s0 < q := by omega
        exact_mod_cast this
      rw [adjust_point_of_found _ _ _ _ _ _ _ (hsplit.trans hf)]
      unfold GSadj
      rw [adjust_point_of_found _ _ _ _ _ _ _ hf, hstable]
    | none =>
      rw [adjust_point_of_none _ _ _ _ (hsplit.trans hf)]
      unfold GSadj
      rw [adjust_point_of_none _ _ _ _ hf]
      apply correct_position_append_stable _ _ _ _ _ hinv.len_eq
      intro q hq
      have h1 := (hngt q hq).2.1
      have : c < (q : Int) := by
        have : (m.s : Int) < (q : Int) := by exact_mod_cast h1
        omega
      exact this
  refine ⟨?_, hmid, hCPs, hlt⟩
  refine ⟨?_, ?_, ?_, ?_, ?_, ?_, ?_, ?_, ?_, ?_, ?_⟩
  · -- sorted
    rw [List.Sorted, List.pairwise_append]
    refine ⟨hinv.sorted, hnsorted, ?_⟩
    intro a ha b hb
    have h1 := hinv.pos_le a ha
    have h2 := (hngt b hb).1
    omega
  · -- len_eq
    simp only [List.length_append, hinv.len_eq, hnlen]
  · -- pos_le
    intro p hp
    show p ≤ m.e
    rcases List.mem_append.mp hp with h | h
    · have h1 := hinv.pos_le p h
      omega
    · exact (hngt p h).2.2
  · -- out_eq
    have h1 := hinv.out_eq
    simp only
    omega
  · -- out_str
    exact houtlen
  · -- cum_zero
    intro h
    exfalso
    rcases List.append_eq_nil.mp h with ⟨_, h2⟩
    exact hnne h2
  · -- last_diff
    intro _
    simp only
    rw [getLast?_append_right_int _ _ hnewd_ne]
    exact hnlast
  · -- spans_le
    intro sp hsp
    show sp.1 < sp.2.1 ∧ sp.2.1 ≤ m.e
    rcases List.mem_append.mp hsp with h | h
    · have h1 := hinv.spans_le sp h
      exact ⟨h1.1, by omega⟩
    · simp only [List.mem_singleton] at h
      subst h
      exact ⟨hse, le_refl _⟩
  · -- map_tail
    intro c hc
    simp only at hc ⊢
    exact htail c hc
  · -- map_bound
    intro c hc0 hcle
    simp only [GSadj] at hcle ⊢
    have hOL' : (((acc.output_len + (m.s - acc.last_match_end)) + r : Nat) : Int) =
        (m.s : Int) + acc.cumulative + r := by omega
    rcases lt_or_le c (m.s : Int) with hc | hc
    · rw [hlt c hc]
      rcases le_or_lt c (acc.last_match_end : Int) with hcl | hcl
      · have hb := hinv.map_bound c hc0 hcl
        constructor
        · exact hb.1
        · have h2 := hb.2
          omega
      · rw [hinv.map_tail c (le_of_lt hcl)]
        have h1 := hinv.out_eq
        constructor
        · omega
        · omega
    · rcases lt_or_le c (m.e : Int) with hce | hce
      · rw [hmid c hc hce]
        have hmin0 : 0 ≤ min (c - (m.s : Int)) (r : Int) := le_min (by omega) (by omega)
        have hminr : min (c - (m.s : Int)) (r : Int) ≤ (r : Int) := min_le_right _ _
        constructor
        · omega
        · omega
      · have hceq : c = (m.e : Int) := le_antisymm hcle hce
        subst hceq
        rw [htail _ (le_refl _)]
        constructor
        · omega
        · omega
  · -- map_mono
    intro c1 c2 hc10 hc12
    simp only [GSadj]
    have hAs : GSadj acc (m.s : Int) = (m.s : Int) + acc.cumulative :=
      hinv.map_tail _ (by exact_mod_cast hlast)
    rcases lt_or_le c1 (m.s : Int) with h1 | h1
    · rcases lt_or_le c2 (m.s : Int) with h2 | h2
      · rw [hlt c1 h1, hlt c2 h2]
        exact hinv.map_mono c1 c2 hc10 hc12
      · have hm1 : adjust_point (acc.collapsed_spans ++ [(m.s, m.e, r)])
            (acc.positions ++ news) (acc.diffs ++ newd) c1 ≤ (m.s : Int) + acc.cumulative := by
          rw [hlt c1 h1, ← hAs]
          exact hinv.map_mono c1 (m.s : Int) hc10 (le_of_lt h1)
        rcases lt_or_le c2 (m.e : Int) with h3 | h3
        · rw [hmid c2 h2 h3]
          have hmin0 : 0 ≤ min (c2 - (m.s : Int)) (r : Int) := le_min (by omega) (by omega)
          omega
        · rw [htail c2 h3]
          omega
    · rcases lt_or_le c1 (m.e : Int) with h2 | h2
      · rcases lt_or_le c2 (m.e : Int) with h3 | h3
        · rw [hmid c1 h1 h2, hmid c2 (by omega) h3]
          have := min_le_min (sub_le_sub_right hc12 (m.s : Int)) (le_refl (r : Int))
          omega
        · rw [hmid c1 h1 h2, htail c2 h3]
          have hminr : min (c1 - (m.s : Int)) (r : Int) ≤ (r : Int) := min_le_right _ _
          omega
      · rw [htail c1 h2, htail c2 (by omega)]
        omega

theorem equal_state_inv {τ : Type} (acc : GSState τ) (m : RMatch) (hinv : GSInv acc)
    (hse : m.s < m.e) (hlast : acc.last_match_end ≤ m.s)
    (r : Nat) (hreq : r = m.e - m.s)
    (out : PyStr) (st : Anns × τ)
    (houtlen : out.length = (acc.output_len + (m.s - acc.last_match_end)) + r) :
    GSInv ({ output := out,
             output_len := (acc.output_len + (m.s - acc.last_match_end)) + r,
             cumulative := acc.cumulative,
             positions := acc.positions, diffs := acc.diffs,
             last_match_end := m.e,
             collapsed_spans := acc.collapsed_spans,
             st := st } : GSState τ) := by
  have hout := hinv.out_eq
  refine ⟨hinv.sorted, hinv.len_eq, ?_, ?_, houtlen, hinv.cum_zero, hinv.last_diff,
    ?_, ?_, ?_, ?_⟩
  · intro p hp
    show p ≤ m.e
    have h1 := hinv.pos_le p hp
    omega
  · show (((acc.output_len + (m.s - acc.last_match_end)) + r : Nat) : Int) =
      (m.e : Int) + acc.cumulative
    omega
  · intro sp hsp
    show sp.1 < sp.2.1 ∧ sp.2.1 ≤ m.e
    have h1 := hinv.spans_le sp hsp
    exact ⟨h1.1, by omega⟩
  · intro c hc
    have hme : ((m.e : Nat) : Int) ≤ c := hc
    have hc' : (acc.last_match_end : Int) ≤ c := by omega
    show GSadj acc c = c + acc.cumulative
    exact hinv.map_tail c hc'
  · intro c hc0 hcle
    have hcle' : c ≤ ((m.e : Nat) : Int) := hcle
    show 0 ≤ GSadj acc c ∧
      GSadj acc c ≤ (((acc.output_len + (m.s - acc.last_match_end)) + r : Nat) : Int)
    rcases le_or_lt c (acc.last_match_end : Int) with hcl | hcl
    · have hb := hinv.map_bound c hc0 hcl
      have h2 := hb.2
      exact ⟨hb.1, by omega⟩
    · rw [hinv.map_tail c (le_of_lt hcl)]
      constructor
      · omega
      · omega
  · intro c1 c2 hc10 hc12
    show GSadj acc c1 ≤ GSadj acc c2
    exact hinv.map_mono c1 c2 hc10 hc12

theorem process_match_step {τ : Type} (orig : PyStr)
    (repl_fun : RMatch → Nat → Anns × τ → PyStr × (Anns × τ))
    (acc : GSState τ) (m : RMatch) (hinv : GSInv acc)
    (hse : m.s < m.e) (hbound : m.e ≤ orig.length)
    (hlast : acc.last_match_end ≤ m.s)
    (hrepl : ((repl_fun m (acc.output_len + (m.s - acc.last_match_end)) acc.st).1).length ≤
      m.e - m.s)
    (hot : m.ot ≠ none → m.s + 1 < m.e) :
    GSInv (process_match orig repl_fun acc m) ∧
    (process_match orig repl_fun acc m).last_match_end = m.e ∧
    acc.output_len ≤ (process_match orig repl_fun acc m).output_len ∧
    (process_match orig repl_fun acc m).st =
      (repl_fun m (acc.output_len + (m.s - acc.last_match_end)) acc.st).2 ∧
    (process_match orig repl_fun acc m).output_len =
      acc.output_len + (m.s - acc.last_match_end) +
        ((repl_fun m (acc.output_len + (m.s - acc.last_match_end)) acc.st).1).length ∧
    (process_match orig repl_fun acc m).output =
      acc.output ++ pySlice orig acc.last_match_end m.s ++
        (repl_fun m (acc.output_len + (m.s - acc.last_match_end)) acc.st).1 ∧
    (∃ news newd, (process_match orig repl_fun acc m).positions = acc.positions ++ news ∧
       (process_match orig repl_fun acc m).diffs = acc.diffs ++ newd ∧
       (∀ q ∈ news, acc.last_match_end < q ∧ m.s < q)) ∧
    (∃ nsp, (process_match orig repl_fun acc m).collapsed_spans =
        acc.collapsed_spans ++ nsp ∧ ∀ sp ∈ nsp, sp.1 = m.s) ∧
    (((repl_fun m (acc.output_len + (m.s - acc.last_match_end)) acc.st).1).length <
        m.e - m.s →
      (∀ c : Int, (m.s : Int) ≤ c → c < (m.e : Int) →
        GSadj (process_match orig repl_fun acc m) c =
          ((m.s : Int) + acc.cumulative) +
            min (c - (m.s : Int))
              (((repl_fun m (acc.output_len + (m.s - acc.last_match_end)) acc.st).1).length : Int)) ∧
      correct_position (m.s : Int) (process_match orig repl_fun acc m).positions
        (process_match orig repl_fun acc m).diffs = (m.s : Int) + acc.cumulative) := by
  have hms_len : m.s ≤ orig.length := by omega
  have hslice : (pySlice orig acc.last_match_end m.s).length = m.s - acc.last_match_end :=
    pySlice_length _ _ _ hlast hms_len
  by_cases hbr : ((repl_fun m (acc.output_len + (m.s - acc.last_match_end)) acc.st).1).length <
      m.e - m.s
  · -- shrinking replacement
    cases hmot : m.ot with
    | none =>
      have hq : ∀ q ∈ acc.positions, q < m.e := by
        intro q hq
        have h1 := hinv.pos_le q hq
        omega
      have hadd := add_position_diff_append acc.positions acc.diffs m.e
        (acc.cumulative +
          (((repl_fun m (acc.output_len + (m.s - acc.last_match_end)) acc.st).1).length : Int) -
          ((m.e - m.s : Nat) : Int)) hq
      have hpm : process_match orig repl_fun acc m =
        { output := acc.output ++ pySlice orig acc.last_match_end m.s ++
            (repl_fun m (acc.output_len + (m.s - acc.last_match_end)) acc.st).1,
          output_len := (acc.output_len + (m.s - acc.last_match_end)) +
            ((repl_fun m (acc.output_len + (m.s - acc.last_match_end)) acc.st).1).length,
          cumulative := acc.cumulative +
            (((repl_fun m (acc.output_len + (m.s - acc.last_match_end)) acc.st).1).length : Int) -
            ((m.e - m.s : Nat) : Int),
          positions := acc.positions ++ [m.e],
          diffs := acc.diffs ++ [acc.cumulative +
            (((repl_fun m (acc.output_len + (m.s - acc.last_match_end)) acc.st).1).length : Int) -
            ((m.e - m.s : Nat) : Int)],
          last_match_end := m.e,
          collapsed_spans := acc.collapsed_spans ++ [(m.s, m.e,
            ((repl_fun m (acc.output_len + (m.s - acc.last_match_end)) acc.st).1).length)],
          st := (repl_fun m (acc.output_len + (m.s - acc.last_match_end)) acc.st).2 } := by
        unfold process_match
        simp only [hmot]
        rw [if_pos hbr, hadd]
      obtain ⟨hInv, hmid, hCPs, _⟩ := shrink_state_inv acc m hinv hse hlast
        ((repl_fun m (acc.output_len + (m.s - acc.last_match_end)) acc.st).1).length hbr
        [m.e]
        [acc.cumulative +
          (((repl_fun m (acc.output_len + (m.s - acc.last_match_end)) acc.st).1).length : Int) -
          ((m.e - m.s : Nat) : Int)]
        rfl (by simp)
        (by
          intro q hq
          simp only [List.mem_singleton] at hq
          subst hq
          omega)
        (List.sorted_singleton _) (by simp)
        (acc.output ++ pySlice orig acc.last_match_end m.s ++
          (repl_fun m (acc.output_len + (m.s - acc.last_match_end)) acc.st).1)
        ((repl_fun m (acc.output_len + (m.s - acc.last_match_end)) acc.st).2)
        (by
          simp only [List.length_append, hinv.out_str, hslice])
      rw [hpm]
      refine ⟨hInv, rfl, by simp only []; omega, rfl, rfl, rfl,
        ⟨[m.e], _, rfl, rfl, ?_⟩,
        ⟨[(m.s, m.e, _)], rfl, by simp⟩, ?_⟩
      · intro q hq
        simp only [List.mem_singleton] at hq
        subst hq
        omega
      · intro _
        exact ⟨hmid, hCPs⟩
    | some o =>
      have hs1e : m.s + 1 < m.e := hot (by simp [hmot])
      have hq0 : ∀ q ∈ acc.positions, q < m.s + 1 := by
        intro q hq
        have h1 := hinv.pos_le q hq
        omega
      have hadd0 := add_position_diff_append acc.positions acc.diffs (m.s + 1)
        (acc.cumulative - (o.length : Int)) hq0
      have hq1 : ∀ q ∈ acc.positions ++ [m.s + 1], q < m.e := by
        intro q hq
        rcases List.mem_append.mp hq with h | h
        · have h1 := hinv.pos_le q h
          omega
        · simp only [List.mem_singleton] at h
          omega
      have hadd1 := add_position_diff_append (acc.positions ++ [m.s + 1])
        (acc.diffs ++ [acc.cumulative - (o.length : Int)]) m.e
        (acc.cumulative +
          (((repl_fun m (acc.output_len + (m.s - acc.last_match_end)) acc.st).1).length : Int) -
          ((m.e - m.s : Nat) : Int)) hq1
      have hpm : process_match orig repl_fun acc m =
        { output := acc.output ++ pySlice orig acc.last_match_end m.s ++
            (repl_fun m (acc.output_len + (m.s - acc.last_match_end)) acc.st).1,
          output_len := (acc.output_len + (m.s - acc.last_match_end)) +
            ((repl_fun m (acc.output_len + (m.s - acc.last_match_end)) acc.st).1).length,
          cumulative := acc.cumulative +
            (((repl_fun m (acc.output_len + (m.s - acc.last_match_end)) acc.st).1).length : Int) -
            ((m.e - m.s : Nat) : Int),
          positions := acc.positions ++ [m.s + 1, m.e],
          diffs := acc.diffs ++ [acc.cumulative - (o.length : Int),
            acc.cumulative +
            (((repl_fun m (acc.output_len + (m.s - acc.last_match_end)) acc.st).1).length : Int) -
            ((m.e - m.s : Nat) : Int)],
          last_match_end := m.e,
          collapsed_spans := acc.collapsed_spans ++ [(m.s, m.e,
            ((repl_fun m (acc.output_len + (m.s - acc.last_match_end)) acc.st).1).length)],
          st := (repl_fun m (acc.output_len + (m.s - acc.last_match_end)) acc.st).2 } := by
        unfold process_match
        simp only [hmot]
        rw [if_pos hbr, hadd0, hadd1]
        simp [List.append_assoc]
      obtain ⟨hInv, hmid, hCPs, _⟩ := shrink_state_inv acc m hinv hse hlast
        ((repl_fun m (acc.output_len + (m.s - acc.last_match_end)) acc.st).1).length hbr
        [m.s + 1, m.e]
        [acc.cumulative - (o.length : Int),
         acc.cumulative +
          (((repl_fun m (acc.output_len + (m.s - acc.last_match_end)) acc.st).1).length : Int) -
          ((m.e - m.s : Nat) : Int)]
        rfl (by simp)
        (by
          intro q hq
          simp only [List.mem_cons, List.mem_singleton, List.not_mem_nil, or_false] at hq
          rcases hq with h | h <;> subst h <;> omega)
        (by
          refine List.sorted_cons.mpr ⟨?_, List.sorted_singleton _⟩
          intro b hb
          simp only [List.mem_singleton] at hb
          subst hb
          omega)
        (by simp)
        (acc.output ++ pySlice orig acc.last_match_end m.s ++
          (repl_fun m (acc.output_len + (m.s - acc.last_match_end)) acc.st).1)
        ((repl_fun m (acc.output_len + (m.s - acc.last_match_end)) acc.st).2)
        (by simp only [List.length_append, hinv.out_str, hslice])
      rw [hpm]
      refine ⟨hInv, rfl, by simp only []; omega, rfl, rfl, rfl,
        ⟨[m.s + 1, m.e], _, rfl, rfl, ?_⟩,
        ⟨[(m.s, m.e, _)], rfl, by simp⟩, ?_⟩
      · intro q hq
        simp only [List.mem_cons, List.mem_singleton, List.not_mem_nil, or_false] at hq
        rcases hq with h | h <;> subst h <;> omega
      · intro _
        exact ⟨hmid, hCPs⟩
  · -- equal-size replacement (no growth is possible under `hrepl`)
    have hreq : ((repl_fun m (acc.output_len + (m.s - acc.last_match_end)) acc.st).1).length =
        m.e - m.s := le_antisymm hrepl (not_lt.mp hbr)
    have hpm : process_match orig repl_fun acc m =
      { output := acc.output ++ pySlice orig acc.last_match_end m.s ++
          (repl_fun m (acc.output_len + (m.s - acc.last_match_end)) acc.st).1,
        output_len := (acc.output_len + (m.s - acc.last_match_end)) +
          ((repl_fun m (acc.output_len + (m.s - acc.last_match_end)) acc.st).1).length,
        cumulative := acc.cumulative,
        positions := acc.positions, diffs := acc.diffs,
        last_match_end := m.e,
        collapsed_spans := acc.collapsed_spans,
        st := (repl_fun m (acc.output_len + (m.s - acc.last_match_end)) acc.st).2 } := by
      unfold process_match
      simp only []
      rw [if_neg hbr, if_neg (by omega)]
    have hInv := equal_state_inv acc m hinv hse hlast
      ((repl_fun m (acc.output_len + (m.s - acc.last_match_end)) acc.st).1).length hreq
      (acc.output ++ pySlice orig acc.last_match_end m.s ++
        (repl_fun m (acc.output_len + (m.s - acc.last_match_end)) acc.st).1)
      ((repl_fun m (acc.output_len + (m.s - acc.last_match_end)) acc.st).2)
      (by simp only [List.length_append, hinv.out_str, hslice])
    rw [hpm]
    refine ⟨hInv, rfl, by simp only []; omega, rfl, rfl, rfl,
      ⟨[], [], by simp, by simp, by simp⟩, ⟨[], by simp, by simp⟩, ?_⟩
    intro h
    exact absurd h hbr

theorem fold_inv {τ : Type} (orig : PyStr)
    (repl_fun : RMatch → Nat → Anns × τ → PyStr × (Anns × τ)) :
    ∀ (mlist : List RMatch) (acc : GSState τ), GSInv acc →
    (∀ x ∈ mlist, x.s < x.e ∧ x.e ≤ orig.length ∧ (x.ot ≠ none → x.s + 1 < x.e)) →
    mlist.Pairwise (fun a b => a.e ≤ b.s) →
    (∀ x ∈ mlist, acc.last_match_end ≤ x.s) →
    (∀ x ∈ mlist, ∀ n st, ((repl_fun x n st).1).length ≤ x.e - x.s) →
    acc.last_match_end ≤ orig.length →
    GSInv (mlist.foldl (process_match orig repl_fun) acc) ∧
    (mlist.foldl (process_match orig repl_fun) acc).last_match_end ≤ orig.length ∧
    acc.last_match_end ≤ (mlist.foldl (process_match orig repl_fun) acc).last_match_end ∧
    acc.output_len ≤ (mlist.foldl (process_match orig repl_fun) acc).output_len ∧
    (∃ news newd nsp,
      (mlist.foldl (process_match orig repl_fun) acc).positions = acc.positions ++ news ∧
      (mlist.foldl (process_match orig repl_fun) acc).diffs = acc.diffs ++ newd ∧
      (mlist.foldl (process_match orig repl_fun) acc).collapsed_spans =
        acc.collapsed_spans ++ nsp ∧
      (∀ q ∈ news, acc.last_match_end < q) ∧
      (∀ sp ∈ nsp, acc.last_match_end ≤ sp.1)) := by
  intro mlist
  induction mlist with
  | nil =>
    intro acc hinv _ _ _ _ hlen
    exact ⟨hinv, hlen, le_refl _, le_refl _, [], [], [],
      by simp, by simp, by simp, by simp, by simp⟩
  | cons m rest ih =>
    intro acc hinv hval hpw hge hrepl hlen
    simp only [List.foldl_cons]
    obtain ⟨h1, h2, h3⟩ := hval m (by simp)
    have hgem : acc.last_match_end ≤ m.s := hge m (by simp)
    have hstep := process_match_step orig repl_fun acc m hinv h1 h2 hgem
      (hrepl m (by simp) _ _) h3
    obtain ⟨hinv', hlme, hole, _, _, _, ⟨news1, newd1, hp1, hd1, hq1⟩,
      ⟨nsp1, hsp1, hsps1⟩, _⟩ := hstep
    have hpw' := List.pairwise_cons.mp hpw
    have hrest := ih (process_match orig repl_fun acc m) hinv'
      (fun x hx => hval x (by simp [hx]))
      hpw'.2
      (fun x hx => by rw [hlme]; exact hpw'.1 x hx)
      (fun x hx => hrepl x (by simp [hx]))
      (by rw [hlme]; exact h2)
    obtain ⟨hI, hL, hLE, hOL, news2, newd2, nsp2, hp2, hd2, hs2, hq2, hsq2⟩ := hrest
    have hacc_me : acc.last_match_end ≤ m.e := le_trans hgem (le_of_lt h1)
    refine ⟨hI, hL, ?_, le_trans hole hOL,
      news1 ++ news2, newd1 ++ newd2, nsp1 ++ nsp2, ?_, ?_, ?_, ?_, ?_⟩
    · rw [hlme] at hLE
      omega
    · rw [hp2, hp1, List.append_assoc]
    · rw [hd2, hd1, List.append_assoc]
    · rw [hs2, hsp1, List.append_assoc]
    · intro q hq
      rcases List.mem_append.mp hq with h | h
      · exact hq1 q h |>.1
      · have := hq2 q h
        rw [hlme] at this
        omega
    · intro sp hsp
      rcases List.mem_append.mp hsp with h | h
      · rw [hsps1 sp h]
        exact hgem
      · have := hsq2 sp h
        rw [hlme] at this
        omega

/-- All coordinates of an annotations dict lie within `[0, n]` and every
start/end pair is ordered. -/
def AnnBounds (ann : Anns) (n : Nat) : Prop :=
  (∀ p ∈ ann.pages, 0 ≤ p.cstart ∧ p.cstart ≤ p.cend ∧ p.cend ≤ (n : Int)) ∧
  (∀ h ∈ ann.hi, 0 ≤ h.cstart ∧ h.cstart ≤ h.cend ∧ h.cend ≤ (n : Int)) ∧
  (∀ kv ∈ ann.milestones, 0 ≤ kv.2 ∧ kv.2 ≤ (n : Int)) ∧
  (∀ b ∈ ann.div_boundaries, 0 ≤ b.cstart ∧ b.cstart ≤ b.cend ∧ b.cend ≤ (n : Int))

theorem apply_diffs_bounds {τ : Type} (acc : GSState τ) (hinv : GSInv acc)
    (origLen : Nat) (hle : acc.last_match_end ≤ origLen) (ann : Anns)
    (hann : AnnBounds ann origLen) :
    AnnBounds (apply_position_diffs acc.positions acc.diffs ann acc.collapsed_spans)
      (acc.output_len + (origLen - acc.last_match_end)) := by
  have hpt : ∀ c : Int, 0 ≤ c → c ≤ (origLen : Int) →
      0 ≤ GSadj acc c ∧
        GSadj acc c ≤ ((acc.output_len + (origLen - acc.last_match_end) : Nat) : Int) := by
    intro c hc0 hcl
    rcases le_or_lt c (acc.last_match_end : Int) with h | h
    · have hb := hinv.map_bound c hc0 h
      exact ⟨hb.1, by omega⟩
    · rw [hinv.map_tail c (le_of_lt h)]
      have ho := hinv.out_eq
      constructor
      · omega
      · omega
  obtain ⟨hp, hh, hm, hd⟩ := hann
  refine ⟨?_, ?_, ?_, ?_⟩
  · intro p hp'
    simp only [apply_position_diffs, List.mem_map] at hp'
    obtain ⟨q, hq, rfl⟩ := hp'
    obtain ⟨hq1, hq2, hq3⟩ := hp q hq
    have hb1 := hpt q.cstart hq1 (by omega)
    have hb2 := hpt q.cend (by omega) hq3
    have hmono := hinv.map_mono q.cstart q.cend hq1 hq2
    exact ⟨hb1.1, hmono, hb2.2⟩
  · intro h hh'
    simp only [apply_position_diffs, List.mem_map] at hh'
    obtain ⟨q, hq, rfl⟩ := hh'
    obtain ⟨hq1, hq2, hq3⟩ := hh q hq
    have hb1 := hpt q.cstart hq1 (by omega)
    have hb2 := hpt q.cend (by omega) hq3
    have hmono := hinv.map_mono q.cstart q.cend hq1 hq2
    exact ⟨hb1.1, hmono, hb2.2⟩
  · intro kv hkv
    simp only [apply_position_diffs, List.mem_map] at hkv
    obtain ⟨q, hq, rfl⟩ := hkv
    obtain ⟨hq1, hq2⟩ := hm q hq
    have hb := hpt q.2 hq1 hq2
    exact hb
  · intro b hb'
    simp only [apply_position_diffs, List.mem_map] at hb'
    obtain ⟨q, hq, rfl⟩ := hb'
    obtain ⟨hq1, hq2, hq3⟩ := hd q hq
    have hb1 := hpt q.cstart hq1 (by omega)
    have hb2 := hpt q.cend (by omega) hq3
    have hmono := hinv.map_mono q.cstart q.cend hq1 hq2
    exact ⟨hb1.1, hmono, hb2.2⟩

theorem process_match_st {τ : Type} (orig : PyStr)
    (repl_fun : RMatch → Nat → Anns × τ → PyStr × (Anns × τ))
    (acc : GSState τ) (m : RMatch) :
    (process_match orig repl_fun acc m).st =
      (repl_fun m (acc.output_len + (m.s - acc.last_match_end)) acc.st).2 := by
  unfold process_match
  simp only []
  split
  · rfl
  · split
    · rfl
    · rfl

theorem fold_st_pres {τ : Type} (orig : PyStr)
    (repl_fun : RMatch → Nat → Anns × τ → PyStr × (Anns × τ))
    (P : Anns × τ → Prop) :
    ∀ (mlist : List RMatch) (acc : GSState τ),
    (∀ x ∈ mlist, ∀ n st, P st → P (repl_fun x n st).2) → P acc.st →
    P ((mlist.foldl (process_match orig repl_fun) acc).st) := by
  intro mlist
  induction mlist with
  | nil => intro acc _ h; exact h
  | cons m rest ih =>
    intro acc hP h0
    simp only [List.foldl_cons]
    apply ih
    · intro x hx n st hst
      exact hP x (by simp [hx]) n st hst
    · rw [process_match_st]
      exact hP m (by simp) _ _ h0

theorem get_string_bounds {τ : Type} (orig : PyStr) (mlist : List RMatch)
    (repl_fun : RMatch → Nat → Anns × τ → PyStr × (Anns × τ)) (ann0 : Anns) (t0 : τ)
    (hval : ∀ x ∈ mlist, x.s < x.e ∧ x.e ≤ orig.length ∧ (x.ot ≠ none → x.s + 1 < x.e))
    (hpw : mlist.Pairwise (fun a b => a.e ≤ b.s))
    (hrepl : ∀ x ∈ mlist, ∀ n st, ((repl_fun x n st).1).length ≤ x.e - x.s)
    (hann : AnnBounds ann0 orig.length)
    (hpres : ∀ x ∈ mlist, ∀ n st, AnnBounds st.1 orig.length →
      AnnBounds ((repl_fun x n st).2).1 orig.length) :
    AnnBounds ((get_string orig mlist repl_fun (ann0, t0)).2).1
      ((get_string orig mlist repl_fun (ann0, t0)).1).length := by
  have hstp : AnnBounds ((mlist.foldl (process_match orig repl_fun)
      ({ st := (ann0, t0) } : GSState τ)).st).1 orig.length :=
    fold_st_pres orig repl_fun (fun st => AnnBounds st.1 orig.length) mlist _ hpres hann
  have hfold := fold_inv orig repl_fun mlist ({ st := (ann0, t0) } : GSState τ)
    (GSInv_init _) hval hpw (fun x _ => Nat.zero_le _) hrepl (Nat.zero_le _)
  obtain ⟨hinv, hlen, _, _, _⟩ := hfold
  unfold get_string
  simp only []
  by_cases h0 : (mlist.foldl (process_match orig repl_fun)
      ({ st := (ann0, t0) } : GSState τ)).last_match_end = 0
  · rw [if_pos (by simpa using h0)]
    exact hstp
  · rw [if_neg (by simpa using h0)]
    have hublen :
        (if (mlist.foldl (process_match orig repl_fun)
              ({ st := (ann0, t0) } : GSState τ)).last_match_end < orig.length then
            (mlist.foldl (process_match orig repl_fun)
              ({ st := (ann0, t0) } : GSState τ)).output ++
              orig.drop (mlist.foldl (process_match orig repl_fun)
                ({ st := (ann0, t0) } : GSState τ)).last_match_end
          else (mlist.foldl (process_match orig repl_fun)
              ({ st := (ann0, t0) } : GSState τ)).output).length =
          (mlist.foldl (process_match orig repl_fun)
              ({ st := (ann0, t0) } : GSState τ)).output_len +
            (orig.length - (mlist.foldl (process_match orig repl_fun)
              ({ st := (ann0, t0) } : GSState τ)).last_match_end) := by
      have ho := hinv.out_str
      split
      · simp only [List.length_append, List.length_drop, ho]
      · rename_i hge
        have : orig.length - (mlist.foldl (process_match orig repl_fun)
            ({ st := (ann0, t0) } : GSState τ)).last_match_end = 0 := by omega
        rw [this, ho]
        omega
    rw [hublen]
    exact apply_diffs_bounds _ hinv orig.length hlen _ hstp

/-- The `get_string` loop state after processing a prefix of the match list. -/
def foldGS {τ : Type} (orig : PyStr)
    (repl_fun : RMatch → Nat → Anns × τ → PyStr × (Anns × τ))
    (mlist : List RMatch) (st0 : Anns × τ) : GSState τ :=
  mlist.foldl (process_match orig repl_fun) { st := st0 }

/-- The output offset at which the replacement of the `k`-th match begins
(`output_len` at the moment `repl_fun` is called for that match). -/
def matchOutStart {τ : Type} (orig : PyStr)
    (repl_fun : RMatch → Nat → Anns × τ → PyStr × (Anns × τ))
    (mlist : List RMatch) (st0 : Anns × τ) (k : Nat) : Nat :=
  let accK := foldGS orig repl_fun (mlist.take k) st0
  accK.output_len + ((mlist.getD k default).s - accK.last_match_end)

/-- The length of the replacement produced for the `k`-th match. -/
def matchReplLen {τ : Type} (orig : PyStr)
    (repl_fun : RMatch → Nat → Anns × τ → PyStr × (Anns × τ))
    (mlist : List RMatch) (st0 : Anns × τ) (k : Nat) : Nat :=
  let accK := foldGS orig repl_fun (mlist.take k) st0
  ((repl_fun (mlist.getD k default)
      (matchOutStart orig repl_fun mlist st0 k) accK.st).1).length

theorem process_match_lastEnd {τ : Type} (orig : PyStr)
    (repl_fun : RMatch → Nat → Anns × τ → PyStr × (Anns × τ))
    (acc : GSState τ) (m : RMatch) :
    (process_match orig repl_fun acc m).last_match_end = m.e := by
  unfold process_match
  simp only []
  split
  · rfl
  · split
    · rfl
    · rfl

theorem fold_lastEnd_le {τ : Type} (orig : PyStr)
    (repl_fun : RMatch → Nat → Anns × τ → PyStr × (Anns × τ)) :
    ∀ (mlist : List RMatch) (acc : GSState τ) (B : Nat),
    acc.last_match_end ≤ B → (∀ x ∈ mlist, x.e ≤ B) →
    (mlist.foldl (process_match orig repl_fun) acc).last_match_end ≤ B := by
  intro mlist
  induction mlist with
  | nil => intro acc B h _; exact h
  | cons m rest ih =>
    intro acc B h hall
    simp only [List.foldl_cons]
    apply ih
    · rw [process_match_lastEnd]
      exact hall m (by simp)
    · intro x hx
      exact hall x (by simp [hx])

theorem adjust_point_extend (spans nsp : List (Nat × Nat × Nat)) (ps news : List Nat)
    (ds newd : List Int) (hlen : ps.length = ds.length) (c : Int)
    (hc_new : ∀ sp ∈ nsp, ¬ ((sp.1 : Int) ≤ c ∧ c < (sp.2.1 : Int)))
    (hq : ∀ q ∈ news, c < (q : Int))
    (hsp_lt : ∀ sp ∈ spans, ∀ q ∈ news, sp.1 < q) :
    adjust_point (spans ++ nsp) (ps ++ news) (ds ++ newd) c =
      adjust_point spans ps ds c := by
  have hnsp : nsp.find?
      (fun sp => decide ((sp.1 : Int) ≤ c) && decide (c < (sp.2.1 : Int))) = none := by
    rw [List.find?_eq_none]
    intro sp hsp
    have := hc_new sp hsp
    simp only [Bool.and_eq_true, decide_eq_true_eq, not_and]
    intro h1 h2
    exact this ⟨h1, h2⟩
  have hsplit : (spans ++ nsp).find?
      (fun sp => decide ((sp.1 : Int) ≤ c) && decide (c < (sp.2.1 : Int))) =
      spans.find? (fun sp => decide ((sp.1 : Int) ≤ c) && decide (c < (sp.2.1 : Int))) := by
    rw [pyFind_append]
    cases hf : spans.find?
        (fun sp => decide ((sp.1 : Int) ≤ c) && decide (c < (sp.2.1 : Int))) with
    | some sp => rfl
    | none => simpa using hnsp
  cases hf : spans.find?
      (fun sp => decide ((sp.1 : Int) ≤ c) && decide (c < (sp.2.1 : Int))) with
  | some sp =>
    obtain ⟨s0, e0, r0⟩ := sp
    have hmem := List.mem_of_find?_eq_some hf
    rw [adjust_point_of_found _ _ _ _ _ _ _ (hsplit.trans hf),
      adjust_point_of_found _ _ _ _ _ _ _ hf]
    congr 1
    apply correct_position_append_stable _ _ _ _ _ hlen
    intro q hqn
    exact_mod_cast hsp_lt _ hmem q hqn
  | none =>
    rw [adjust_point_of_none _ _ _ _ (hsplit.trans hf), adjust_point_of_none _ _ _ _ hf]
    exact correct_position_append_stable _ _ _ _ _ hlen hq

/-- C1: in a `get_string` pass over valid, non-growing matches, when the `k`-th
match shrinks, the resolved position of its start equals the output offset at
which its replacement was emitted, every annotation coordinate that fell in
`[match_start, match_end)` is remapped to that resolved start plus
`min(coordinate - match_start, replacement_length)` — hence lands within
`[replacement_start, replacement_start + replacement_length]` — and any
coordinate inside no shrunk match is resolved by the ordinary breakpoint
rule. -/
theorem C1_shrinking_match_interior_remap {τ : Type} (orig : PyStr)
    (mlist : List RMatch)
    (repl_fun : RMatch → Nat → Anns × τ → PyStr × (Anns × τ)) (st0 : Anns × τ)
    (k : Nat) (hk : k < mlist.length)
    (hval : ∀ x ∈ mlist, x.s < x.e ∧ x.e ≤ orig.length ∧ (x.ot ≠ none → x.s + 1 < x.e))
    (hpw : mlist.Pairwise (fun a b => a.e ≤ b.s))
    (hrepl : ∀ x ∈ mlist, ∀ n st, ((repl_fun x n st).1).length ≤ x.e - x.s) :
    (matchReplLen orig repl_fun mlist st0 k <
        (mlist.getD k default).e - (mlist.getD k default).s →
      correct_position ((mlist.getD k default).s : Int)
          (foldGS orig repl_fun mlist st0).positions
          (foldGS orig repl_fun mlist st0).diffs =
        (matchOutStart orig repl_fun mlist st0 k : Int) ∧
      (∀ c : Int, ((mlist.getD k default).s : Int) ≤ c →
          c < ((mlist.getD k default).e : Int) →
        adjust_point (foldGS orig repl_fun mlist st0).collapsed_spans
            (foldGS orig repl_fun mlist st0).positions
            (foldGS orig repl_fun mlist st0).diffs c =
          correct_position ((mlist.getD k default).s : Int)
              (foldGS orig repl_fun mlist st0).positions
              (foldGS orig repl_fun mlist st0).diffs +
            min (c - ((mlist.getD k default).s : Int))
              (matchReplLen orig repl_fun mlist st0 k : Int) ∧
        (matchOutStart orig repl_fun mlist st0 k : Int) ≤
          adjust_point (foldGS orig repl_fun mlist st0).collapsed_spans
            (foldGS orig repl_fun mlist st0).positions
            (foldGS orig repl_fun mlist st0).diffs c ∧
        adjust_point (foldGS orig repl_fun mlist st0).collapsed_spans
            (foldGS orig repl_fun mlist st0).positions
            (foldGS orig repl_fun mlist st0).diffs c ≤
          (matchOutStart orig repl_fun mlist st0 k : Int) +
            (matchReplLen orig repl_fun mlist st0 k : Int))) ∧
    (∀ c : Int, (∀ sp ∈ (foldGS orig repl_fun mlist st0).collapsed_spans,
          ¬ ((sp.1 : Int) ≤ c ∧ c < (sp.2.1 : Int))) →
      adjust_point (foldGS orig repl_fun mlist st0).collapsed_spans
          (foldGS orig repl_fun mlist st0).positions
          (foldGS orig repl_fun mlist st0).diffs c =
        correct_position c (foldGS orig repl_fun mlist st0).positions
          (foldGS orig repl_fun mlist st0).diffs) := by
  constructor
  · intro hshrink
    set m := mlist.getD k default with hm
    have hmget : mlist.getD k default = mlist[k] := List.getD_eq_getElem mlist default hk
    have hmem : m ∈ mlist := by
      rw [hm, hmget]
      exact List.getElem_mem hk
    have hdropk : mlist.drop k = m :: mlist.drop (k + 1) := by
      rw [hm, hmget]
      exact List.drop_eq_getElem_cons hk
    have hsplitl : mlist = mlist.take k ++ (m :: mlist.drop (k + 1)) := by
      rw [← hdropk, List.take_append_drop]
    -- the state just before the k-th match
    have htksub : ∀ x ∈ mlist.take k, x ∈ mlist := fun x hx => List.take_subset k mlist hx
    have htkpw : (mlist.take k).Pairwise (fun a b => a.e ≤ b.s) :=
      hpw.sublist (List.take_sublist k mlist)
    have hfoldK := fold_inv orig repl_fun (mlist.take k)
      ({ st := st0 } : GSState τ) (GSInv_init _)
      (fun x hx => hval x (htksub x hx)) htkpw
      (fun x _ => Nat.zero_le _)
      (fun x hx => hrepl x (htksub x hx)) (Nat.zero_le _)
    obtain ⟨hinvK, _, _, _, _⟩ := hfoldK
    have hpw_split := List.pairwise_append.mp (hsplitl ▸ hpw)
    have hKle : (foldGS orig repl_fun (mlist.take k) st0).last_match_end ≤ m.s := by
      apply fold_lastEnd_le
      · exact Nat.zero_le _
      · intro x hx
        exact hpw_split.2.2 x hx m (by simp)
    obtain ⟨h1, h2, h3⟩ := hval m hmem
    -- process the k-th match
    have hstep := process_match_step orig repl_fun
      (foldGS orig repl_fun (mlist.take k) st0) m hinvK h1 h2 hKle
      (hrepl m hmem _ _) h3
    obtain ⟨hinv', hlme, _, _, _, _, _, _, hshr⟩ := hstep
    have hshrink' : ((repl_fun m ((foldGS orig repl_fun (mlist.take k) st0).output_len +
        (m.s - (foldGS orig repl_fun (mlist.take k) st0).last_match_end))
        (foldGS orig repl_fun (mlist.take k) st0).st).1).length < m.e - m.s := by
      have : matchReplLen orig repl_fun mlist st0 k =
          ((repl_fun m ((foldGS orig repl_fun (mlist.take k) st0).output_len +
            (m.s - (foldGS orig repl_fun (mlist.take k) st0).last_match_end))
            (foldGS orig repl_fun (mlist.take k) st0).st).1).length := rfl
      rw [← this]
      exact hshrink
    obtain ⟨hmid, hCPs⟩ := hshr hshrink'
    -- fold the remaining matches
    have hdrsub : ∀ x ∈ mlist.drop (k + 1), x ∈ mlist := fun x hx =>
      List.drop_subset (k + 1) mlist hx
    have hdrpw : (mlist.drop (k + 1)).Pairwise (fun a b => a.e ≤ b.s) :=
      hpw.sublist (List.drop_sublist (k + 1) mlist)
    have hge' : ∀ x ∈ mlist.drop (k + 1),
        (process_match orig repl_fun (foldGS orig repl_fun (mlist.take k) st0) m).last_match_end ≤ x.s := by
      intro x hx
      rw [hlme]
      have := hpw_split.2.1
      exact (List.pairwise_cons.mp this).1 x hx
    have hfoldR := fold_inv orig repl_fun (mlist.drop (k + 1))
      (process_match orig repl_fun (foldGS orig repl_fun (mlist.take k) st0) m) hinv'
      (fun x hx => hval x (hdrsub x hx)) hdrpw hge'
      (fun x hx => hrepl x (hdrsub x hx)) (by rw [hlme]; exact h2)
    obtain ⟨hinvF, _, _, _, news, newd, nsp, hpF, hdF, hsF, hqF, hspF⟩ := hfoldR
    have hfin_eq : foldGS orig repl_fun mlist st0 =
        (mlist.drop (k + 1)).foldl (process_match orig repl_fun)
          (process_match orig repl_fun (foldGS orig repl_fun (mlist.take k) st0) m) := by
      unfold foldGS
      conv_lhs => rw [hsplitl]
      rw [List.foldl_append]
      rfl
    -- the integer value of the replacement start
    have hnK : (matchOutStart orig repl_fun mlist st0 k : Int) =
        (m.s : Int) + (foldGS orig repl_fun (mlist.take k) st0).cumulative := by
      have ho : ((foldGS orig repl_fun (mlist.take k) st0).output_len : Int) =
          ((foldGS orig repl_fun (mlist.take k) st0).last_match_end : Int) +
            (foldGS orig repl_fun (mlist.take k) st0).cumulative := hinvK.out_eq
      show (((foldGS orig repl_fun (mlist.take k) st0).output_len +
          (m.s - (foldGS orig repl_fun (mlist.take k) st0).last_match_end) : Nat) : Int) =
        (m.s : Int) + (foldGS orig repl_fun (mlist.take k) st0).cumulative
      omega
    have hlen' := hinv'.len_eq
    -- stability of the resolved start under the later matches
    have hCPfin : correct_position ((m.s : Nat) : Int)
        (foldGS orig repl_fun mlist st0).positions
        (foldGS orig repl_fun mlist st0).diffs =
        (m.s : Int) + (foldGS orig repl_fun (mlist.take k) st0).cumulative := by
      rw [hfin_eq, hpF, hdF]
      rw [correct_position_append_stable _ _ _ _ _ hlen'
        (fun q hq => by
          have := hqF q hq
          rw [hlme] at this
          have : m.s < q := by omega
          exact_mod_cast this)]
      exact hCPs
    refine ⟨by rw [hCPfin, hnK], ?_⟩
    intro c hc1 hc2
    have hfinc : adjust_point (foldGS orig repl_fun mlist st0).collapsed_spans
        (foldGS orig repl_fun mlist st0).positions
        (foldGS orig repl_fun mlist st0).diffs c =
        GSadj (process_match orig repl_fun (foldGS orig repl_fun (mlist.take k) st0) m) c := by
      rw [hfin_eq, hpF, hdF, hsF]
      apply adjust_point_extend _ _ _ _ _ _ hlen' c
      · intro sp hsp
        have := hspF sp hsp
        rw [hlme] at this
        simp only [not_and]
        intro hle
        omega
      · intro q hq
        have := hqF q hq
        rw [hlme] at this
        have : (m.e : Int) < (q : Int) := by exact_mod_cast this
        omega
      · intro sp hsp q hq
        have hb : sp.1 < sp.2.1 ∧ sp.2.1 ≤
            (process_match orig repl_fun
              (foldGS orig repl_fun (mlist.take k) st0) m).last_match_end :=
          hinv'.spans_le sp hsp
        have hq2 : (process_match orig repl_fun
            (foldGS orig repl_fun (mlist.take k) st0) m).last_match_end < q :=
          hqF q hq
        omega
    have hmid' : ∀ c : Int, (m.s : Int) ≤ c → c < (m.e : Int) →
        GSadj (process_match orig repl_fun (foldGS orig repl_fun (mlist.take k) st0) m) c =
          ((m.s : Int) + (foldGS orig repl_fun (mlist.take k) st0).cumulative) +
            min (c - (m.s : Int)) ((matchReplLen orig repl_fun mlist st0 k : Nat) : Int) := hmid
    rw [hfinc, hmid' c hc1 hc2, hCPfin]
    have hmin0 : 0 ≤ min (c - (m.s : Int)) ((matchReplLen orig repl_fun mlist st0 k : Nat) : Int) :=
      le_min (by omega) (by omega)
    have hminr : min (c - (m.s : Int)) ((matchReplLen orig repl_fun mlist st0 k : Nat) : Int) ≤
        ((matchReplLen orig repl_fun mlist st0 k : Nat) : Int) := min_le_right _ _
    refine ⟨rfl, ?_, ?_⟩
    · omega
    · omega
  · intro c hno
    apply adjust_point_of_none
    rw [List.find?_eq_none]
    intro sp hsp
    have := hno sp hsp
    simp only [Bool.and_eq_true, decide_eq_true_eq, not_and]
    intro hle hlt
    exact this ⟨hle, hlt⟩

/-- The concrete pass for the C1 witness: removing the tag `<x>` from
`ab<x>cd` (one shrinking match, empty replacement). -/
def c1orig : PyStr := "ab<x>cd".data

def c1match : RMatch := { s := 2, e := 5, g0 := "<x>".data }

def c1repl : RMatch → Nat → Anns × Unit → PyStr × (Anns × Unit) :=
  fun _ _ st => ([], st)

def c1fin : GSState Unit := foldGS c1orig c1repl [c1match] ({}, ())

/-- Witness for C1 at a concrete shrinking pass, applied at the interior
coordinate 3. -/
theorem C1_shrinking_match_interior_remap_witness :
    matchReplLen c1orig c1repl [c1match] ({}, ()) 0 < c1match.e - c1match.s ∧
    correct_position (c1match.s : Int) c1fin.positions c1fin.diffs =
      (matchOutStart c1orig c1repl [c1match] ({}, ()) 0 : Int) ∧
    adjust_point c1fin.collapsed_spans c1fin.positions c1fin.diffs 3 =
      correct_position (c1match.s : Int) c1fin.positions c1fin.diffs +
        min (3 - (c1match.s : Int)) (matchReplLen c1orig c1repl [c1match] ({}, ()) 0 : Int) := by
  have h := C1_shrinking_match_interior_remap c1orig [c1match] c1repl ({}, ()) 0
    (by decide) (by decide) (by decide) (fun x hx n st => by simp [c1repl])
  obtain ⟨h1, _⟩ := h
  have hsh : matchReplLen c1orig c1repl [c1match] ({}, ()) 0 <
      ([c1match].getD 0 default).e - ([c1match].getD 0 default).s := by decide
  obtain ⟨hcp, hall⟩ := h1 hsh
  have hc := hall 3 (by decide) (by decide)
  exact ⟨by decide, hcp, hc.1⟩

theorem fold_lastEnd_of_ne {τ : Type} (orig : PyStr)
    (repl_fun : RMatch → Nat → Anns × τ → PyStr × (Anns × τ)) :
    ∀ (mlist : List RMatch) (acc : GSState τ) (hne : mlist ≠ []),
    (mlist.foldl (process_match orig repl_fun) acc).last_match_end =
      (mlist.getLast hne).e := by
  intro mlist
  induction mlist with
  | nil => intro acc hne; exact absurd rfl hne
  | cons m rest ih =>
    intro acc _
    simp only [List.foldl_cons]
    cases rest with
    | nil =>
      simp only [List.foldl_nil, List.getLast_singleton]
      exact process_match_lastEnd orig repl_fun acc m
    | cons m2 rest2 =>
      rw [ih _ (by simp)]
      rw [List.getLast_cons_cons]

/-- Output-length and opaque-state characterization of a completed
`get_string` pass. -/
theorem get_string_char {τ : Type} (orig : PyStr) (mlist : List RMatch)
    (repl_fun : RMatch → Nat → Anns × τ → PyStr × (Anns × τ)) (st0 : Anns × τ)
    (hval : ∀ x ∈ mlist, x.s < x.e ∧ x.e ≤ orig.length ∧ (x.ot ≠ none → x.s + 1 < x.e))
    (hpw : mlist.Pairwise (fun a b => a.e ≤ b.s))
    (hrepl : ∀ x ∈ mlist, ∀ n st, ((repl_fun x n st).1).length ≤ x.e - x.s) :
    ((get_string orig mlist repl_fun st0).1).length =
      (foldGS orig repl_fun mlist st0).output_len +
        (orig.length - (foldGS orig repl_fun mlist st0).last_match_end) ∧
    ((get_string orig mlist repl_fun st0).2).2 =
      ((foldGS orig repl_fun mlist st0).st).2 := by
  cases hml : mlist with
  | nil => exact ⟨by simp [get_string, foldGS], rfl⟩
  | cons m0 rest =>
    have hne : mlist ≠ [] := by rw [hml]; simp
    rw [← hml]
    have hlast_mem : mlist.getLast hne ∈ mlist := List.getLast_mem hne
    have hlpos : 1 ≤ (mlist.getLast hne).e := (hval _ hlast_mem).1.trans_le' (by omega)
    have hle : (foldGS orig repl_fun mlist st0).last_match_end = (mlist.getLast hne).e :=
      fold_lastEnd_of_ne orig repl_fun mlist _ hne
    have hne0 : ¬ ((foldGS orig repl_fun mlist st0).last_match_end = 0) := by
      rw [hle]
      omega
    have hfold := fold_inv orig repl_fun mlist ({ st := st0 } : GSState τ)
      (GSInv_init _) hval hpw (fun x _ => Nat.zero_le _) hrepl (Nat.zero_le _)
    obtain ⟨hinv, hlen, _, _, _⟩ := hfold
    have hinv' : GSInv (foldGS orig repl_fun mlist st0) := hinv
    have hlen' : (foldGS orig repl_fun mlist st0).last_match_end ≤ orig.length := hlen
    have hgs : get_string orig mlist repl_fun st0 =
        (if ((foldGS orig repl_fun mlist st0).last_match_end == 0) = true
         then (orig, (foldGS orig repl_fun mlist st0).st)
         else
          (if (foldGS orig repl_fun mlist st0).last_match_end < orig.length then
             (foldGS orig repl_fun mlist st0).output ++
               orig.drop (foldGS orig repl_fun mlist st0).last_match_end
           else (foldGS orig repl_fun mlist st0).output,
           (apply_position_diffs (foldGS orig repl_fun mlist st0).positions
              (foldGS orig repl_fun mlist st0).diffs
              ((foldGS orig repl_fun mlist st0).st).1
              (foldGS orig repl_fun mlist st0).collapsed_spans,
            ((foldGS orig repl_fun mlist st0).st).2))) := rfl
    rw [hgs, if_neg (by simpa using hne0)]
    have ho : ((foldGS orig repl_fun mlist st0).output).length =
        (foldGS orig repl_fun mlist st0).output_len := hinv'.out_str
    have hlen2 : (foldGS orig repl_fun mlist st0).last_match_end ≤ orig.length := hlen'
    constructor
    · split
      · simp only [List.length_append, List.length_drop]
        omega
      · rename_i hge
        have hz : orig.length - (foldGS orig repl_fun mlist st0).last_match_end = 0 := by
          omega
        rw [hz, ho]
        omega
    · rfl

theorem pySlice_append_left (l t : PyStr) (a b : Nat) (hb : b ≤ l.length) :
    pySlice (l ++ t) a b = pySlice l a b := by
  unfold pySlice
  rw [List.take_append_of_le_length hb]

theorem pySlice_suffix (X Y : PyStr) :
    pySlice (X ++ Y) X.length (X.length + Y.length) = Y := by
  unfold pySlice
  rw [List.take_append Y.length, List.take_length, List.drop_left]

theorem drop_eq_slice_append (l : PyStr) (a b : Nat) (hab : a ≤ b)
    (hb : b ≤ l.length) :
    l.drop a = pySlice l a b ++ l.drop b := by
  unfold pySlice
  conv_lhs => rw [← List.take_append_drop b l]
  rw [List.drop_append_eq_append_drop]
  have h1 : (l.take b).length = b := by
    rw [List.length_take]
    omega
  rw [h1]
  have h2 : a - b = 0 := by omega
  rw [h2, List.drop_zero]

/-- A fold over `process_match` preserves any state property `Q` that each
valid step preserves. -/
theorem fold_Q {τ : Type} (orig : PyStr)
    (repl_fun : RMatch → Nat → Anns × τ → PyStr × (Anns × τ))
    (Q : GSState τ → Prop)
    (hstep : ∀ (acc : GSState τ) (m : RMatch),
      GSInv acc → m.s < m.e → m.e ≤ orig.length → (m.ot ≠ none → m.s + 1 < m.e) →
      acc.last_match_end ≤ m.s →
      (∀ n st, ((repl_fun m n st).1).length ≤ m.e - m.s) →
      Q acc → Q (process_match orig repl_fun acc m)) :
    ∀ (mlist : List RMatch) (acc : GSState τ), GSInv acc →
    (∀ x ∈ mlist, x.s < x.e ∧ x.e ≤ orig.length ∧ (x.ot ≠ none → x.s + 1 < x.e)) →
    mlist.Pairwise (fun a b => a.e ≤ b.s) →
    (∀ x ∈ mlist, acc.last_match_end ≤ x.s) →
    (∀ x ∈ mlist, ∀ n st, ((repl_fun x n st).1).length ≤ x.e - x.s) →
    acc.last_match_end ≤ orig.length →
    Q acc → Q (mlist.foldl (process_match orig repl_fun) acc) := by
  intro mlist
  induction mlist with
  | nil => intro acc _ _ _ _ _ _ hQ; exact hQ
  | cons m rest ih =>
    intro acc hinv hval hpw hge hrepl hlen hQ
    simp only [List.foldl_cons]
    obtain ⟨h1, h2, h3⟩ := hval m (by simp)
    have hgem : acc.last_match_end ≤ m.s := hge m (by simp)
    have hstep0 := process_match_step orig repl_fun acc m hinv h1 h2 hgem
      (hrepl m (by simp) _ _) h3
    obtain ⟨hinv2, hlme, _, _, _, _, _, _, _⟩ := hstep0
    have hpw2 := List.pairwise_cons.mp hpw
    exact ih (process_match orig repl_fun acc m) hinv2
      (fun x hx => hval x (by simp [hx]))
      hpw2.2
      (fun x hx => by rw [hlme]; exact hpw2.1 x hx)
      (fun x hx => hrepl x (by simp [hx]))
      (by rw [hlme]; exact h2)
      (hstep acc m hinv h1 h2 h3 hgem (fun n st => hrepl m (by simp) n st) hQ)

theorem dictUpsert_mem (l : List (PyStr × Int)) (k : PyStr) (v : Int)
    (kv : PyStr × Int) (h : kv ∈ dictUpsert l k v) : kv ∈ l ∨ kv.2 = v := by
  unfold dictUpsert at h
  split at h
  · rcases List.mem_map.mp h with ⟨q, hq, hqe⟩
    by_cases hk : (q.1 == k) = true
    · rw [if_pos hk] at hqe
      right
      rw [← hqe]
    · rw [if_neg hk] at hqe
      left
      rw [← hqe]
      exact hq
  · rcases List.mem_append.mp h with h | h
    · exact Or.inl h
    · right
      simp only [List.mem_singleton] at h
      rw [h]

/-- Bounds for the milestone-collection pass: every milestone coordinate the
pass records lies within the final output, and preexisting annotations stay
in bounds. -/
theorem convert_milestones_bounds (text : PyStr) (mlist : List RMatch) (ann : Anns)
    (hval : ∀ x ∈ mlist, x.s < x.e ∧ x.e ≤ text.length ∧ x.ot = none)
    (hpw : mlist.Pairwise (fun a b => a.e ≤ b.s))
    (hann : AnnBounds ann text.length) :
    AnnBounds ((convert_milestones text mlist ann).2)
      ((convert_milestones text mlist ann).1).length := by
  have hval2 : ∀ x ∈ mlist, x.s < x.e ∧ x.e ≤ text.length ∧
      (x.ot ≠ none → x.s + 1 < x.e) :=
    fun x hx => ⟨(hval x hx).1, (hval x hx).2.1, fun h => absurd (hval x hx).2.2 h⟩
  have hrepl : ∀ x ∈ mlist, ∀ n st,
      ((repl_milestone_marker x n st).1).length ≤ x.e - x.s :=
    fun x hx n st => by simp [repl_milestone_marker]
  have hb := get_string_bounds text mlist repl_milestone_marker ann []
    hval2 hpw hrepl hann (fun x hx n st h => h)
  have hchar := get_string_char text mlist repl_milestone_marker (ann, [])
    hval2 hpw hrepl
  have hQ : ∀ kv ∈ (foldGS text repl_milestone_marker mlist (ann, [])).st.2,
      0 ≤ kv.2 ∧ kv.2 ≤
        ((foldGS text repl_milestone_marker mlist (ann, [])).output_len : Int) := by
    refine fold_Q text repl_milestone_marker
      (fun acc => ∀ kv ∈ acc.st.2, 0 ≤ kv.2 ∧ kv.2 ≤ (acc.output_len : Int))
      ?_ mlist ({ st := (ann, []) } : GSState (List (PyStr × Int)))
      (GSInv_init _) hval2 hpw (fun x _ => Nat.zero_le _) hrepl (Nat.zero_le _)
      (by intro kv hkv; simp at hkv)
    intro acc m hinv hse hbound hot hlast hreplm hQa
    have hstep := process_match_step text repl_milestone_marker acc m hinv hse hbound
      hlast (hreplm _ _) hot
    obtain ⟨_, _, hole, hst, holen, _, _, _, _⟩ := hstep
    intro kv hkv
    rw [hst] at hkv
    have hkv2 : kv ∈ dictUpsert acc.st.2 m.gid
        ((acc.output_len + (m.s - acc.last_match_end) : Nat) : Int) := hkv
    have holen2 : (process_match text repl_milestone_marker acc m).output_len =
        acc.output_len + (m.s - acc.last_match_end) + 0 := holen
    rcases dictUpsert_mem _ _ _ kv hkv2 with h | h
    · obtain ⟨h0, h1⟩ := hQa kv h
      refine ⟨h0, ?_⟩
      have : acc.output_len ≤ (process_match text repl_milestone_marker acc m).output_len :=
        hole
      omega
    · rw [h]
      constructor
      · positivity
      · omega
  unfold convert_milestones
  simp only []
  split
  · obtain ⟨hp, hh, _, hd⟩ := hb
    refine ⟨hp, hh, ?_, hd⟩
    intro kv hkv
    simp only [] at hkv
    rw [hchar.2] at hkv
    obtain ⟨h0, h1⟩ := hQ kv hkv
    refine ⟨h0, ?_⟩
    show kv.2 ≤ ((((get_string text mlist repl_milestone_marker (ann, [])).1).length : Nat) : Int)
    have hlen := hchar.1
    omega
  · exact hb

/-- Bounds for the division-boundary pass: every recorded div span that
survives the final filter is ordered and within the final output, and
preexisting annotations stay in bounds. -/
theorem convert_div_boundaries_bounds (text : PyStr) (mlist : List RMatch) (ann : Anns)
    (hval : ∀ x ∈ mlist, x.s < x.e ∧ x.e ≤ text.length ∧ x.ot = none)
    (hsize : ∀ x ∈ mlist, x.s + 2 ≤ x.e)
    (hpw : mlist.Pairwise (fun a b => a.e ≤ b.s))
    (hann : AnnBounds ann text.length) :
    AnnBounds ((convert_div_boundaries text mlist ann).2)
      ((convert_div_boundaries text mlist ann).1).length := by
  have hval2 : ∀ x ∈ mlist, x.s < x.e ∧ x.e ≤ text.length ∧
      (x.ot ≠ none → x.s + 1 < x.e) :=
    fun x hx => ⟨(hval x hx).1, (hval x hx).2.1, fun h => absurd (hval x hx).2.2 h⟩
  have hrepl : ∀ x ∈ mlist, ∀ n st,
      ((repl_div_marker x n st).1).length ≤ x.e - x.s := by
    intro x hx n st
    have := hsize x hx
    unfold repl_div_marker
    simp only []
    split
    · simp
    · split
      · simp [nl2]
        omega
      · simp
  have hb := get_string_bounds text mlist repl_div_marker ann ([], -1)
    hval2 hpw hrepl hann (by
      intro x hx n st h
      unfold repl_div_marker
      simp only []
      split
      · exact h
      · split
        · exact h
        · exact h)
  have hchar := get_string_char text mlist repl_div_marker (ann, ([], -1))
    hval2 hpw hrepl
  have hQ : ∀ b ∈ (foldGS text repl_div_marker mlist (ann, ([], -1))).st.2.1,
      0 ≤ b.cstart ∧
      b.cstart ≤ ((foldGS text repl_div_marker mlist (ann, ([], -1))).output_len : Int) ∧
      (b.cend = -1 ∨ (b.cstart ≤ b.cend ∧
        b.cend ≤ ((foldGS text repl_div_marker mlist (ann, ([], -1))).output_len : Int))) := by
    refine fold_Q text repl_div_marker
      (fun acc => ∀ b ∈ acc.st.2.1,
        0 ≤ b.cstart ∧ b.cstart ≤ (acc.output_len : Int) ∧
        (b.cend = -1 ∨ (b.cstart ≤ b.cend ∧ b.cend ≤ (acc.output_len : Int))))
      ?_ mlist ({ st := (ann, ([], -1)) } : GSState (List DivAnn × Int))
      (GSInv_init _) hval2 hpw (fun x _ => Nat.zero_le _) hrepl (Nat.zero_le _)
      (by intro b hb2; simp at hb2)
    intro acc m hinv hse hbound hot hlast hreplm hQa
    have hstep := process_match_step text repl_div_marker acc m hinv hse hbound
      hlast (hreplm _ _) hot
    obtain ⟨_, _, hole, hst, holen, _, _, _, _⟩ := hstep
    intro b hbm
    rw [hst] at hbm
    have hole2 : acc.output_len ≤ (process_match text repl_div_marker acc m).output_len :=
      hole
    by_cases hs : hasSubstring "div_start_marker".data m.g0
    · have hrw : (repl_div_marker m (acc.output_len + (m.s - acc.last_match_end))
          acc.st).2.2.1 =
          acc.st.2.1 ++
            [{ cstart := ((acc.output_len + (m.s - acc.last_match_end) : Nat) : Int),
               cend := -1 }] := by
        unfold repl_div_marker
        simp only []
        rw [if_pos hs]
      have holen2 : (process_match text repl_div_marker acc m).output_len =
          acc.output_len + (m.s - acc.last_match_end) +
            ((repl_div_marker m (acc.output_len + (m.s - acc.last_match_end))
              acc.st).1).length := holen
      have hrl : ((repl_div_marker m (acc.output_len + (m.s - acc.last_match_end))
          acc.st).1).length = 0 := by
        unfold repl_div_marker
        simp only []
        rw [if_pos hs]
        rfl
      rw [hrw] at hbm
      rcases List.mem_append.mp hbm with h | h
      · obtain ⟨h0, h1, h2⟩ := hQa b h
        refine ⟨h0, by omega, ?_⟩
        rcases h2 with h2 | ⟨h2a, h2b⟩
        · exact Or.inl h2
        · exact Or.inr ⟨h2a, by omega⟩
      · simp only [List.mem_singleton] at h
        rw [h]
        refine ⟨by positivity, ?_, Or.inl rfl⟩
        show ((acc.output_len + (m.s - acc.last_match_end) : Nat) : Int) ≤
          ((process_match text repl_div_marker acc m).output_len : Int)
        omega
    · by_cases he : hasSubstring "div_end_marker".data m.g0
      · have hrw : (repl_div_marker m (acc.output_len + (m.s - acc.last_match_end))
            acc.st).2.2.1 =
            (if 0 ≤ acc.st.2.2 ∧ acc.st.2.2 < (acc.st.2.1.length : Int) then
              acc.st.2.1.set acc.st.2.2.toNat
                { acc.st.2.1.getD acc.st.2.2.toNat {} with
                  cend := ((acc.output_len + (m.s - acc.last_match_end) : Nat) : Int) }
             else acc.st.2.1) := by
          unfold repl_div_marker
          simp only []
          rw [if_neg hs, if_pos he]
        have holen2 : (process_match text repl_div_marker acc m).output_len =
            acc.output_len + (m.s - acc.last_match_end) +
              ((repl_div_marker m (acc.output_len + (m.s - acc.last_match_end))
                acc.st).1).length := holen
        rw [hrw] at hbm
        split at hbm
        · rename_i hidx
          rcases List.mem_or_eq_of_mem_set hbm with h | h
          · obtain ⟨h0, h1, h2⟩ := hQa b h
            refine ⟨h0, by omega, ?_⟩
            rcases h2 with h2 | ⟨h2a, h2b⟩
            · exact Or.inl h2
            · exact Or.inr ⟨h2a, by omega⟩
          · have hlt : acc.st.2.2.toNat < acc.st.2.1.length := by omega
            have hgdm : acc.st.2.1.getD acc.st.2.2.toNat {} ∈ acc.st.2.1 := by
              rw [List.getD_eq_getElem _ _ hlt]
              exact List.getElem_mem hlt
            obtain ⟨h0, h1, _⟩ := hQa _ hgdm
            rw [h]
            refine ⟨?_, ?_, Or.inr ⟨?_, ?_⟩⟩
            · show (0 : Int) ≤ (acc.st.2.1.getD acc.st.2.2.toNat {}).cstart
              exact h0
            · show (acc.st.2.1.getD acc.st.2.2.toNat {}).cstart ≤
                ((process_match text repl_div_marker acc m).output_len : Int)
              omega
            · show (acc.st.2.1.getD acc.st.2.2.toNat {}).cstart ≤
                ((acc.output_len + (m.s - acc.last_match_end) : Nat) : Int)
              omega
            · show ((acc.output_len + (m.s - acc.last_match_end) : Nat) : Int) ≤
                ((process_match text repl_div_marker acc m).output_len : Int)
              omega
        · obtain ⟨h0, h1, h2⟩ := hQa b hbm
          refine ⟨h0, by omega, ?_⟩
          rcases h2 with h2 | ⟨h2a, h2b⟩
          · exact Or.inl h2
          · exact Or.inr ⟨h2a, by omega⟩
      · have hrw : (repl_div_marker m (acc.output_len + (m.s - acc.last_match_end))
            acc.st).2.2.1 = acc.st.2.1 := by
          unfold repl_div_marker
          simp only []
          rw [if_neg hs, if_neg he]
        rw [hrw] at hbm
        obtain ⟨h0, h1, h2⟩ := hQa b hbm
        refine ⟨h0, by omega, ?_⟩
        rcases h2 with h2 | ⟨h2a, h2b⟩
        · exact Or.inl h2
        · exact Or.inr ⟨h2a, by omega⟩
  unfold convert_div_boundaries
  simp only []
  split
  · obtain ⟨hp, hh, hm, _⟩ := hb
    refine ⟨hp, hh, hm, ?_⟩
    intro b hbm
    simp only [] at hbm
    rw [hchar.2] at hbm
    rcases List.mem_filter.mp hbm with ⟨hmem, hne⟩
    obtain ⟨h0, h1, h2⟩ := hQ b hmem
    rcases h2 with h2 | ⟨h2a, h2b⟩
    · exact absurd h2 (by simpa using hne)
    · refine ⟨h0, h2a, ?_⟩
      show b.cend ≤ ((((get_string text mlist repl_div_marker (ann, ([], -1))).1).length : Nat) : Int)
      have hlen := hchar.1
      omega
  · exact hb

/-- Invariant of the page-break pass once some output has been produced:
every recorded part offset is within the output, consecutive part offsets are
at least the 2-character separator apart, and the 2 characters before each
positive part offset are the separator. -/
def PbQ (acc : GSState (List (Option PyStr × Int))) : Prop :=
  0 < acc.output_len ∧
  (∀ part ∈ acc.st.2, 0 ≤ part.2 ∧ part.2 ≤ (acc.output_len : Int)) ∧
  List.Chain' (fun a b : Option PyStr × Int => a.2 + 2 ≤ b.2) acc.st.2 ∧
  (∀ part ∈ acc.st.2, 0 < part.2 →
    pySlice acc.output (part.2 - 2).toNat part.2.toNat = nl2)

theorem pb_repl_len (m : RMatch) (hsize : m.s + 2 ≤ m.e) :
    ∀ n st, ((repl_pb_marker m n st).1).length ≤ m.e - m.s := by
  intro n st
  unfold repl_pb_marker
  simp only []
  split
  · simp [nl2]
    omega
  · simp

theorem pb_step_facts (text : PyStr) (acc : GSState (List (Option PyStr × Int)))
    (m : RMatch) (hinv : GSInv acc) (hse : m.s < m.e) (hbound : m.e ≤ text.length)
    (hot : m.ot ≠ none → m.s + 1 < m.e)
    (hlast : acc.last_match_end ≤ m.s) (hsize : m.s + 2 ≤ m.e) :
    GSInv (process_match text repl_pb_marker acc m) ∧
    (process_match text repl_pb_marker acc m).last_match_end = m.e ∧
    ((process_match text repl_pb_marker acc m).st).2 =
      acc.st.2 ++
        [((if (match m.pname with | some p => p | none => []) ≠ [] then
             some (match m.pname with | some p => p | none => []) else none),
          (if 0 < acc.output_len + (m.s - acc.last_match_end) then
             ((acc.output_len + (m.s - acc.last_match_end) : Nat) : Int) + 2
           else 0))] ∧
    (process_match text repl_pb_marker acc m).output_len =
      acc.output_len + (m.s - acc.last_match_end) +
        (if 0 < acc.output_len + (m.s - acc.last_match_end) then 2 else 0) ∧
    (process_match text repl_pb_marker acc m).output =
      (acc.output ++ pySlice text acc.last_match_end m.s) ++
        (if 0 < acc.output_len + (m.s - acc.last_match_end) then nl2 else []) := by
  have hstep := process_match_step text repl_pb_marker acc m hinv hse hbound hlast
    (pb_repl_len m hsize _ _) hot
  obtain ⟨hinv2, hlme, _, hst, holen, hout, _, _, _⟩ := hstep
  have hr1 : (repl_pb_marker m (acc.output_len + (m.s - acc.last_match_end)) acc.st).1 =
      (if 0 < acc.output_len + (m.s - acc.last_match_end) then nl2 else []) := rfl
  have hrlen : ((if 0 < acc.output_len + (m.s - acc.last_match_end) then nl2
      else []) : PyStr).length =
      (if 0 < acc.output_len + (m.s - acc.last_match_end) then 2 else 0) := by
    split
    · rfl
    · rfl
  refine ⟨hinv2, hlme, ?_, ?_, ?_⟩
  · rw [hst]
    show (acc.st.1, acc.st.2 ++ [_]).2 = _
    rfl
  · rw [holen, hr1, hrlen]
  · rw [hout, hr1]

theorem pb_Q_step (text : PyStr) (acc : GSState (List (Option PyStr × Int)))
    (m : RMatch) (hinv : GSInv acc) (hse : m.s < m.e) (hbound : m.e ≤ text.length)
    (hot : m.ot ≠ none → m.s + 1 < m.e)
    (hlast : acc.last_match_end ≤ m.s) (hsize : m.s + 2 ≤ m.e)
    (hQ : PbQ acc) : PbQ (process_match text repl_pb_marker acc m) := by
  obtain ⟨hpos, hbounds, hchain, hslices⟩ := hQ
  obtain ⟨hinv2, hlme, hst2, holen2, hout2⟩ :=
    pb_step_facts text acc m hinv hse hbound hot hlast hsize
  have hn0 : 0 < acc.output_len + (m.s - acc.last_match_end) := by omega
  rw [if_pos hn0] at hst2 holen2 hout2
  have hostr := hinv.out_str
  have hXlen : (acc.output ++ pySlice text acc.last_match_end m.s).length =
      acc.output_len + (m.s - acc.last_match_end) := by
    rw [List.length_append, hostr,
      pySlice_length text acc.last_match_end m.s (by omega) (by omega)]
  refine ⟨by omega, ?_, ?_, ?_⟩
  · intro part hp
    rw [hst2] at hp
    rcases List.mem_append.mp hp with h | h
    · obtain ⟨h0, h1⟩ := hbounds part h
      exact ⟨h0, by omega⟩
    · simp only [List.mem_singleton] at h
      rw [h]
      refine ⟨by positivity, by omega⟩
  · rw [hst2]
    refine List.Chain'.append hchain (List.chain'_singleton _) ?_
    intro x hx y hy
    simp only [List.head?_cons, Option.mem_def, Option.some.injEq] at hy
    have hxm := List.mem_of_mem_getLast? hx
    obtain ⟨_, h1⟩ := hbounds x hxm
    rw [← hy]
    show x.2 + 2 ≤ ((acc.output_len + (m.s - acc.last_match_end) : Nat) : Int) + 2
    omega
  · intro part hp hppos
    rw [hst2] at hp
    rw [hout2]
    rcases List.mem_append.mp hp with h | h
    · obtain ⟨_, h1⟩ := hbounds part h
      rw [List.append_assoc, pySlice_append_left _ _ _ _ (by rw [hostr]; omega)]
      exact hslices part h hppos
    · simp only [List.mem_singleton] at h
      rw [h]
      have e1 : ((((acc.output_len + (m.s - acc.last_match_end) : Nat) : Int) + 2) -
          2).toNat = acc.output_len + (m.s - acc.last_match_end) := by omega
      have e2 : (((acc.output_len + (m.s - acc.last_match_end) : Nat) : Int) +
          2).toNat = acc.output_len + (m.s - acc.last_match_end) + 2 := by omega
      rw [e1, e2]
      have hsuf := pySlice_suffix (acc.output ++ pySlice text acc.last_match_end m.s) nl2
      rw [hXlen] at hsuf
      exact hsuf

theorem pb_fold_len (text : PyStr) :
    ∀ (mlist : List RMatch) (acc : GSState (List (Option PyStr × Int))),
    (((mlist.foldl (process_match text repl_pb_marker) acc)).st).2.length =
      acc.st.2.length + mlist.length := by
  intro mlist
  induction mlist with
  | nil => intro acc; simp
  | cons m rest ih =>
    intro acc
    simp only [List.foldl_cons]
    rw [ih]
    have hst := process_match_st text repl_pb_marker acc m
    have hlen1 : (((process_match text repl_pb_marker acc m)).st).2.length =
        acc.st.2.length + 1 := by
      rw [hst]
      show ((acc.st.1, acc.st.2 ++ [_]).2).length = _
      simp
    rw [hlen1]
    simp only [List.length_cons]
    omega

theorem pb_fold_head (text : PyStr) :
    ∀ (mlist : List RMatch) (acc : GSState (List (Option PyStr × Int))),
    acc.st.2 ≠ [] →
    (((mlist.foldl (process_match text repl_pb_marker) acc)).st).2.headD (none, 0) =
      acc.st.2.headD (none, 0) := by
  intro mlist
  induction mlist with
  | nil => intro acc _; rfl
  | cons m rest ih =>
    intro acc hne
    simp only [List.foldl_cons]
    have hst := process_match_st text repl_pb_marker acc m
    have hst2 : (((process_match text repl_pb_marker acc m)).st).2 =
        acc.st.2 ++
          [((if (match m.pname with | some p => p | none => []) ≠ [] then
               some (match m.pname with | some p => p | none => []) else none),
            (if 0 < acc.output_len + (m.s - acc.last_match_end) then
               ((acc.output_len + (m.s - acc.last_match_end) : Nat) : Int) + 2
             else 0))] := by
      rw [hst]
      rfl
    rw [ih _ (by rw [hst2]; simp)]
    rw [hst2]
    cases hc : acc.st.2 with
    | nil => exact absurd hc hne
    | cons a t => rfl

/-- The page-break match list does not start with two adjacent matches at the
very beginning of the text (the configuration under which `convert_pages`
produces a negative page end). -/
def PbSafe (mlist : List RMatch) : Prop :=
  match mlist with
  | m1 :: m2 :: _ => ¬(m1.s = 0 ∧ m2.s = m1.e)
  | _ => True


/-- Structural facts about the recorded page parts: offsets within the output,
consecutive offsets separated by at least 2, and the 2-character separator
sitting right before every positive offset. -/
def PbP (acc : GSState (List (Option PyStr × Int))) : Prop :=
  (∀ part ∈ acc.st.2, 0 ≤ part.2 ∧ part.2 ≤ (acc.output_len : Int)) ∧
  List.Chain' (fun a b : Option PyStr × Int => a.2 + 2 ≤ b.2) acc.st.2 ∧
  (∀ part ∈ acc.st.2, 0 < part.2 →
    pySlice acc.output (part.2 - 2).toNat part.2.toNat = nl2)

theorem pb_P_step (text : PyStr) (acc : GSState (List (Option PyStr × Int)))
    (m : RMatch) (hinv : GSInv acc) (hse : m.s < m.e) (hbound : m.e ≤ text.length)
    (hot : m.ot ≠ none → m.s + 1 < m.e)
    (hlast : acc.last_match_end ≤ m.s) (hsize : m.s + 2 ≤ m.e)
    (hcase : acc.st.2 = [] ∨ 0 < acc.output_len + (m.s - acc.last_match_end))
    (hP : PbP acc) : PbP (process_match text repl_pb_marker acc m) ∧
      (0 < acc.output_len + (m.s - acc.last_match_end) →
        0 < (process_match text repl_pb_marker acc m).output_len) := by
  obtain ⟨hbounds, hchain, hslices⟩ := hP
  obtain ⟨_, hlme, hst2, holen2, hout2⟩ :=
    pb_step_facts text acc m hinv hse hbound hot hlast hsize
  have hostr := hinv.out_str
  have hXlen : (acc.output ++ pySlice text acc.last_match_end m.s).length =
      acc.output_len + (m.s - acc.last_match_end) := by
    rw [List.length_append, hostr,
      pySlice_length text acc.last_match_end m.s (by omega) (by omega)]
  by_cases hn0 : 0 < acc.output_len + (m.s - acc.last_match_end)
  · rw [if_pos hn0] at hst2 holen2 hout2
    refine ⟨⟨?_, ?_, ?_⟩, fun _ => by omega⟩
    · intro part hp
      rw [hst2] at hp
      rcases List.mem_append.mp hp with h | h
      · obtain ⟨h0, h1⟩ := hbounds part h
        exact ⟨h0, by omega⟩
      · simp only [List.mem_singleton] at h
        rw [h]
        refine ⟨by positivity, by omega⟩
    · rw [hst2]
      refine List.Chain'.append hchain (List.chain'_singleton _) ?_
      intro x hx y hy
      simp only [List.head?_cons, Option.mem_def, Option.some.injEq] at hy
      have hxm := List.mem_of_mem_getLast? hx
      obtain ⟨_, h1⟩ := hbounds x hxm
      rw [← hy]
      show x.2 + 2 ≤ ((acc.output_len + (m.s - acc.last_match_end) : Nat) : Int) + 2
      omega
    · intro part hp hppos
      rw [hst2] at hp
      rw [hout2]
      rcases List.mem_append.mp hp with h | h
      · obtain ⟨_, h1⟩ := hbounds part h
        rw [List.append_assoc, pySlice_append_left _ _ _ _ (by rw [hostr]; omega)]
        exact hslices part h hppos
      · simp only [List.mem_singleton] at h
        rw [h]
        have e1 : ((((acc.output_len + (m.s - acc.last_match_end) : Nat) : Int) + 2) -
            2).toNat = acc.output_len + (m.s - acc.last_match_end) := by omega
        have e2 : (((acc.output_len + (m.s - acc.last_match_end) : Nat) : Int) +
            2).toNat = acc.output_len + (m.s - acc.last_match_end) + 2 := by omega
        rw [e1, e2]
        have hsuf := pySlice_suffix (acc.output ++ pySlice text acc.last_match_end m.s) nl2
        rw [hXlen] at hsuf
        exact hsuf
  · have hpe : acc.st.2 = [] := by
      rcases hcase with h | h
      · exact h
      · exact absurd h hn0
    rw [if_neg hn0] at hst2 holen2
    refine ⟨⟨?_, ?_, ?_⟩, fun h => absurd h hn0⟩
    · intro part hp
      rw [hst2, hpe, List.nil_append] at hp
      simp only [List.mem_singleton] at hp
      rw [hp, holen2]
      simp
      positivity
    · rw [hst2, hpe, List.nil_append]
      exact List.chain'_singleton _
    · intro part hp hppos
      rw [hst2, hpe, List.nil_append] at hp
      simp only [List.mem_singleton] at hp
      rw [hp] at hppos
      simp only [] at hppos
      exact absurd hppos (by omega)

theorem pb_parts_spec (text : PyStr) (mlist : List RMatch) (ann : Anns)
    (hval : ∀ x ∈ mlist, x.s < x.e ∧ x.e ≤ text.length ∧ x.ot = none)
    (hsize : ∀ x ∈ mlist, x.s + 2 ≤ x.e)
    (hpw : mlist.Pairwise (fun a b => a.e ≤ b.s))
    (hsafe : PbSafe mlist) :
    PbP (foldGS text repl_pb_marker mlist (ann, [])) ∧
    (∀ m1, mlist.head? = some m1 →
      ((((foldGS text repl_pb_marker mlist (ann, [])).st).2.headD (none, 0)).2 =
        (if 0 < m1.s then ((m1.s : Nat) : Int) + 2 else 0))) := by
  have hQstep : ∀ (acc : GSState (List (Option PyStr × Int))) (m : RMatch),
      GSInv acc → m.s < m.e → m.e ≤ text.length → (m.ot ≠ none → m.s + 1 < m.e) →
      acc.last_match_end ≤ m.s →
      (∀ n st, ((repl_pb_marker m n st).1).length ≤ m.e - m.s) →
      PbQ acc → PbQ (process_match text repl_pb_marker acc m) := by
    intro acc m hinv hse hb hot hlast hreplm hQ
    have hsz : m.s + 2 ≤ m.e := by
      have h2 := hreplm 1 acc.st
      unfold repl_pb_marker at h2
      simp only [] at h2
      rw [if_pos (by omega : 0 < 1)] at h2
      simp only [nl2, List.length_cons, List.length_nil] at h2
      omega
    obtain ⟨hpos, hP3⟩ := hQ
    have hres := pb_P_step text acc m hinv hse hb hot hlast hsz (Or.inr (by omega)) hP3
    exact ⟨hres.2 (by omega), hres.1⟩
  rcases mlist with _ | ⟨m1, rest⟩
  · refine ⟨⟨?_, ?_, ?_⟩, ?_⟩
    · intro part hp
      simp [foldGS] at hp
    · simp only [foldGS, List.foldl_nil]
      exact List.chain'_nil
    · intro part hp
      simp [foldGS] at hp
    · intro m1 h
      simp at h
  · obtain ⟨h1se, h1b, h1ot⟩ := hval m1 (by simp)
    have h1size := hsize m1 (by simp)
    have hinit : GSInv ({ st := (ann, []) } : GSState (List (Option PyStr × Int))) :=
      GSInv_init _
    have hPinit : PbP ({ st := (ann, []) } : GSState (List (Option PyStr × Int))) := by
      refine ⟨?_, ?_, ?_⟩
      · intro part hp
        simp at hp
      · exact List.chain'_nil
      · intro part hp
        simp at hp
    have hstep1 := pb_P_step text ({ st := (ann, []) } :
        GSState (List (Option PyStr × Int))) m1 hinit h1se h1b
      (fun h => absurd h1ot h) (Nat.zero_le _) h1size (Or.inl rfl) hPinit
    obtain ⟨hinv1, hlme1, hst1, holen1, _⟩ := pb_step_facts text ({ st := (ann, []) } :
        GSState (List (Option PyStr × Int))) m1 hinit h1se h1b
      (fun h => absurd h1ot h) (Nat.zero_le _) h1size
    have hn1 : ({ st := (ann, []) } : GSState (List (Option PyStr × Int))).output_len +
        (m1.s - ({ st := (ann, []) } :
          GSState (List (Option PyStr × Int))).last_match_end) = m1.s := by
      simp
    rw [hn1] at hst1 holen1
    have hst1e : ((process_match text repl_pb_marker
        ({ st := (ann, []) } : GSState (List (Option PyStr × Int))) m1).st).2 =
        [((if (match m1.pname with | some p => p | none => []) ≠ [] then
             some (match m1.pname with | some p => p | none => []) else none),
          (if 0 < m1.s then ((m1.s : Nat) : Int) + 2 else 0))] := by
      rw [hst1]
      rfl
    have hpwc := List.pairwise_cons.mp hpw
    rcases rest with _ | ⟨m2, rest2⟩
    · have hF : foldGS text repl_pb_marker [m1] (ann, []) =
          process_match text repl_pb_marker
            ({ st := (ann, []) } : GSState (List (Option PyStr × Int))) m1 := by
        unfold foldGS
        simp only [List.foldl_cons, List.foldl_nil]
      rw [hF]
      refine ⟨hstep1.1, ?_⟩
      intro mh hmh
      simp only [List.head?_cons, Option.some.injEq] at hmh
      rw [← hmh, hst1e]
      rfl
    · obtain ⟨h2se, h2b, h2ot⟩ := hval m2 (by simp)
      have h2size := hsize m2 (by simp)
      have h12 : m1.e ≤ m2.s := hpwc.1 m2 (by simp)
      have hpwc2 := List.pairwise_cons.mp hpwc.2
      have hF : foldGS text repl_pb_marker (m1 :: m2 :: rest2) (ann, []) =
          (m2 :: rest2).foldl (process_match text repl_pb_marker)
            (process_match text repl_pb_marker
              ({ st := (ann, []) } : GSState (List (Option PyStr × Int))) m1) := by
        unfold foldGS
        simp only [List.foldl_cons]
      have hQF : PbQ (foldGS text repl_pb_marker (m1 :: m2 :: rest2) (ann, [])) := by
        rw [hF]
        by_cases hms : 0 < m1.s
        · refine fold_Q text repl_pb_marker PbQ hQstep (m2 :: rest2) _ hinv1
            (fun x hx => by
              obtain ⟨a, b, c⟩ := hval x (by simp [hx])
              exact ⟨a, b, fun h => absurd c h⟩)
            hpwc.2
            (fun x hx => by rw [hlme1]; exact hpwc.1 x hx)
            (fun x hx => pb_repl_len x (hsize x (by simp [hx])))
            (by rw [hlme1]; exact h1b)
            ⟨?_, hstep1.1⟩
          rw [holen1, if_pos hms]
          omega
        · have hms0 : m1.s = 0 := by omega
          have hne12 : m2.s ≠ m1.e := fun h => hsafe ⟨hms0, h⟩
          have h12lt : m1.e < m2.s := lt_of_le_of_ne h12 (Ne.symm hne12)
          simp only [List.foldl_cons]
          have hol1 : (process_match text repl_pb_marker
              ({ st := (ann, []) } :
                GSState (List (Option PyStr × Int))) m1).output_len = 0 := by
            rw [holen1, if_neg hms]
            omega
          have hn2pos : 0 < (process_match text repl_pb_marker
              ({ st := (ann, []) } : GSState (List (Option PyStr × Int))) m1).output_len +
              (m2.s - (process_match text repl_pb_marker
                ({ st := (ann, []) } :
                  GSState (List (Option PyStr × Int))) m1).last_match_end) := by
            rw [hol1, hlme1]
            omega
          have hstep2 := pb_P_step text (process_match text repl_pb_marker
              ({ st := (ann, []) } : GSState (List (Option PyStr × Int))) m1) m2
            hinv1 h2se h2b (fun h => absurd h2ot h) (by rw [hlme1]; omega) h2size
            (Or.inr hn2pos) hstep1.1
          obtain ⟨hinv2, hlme2, _, _, _⟩ := pb_step_facts text
            (process_match text repl_pb_marker
              ({ st := (ann, []) } : GSState (List (Option PyStr × Int))) m1) m2
            hinv1 h2se h2b (fun h => absurd h2ot h) (by rw [hlme1]; omega) h2size
          refine fold_Q text repl_pb_marker PbQ hQstep rest2 _ hinv2
            (fun x hx => by
              obtain ⟨a, b, c⟩ := hval x (by simp [hx])
              exact ⟨a, b, fun h => absurd c h⟩)
            hpwc2.2
            (fun x hx => by rw [hlme2]; exact hpwc2.1 x hx)
            (fun x hx => pb_repl_len x (hsize x (by simp [hx])))
            (by rw [hlme2]; exact h2b)
            ⟨hstep2.2 hn2pos, hstep2.1⟩
      have hhead : ((((foldGS text repl_pb_marker (m1 :: m2 :: rest2)
          (ann, [])).st).2).headD (none, 0)).2 =
          (if 0 < m1.s then ((m1.s : Nat) : Int) + 2 else 0) := by
        rw [hF]
        have hh1 := pb_fold_head text (m2 :: rest2)
          (process_match text repl_pb_marker
            ({ st := (ann, []) } : GSState (List (Option PyStr × Int))) m1)
          (by rw [hst1e]; simp)
        rw [hh1, hst1e]
        rfl
      obtain ⟨_, hP3⟩ := hQF
      refine ⟨hP3, ?_⟩
      intro mh hmh
      simp only [List.head?_cons, Option.some.injEq] at hmh
      rw [← hmh]
      exact hhead

/-- The page texts induced by a list of page-start offsets: each page runs to
2 characters before the next page's start; the last page runs to the end of
the text. -/
def sliceList (out : PyStr) : List Int → List PyStr
  | [] => []
  | [c] => [pySlice out c.toNat out.length]
  | c :: c2 :: rest => pySlice out c.toNat (c2 - 2).toNat :: sliceList out (c2 :: rest)

theorem joinSep_cons2 (a : PyStr) (l : List PyStr) (h : l ≠ []) :
    joinSep (a :: l) = a ++ nl2 ++ joinSep l := by
  cases l with
  | nil => exact absurd rfl h
  | cons b t => rfl

theorem drop_partition (out : PyStr) :
    ∀ (cs : List Int), List.Chain' (fun a b => a + 2 ≤ b) cs →
    (∀ c ∈ cs, 0 ≤ c ∧ c ≤ (out.length : Int)) →
    (∀ c ∈ cs, 0 < c → pySlice out (c - 2).toNat c.toNat = nl2) →
    ∀ c0, cs.head? = some c0 →
    joinSep (sliceList out cs) = out.drop c0.toNat := by
  intro cs
  induction cs with
  | nil =>
    intro _ _ _ c0 h
    simp at h
  | cons c rest ih =>
    intro hchain hbb hsep c0 hc0
    simp only [List.head?_cons, Option.some.injEq] at hc0
    rw [← hc0]
    cases rest with
    | nil =>
      show joinSep [pySlice out c.toNat out.length] = out.drop c.toNat
      show pySlice out c.toNat out.length = out.drop c.toNat
      unfold pySlice
      rw [List.take_length]
    | cons c2 rest2 =>
      have hch := List.chain'_cons.mp hchain
      have hcb := hbb c (by simp)
      have hc2b := hbb c2 (by simp)
      have hc2pos : 0 < c2 := by omega
      have hsep2 := hsep c2 (by simp) hc2pos
      have hih := ih hch.2 (fun x hx => hbb x (by simp [hx]))
        (fun x hx hp => hsep x (by simp [hx]) hp) c2 (by simp)
      show joinSep (pySlice out c.toNat (c2 - 2).toNat :: sliceList out (c2 :: rest2)) = _
      rw [joinSep_cons2 _ _ (by
        cases rest2 with
        | nil => simp [sliceList]
        | cons c3 r3 => simp [sliceList])]
      rw [hih]
      have hd1 : out.drop c.toNat =
          pySlice out c.toNat (c2 - 2).toNat ++ out.drop (c2 - 2).toNat :=
        drop_eq_slice_append out c.toNat (c2 - 2).toNat (by omega) (by omega)
      have hd2 : out.drop (c2 - 2).toNat =
          pySlice out (c2 - 2).toNat c2.toNat ++ out.drop c2.toNat :=
        drop_eq_slice_append out (c2 - 2).toNat c2.toNat (by omega) (by omega)
      rw [hd1, hd2, hsep2, List.append_assoc]

theorem build_pages_cons (p : Option PyStr × Int) (rest : List (Option PyStr × Int))
    (L : Nat) :
    build_pages (p :: rest) L =
      { pname := p.1, pnum := 1, cstart := p.2,
        cend := if rest = [] then (L : Int) else (rest.headD (none, 0)).2 - 2 } ::
      (build_pages rest L).map (fun pg => { pg with pnum := pg.pnum + 1 }) := by
  unfold build_pages
  rw [List.length_cons, List.range_succ_eq_map, List.map_cons, List.map_map,
    List.map_map]
  congr 1
  · cases rest with
    | nil => simp
    | cons q t => simp
  · apply List.map_congr_left
    intro i hi
    simp only [List.mem_range] at hi
    simp only [Function.comp, List.getD_cons_succ]
    congr 1
    by_cases hlt : i < rest.length - 1
    · rw [if_pos (by omega : i.succ < rest.length + 1 - 1), if_pos hlt]
    · rw [if_neg (by omega : ¬ i.succ < rest.length + 1 - 1), if_neg hlt]

theorem build_pages_length (parts : List (Option PyStr × Int)) (L : Nat) :
    (build_pages parts L).length = parts.length := by
  simp [build_pages]

theorem build_pages_map_slice (out : PyStr) :
    ∀ (parts : List (Option PyStr × Int)),
    (build_pages parts out.length).map
      (fun p => pySlice out p.cstart.toNat p.cend.toNat) =
      sliceList out (parts.map (fun q => q.2)) := by
  intro parts
  induction parts with
  | nil => rfl
  | cons p rest ih =>
    rw [build_pages_cons, List.map_cons, List.map_map]
    have hcomp : ((fun pg : PageAnn => pySlice out pg.cstart.toNat pg.cend.toNat) ∘
        (fun pg : PageAnn => { pg with pnum := pg.pnum + 1 })) =
        (fun pg : PageAnn => pySlice out pg.cstart.toNat pg.cend.toNat) := rfl
    rw [hcomp, ih]
    cases rest with
    | nil =>
      show pySlice out p.2.toNat (if ([] : List (Option PyStr × Int)) = [] then
          ((out.length : Nat) : Int)
        else (([] : List (Option PyStr × Int)).headD (none, 0)).2 - 2).toNat ::
        sliceList out [] = sliceList out [p.2]
      rw [if_pos rfl]
      show [pySlice out p.2.toNat ((out.length : Int)).toNat] =
        [pySlice out p.2.toNat out.length]
      rw [Int.toNat_ofNat]
    | cons q t =>
      show pySlice out p.2.toNat
          (if (q :: t : List (Option PyStr × Int)) = [] then ((out.length : Nat) : Int)
           else ((q :: t).headD (none, 0)).2 - 2).toNat ::
          sliceList out ((q :: t).map (fun r => r.2)) =
        sliceList out (p.2 :: (q :: t).map (fun r => r.2))
      rw [if_neg (by simp)]
      rfl

theorem build_pages_bounds (L : Nat) :
    ∀ (parts : List (Option PyStr × Int)),
    (∀ part ∈ parts, 0 ≤ part.2 ∧ part.2 ≤ (L : Int)) →
    List.Chain' (fun a b : Option PyStr × Int => a.2 + 2 ≤ b.2) parts →
    ∀ p ∈ build_pages parts L,
      0 ≤ p.cstart ∧ p.cstart ≤ p.cend ∧ p.cend ≤ (L : Int) := by
  intro parts
  induction parts with
  | nil =>
    intro _ _ p hp
    simp [build_pages] at hp
  | cons q rest ih =>
    intro hb hch p hp
    rw [build_pages_cons] at hp
    rcases List.mem_cons.mp hp with h | h
    · rw [h]
      obtain ⟨h0, h1⟩ := hb q (by simp)
      cases rest with
      | nil =>
        refine ⟨h0, ?_, ?_⟩
        · show q.2 ≤ (if ([] : List (Option PyStr × Int)) = [] then (L : Int)
            else (([] : List (Option PyStr × Int)).headD (none, 0)).2 - 2)
          rw [if_pos rfl]
          exact h1
        · show (if ([] : List (Option PyStr × Int)) = [] then (L : Int)
            else (([] : List (Option PyStr × Int)).headD (none, 0)).2 - 2) ≤ (L : Int)
          rw [if_pos rfl]
      | cons r t =>
        have hqr : q.2 + 2 ≤ r.2 := (List.chain'_cons.mp hch).1
        obtain ⟨hr0, hr1⟩ := hb r (by simp)
        refine ⟨h0, ?_, ?_⟩
        · show q.2 ≤ (if (r :: t : List (Option PyStr × Int)) = [] then (L : Int)
            else ((r :: t).headD (none, 0)).2 - 2)
          rw [if_neg (by simp)]
          show q.2 ≤ r.2 - 2
          omega
        · show (if (r :: t : List (Option PyStr × Int)) = [] then (L : Int)
            else ((r :: t).headD (none, 0)).2 - 2) ≤ (L : Int)
          rw [if_neg (by simp)]
          show r.2 - 2 ≤ (L : Int)
          omega
    · rcases List.mem_map.mp h with ⟨pg, hpg, hpe⟩
      obtain ⟨h0, h1, h2⟩ := ih (fun x hx => hb x (by simp [hx])) hch.tail pg hpg
      rw [← hpe]
      exact ⟨h0, h1, h2⟩

theorem build_pages_get (parts : List (Option PyStr × Int)) (L : Nat) (i : Nat)
    (hi : i < parts.length) :
    (build_pages parts L).get ⟨i, by rw [build_pages_length]; exact hi⟩ =
      { pname := (parts.getD i (none, 0)).1, pnum := (i : Int) + 1,
        cstart := (parts.getD i (none, 0)).2,
        cend := if i < parts.length - 1 then (parts.getD (i + 1) (none, 0)).2 - 2
                else (L : Int) } := by
  simp only [build_pages, List.get_eq_getElem, List.getElem_map, List.getElem_range]

theorem get_string_output_ext {τ : Type} (orig : PyStr) (mlist : List RMatch)
    (repl_fun : RMatch → Nat → Anns × τ → PyStr × (Anns × τ)) (st0 : Anns × τ)
    (hval : ∀ x ∈ mlist, x.s < x.e ∧ x.e ≤ orig.length ∧ (x.ot ≠ none → x.s + 1 < x.e)) :
    ∃ tail, (get_string orig mlist repl_fun st0).1 =
      (foldGS orig repl_fun mlist st0).output ++ tail := by
  cases hml : mlist with
  | nil =>
    refine ⟨orig, ?_⟩
    show orig = ([] : PyStr) ++ orig
    rw [List.nil_append]
  | cons m0 rest =>
    have hne : mlist ≠ [] := by rw [hml]; simp
    rw [← hml]
    have hlast_mem : mlist.getLast hne ∈ mlist := List.getLast_mem hne
    have hlpos : 1 ≤ (mlist.getLast hne).e := (hval _ hlast_mem).1.trans_le' (by omega)
    have hle : (foldGS orig repl_fun mlist st0).last_match_end = (mlist.getLast hne).e :=
      fold_lastEnd_of_ne orig repl_fun mlist _ hne
    have hne0 : ¬ ((foldGS orig repl_fun mlist st0).last_match_end = 0) := by
      rw [hle]
      omega
    have hgs : get_string orig mlist repl_fun st0 =
        (if ((foldGS orig repl_fun mlist st0).last_match_end == 0) = true
         then (orig, (foldGS orig repl_fun mlist st0).st)
         else
          (if (foldGS orig repl_fun mlist st0).last_match_end < orig.length then
             (foldGS orig repl_fun mlist st0).output ++
               orig.drop (foldGS orig repl_fun mlist st0).last_match_end
           else (foldGS orig repl_fun mlist st0).output,
           (apply_position_diffs (foldGS orig repl_fun mlist st0).positions
              (foldGS orig repl_fun mlist st0).diffs
              ((foldGS orig repl_fun mlist st0).st).1
              (foldGS orig repl_fun mlist st0).collapsed_spans,
            ((foldGS orig repl_fun mlist st0).st).2))) := rfl
    rw [hgs, if_neg (by simpa using hne0)]
    split
    · exact ⟨orig.drop (foldGS orig repl_fun mlist st0).last_match_end, rfl⟩
    · exact ⟨[], by rw [List.append_nil]⟩

theorem convert_pages_parts_facts (text : PyStr) (mlist : List RMatch) (ann : Anns)
    (hval : ∀ x ∈ mlist, x.s < x.e ∧ x.e ≤ text.length ∧ x.ot = none)
    (hsize : ∀ x ∈ mlist, x.s + 2 ≤ x.e)
    (hpw : mlist.Pairwise (fun a b => a.e ≤ b.s))
    (hsafe : PbSafe mlist) :
    (∀ part ∈ ((get_string text mlist repl_pb_marker (ann, [])).2).2,
       0 ≤ part.2 ∧
       part.2 ≤ (((get_string text mlist repl_pb_marker (ann, [])).1).length : Int)) ∧
    List.Chain' (fun a b : Option PyStr × Int => a.2 + 2 ≤ b.2)
      ((get_string text mlist repl_pb_marker (ann, [])).2).2 ∧
    (∀ part ∈ ((get_string text mlist repl_pb_marker (ann, [])).2).2, 0 < part.2 →
       pySlice (get_string text mlist repl_pb_marker (ann, [])).1
         (part.2 - 2).toNat part.2.toNat = nl2) ∧
    ((get_string text mlist repl_pb_marker (ann, [])).2).2.length = mlist.length ∧
    (∀ m1, mlist.head? = some m1 →
      (((((get_string text mlist repl_pb_marker (ann, [])).2).2).headD (none, 0)).2 =
        (if 0 < m1.s then ((m1.s : Nat) : Int) + 2 else 0))) := by
  have hval2 : ∀ x ∈ mlist, x.s < x.e ∧ x.e ≤ text.length ∧
      (x.ot ≠ none → x.s + 1 < x.e) :=
    fun x hx => ⟨(hval x hx).1, (hval x hx).2.1, fun h => absurd (hval x hx).2.2 h⟩
  have hrepl : ∀ x ∈ mlist, ∀ n st, ((repl_pb_marker x n st).1).length ≤ x.e - x.s :=
    fun x hx => pb_repl_len x (hsize x hx)
  have hchar := get_string_char text mlist repl_pb_marker (ann, []) hval2 hpw hrepl
  have hext := get_string_output_ext text mlist repl_pb_marker (ann, []) hval2
  have hps := pb_parts_spec text mlist ann hval hsize hpw hsafe
  obtain ⟨⟨hbounds, hchain, hslices⟩, hhead⟩ := hps
  have hfold := fold_inv text repl_pb_marker mlist
    ({ st := (ann, []) } : GSState (List (Option PyStr × Int)))
    (GSInv_init _) hval2 hpw (fun x _ => Nat.zero_le _) hrepl (Nat.zero_le _)
  have hinv : GSInv (foldGS text repl_pb_marker mlist (ann, [])) := hfold.1
  have hostr := hinv.out_str
  have hlenF : ((get_string text mlist repl_pb_marker (ann, [])).1).length =
      (foldGS text repl_pb_marker mlist (ann, [])).output_len +
        (text.length - (foldGS text repl_pb_marker mlist (ann, [])).last_match_end) :=
    hchar.1
  have hst22 : ((get_string text mlist repl_pb_marker (ann, [])).2).2 =
      ((foldGS text repl_pb_marker mlist (ann, [])).st).2 := hchar.2
  obtain ⟨tail, htail⟩ := hext
  refine ⟨?_, ?_, ?_, ?_, ?_⟩
  · intro part hp
    rw [hst22] at hp
    obtain ⟨h0, h1⟩ := hbounds part hp
    refine ⟨h0, ?_⟩
    omega
  · rw [hst22]
    exact hchain
  · intro part hp hppos
    rw [hst22] at hp
    rw [htail, pySlice_append_left _ _ _ _ (by
      rw [hostr]
      have := (hbounds part hp).2
      omega)]
    exact hslices part hp hppos
  · rw [hst22]
    have hl := pb_fold_len text mlist
      ({ st := (ann, []) } : GSState (List (Option PyStr × Int)))
    have hl0 : (({ st := (ann, []) } :
        GSState (List (Option PyStr × Int))).st).2.length = 0 := rfl
    show ((List.foldl (process_match text repl_pb_marker)
      ({ st := (ann, []) } : GSState (List (Option PyStr × Int))) mlist).st).2.length =
      mlist.length
    rw [hl, hl0]
    omega
  · intro m1 hm1
    rw [hst22]
    exact hhead m1 hm1

/-- Bounds for the page pass: under the adjacency proviso, every emitted page
is ordered and within the final output, and preexisting annotations stay in
bounds. -/
theorem convert_pages_bounds (text : PyStr) (mlist : List RMatch) (ann : Anns)
    (hval : ∀ x ∈ mlist, x.s < x.e ∧ x.e ≤ text.length ∧ x.ot = none)
    (hsize : ∀ x ∈ mlist, x.s + 2 ≤ x.e)
    (hpw : mlist.Pairwise (fun a b => a.e ≤ b.s))
    (hsafe : PbSafe mlist)
    (hann : AnnBounds ann text.length) :
    AnnBounds ((convert_pages text mlist ann).2)
      ((convert_pages text mlist ann).1).length := by
  have hval2 : ∀ x ∈ mlist, x.s < x.e ∧ x.e ≤ text.length ∧
      (x.ot ≠ none → x.s + 1 < x.e) :=
    fun x hx => ⟨(hval x hx).1, (hval x hx).2.1, fun h => absurd (hval x hx).2.2 h⟩
  have hrepl : ∀ x ∈ mlist, ∀ n st, ((repl_pb_marker x n st).1).length ≤ x.e - x.s :=
    fun x hx => pb_repl_len x (hsize x hx)
  have hb := get_string_bounds text mlist repl_pb_marker ann []
    hval2 hpw hrepl hann (fun x hx n st h => h)
  obtain ⟨hbounds, hchain, _, _, _⟩ :=
    convert_pages_parts_facts text mlist ann hval hsize hpw hsafe
  obtain ⟨_, hh, hm, hd⟩ := hb
  refine ⟨?_, hh, hm, hd⟩
  intro p hp
  have hp2 : p ∈ build_pages ((get_string text mlist repl_pb_marker (ann, [])).2).2
      ((get_string text mlist repl_pb_marker (ann, [])).1).length := hp
  exact build_pages_bounds _ _ hbounds hchain p hp2

/-- Both exits of the `get_string` loop return the replacement callback's
opaque closure state unchanged. -/
theorem get_string_st2 {τ : Type} (orig : PyStr) (mlist : List RMatch)
    (repl_fun : RMatch → Nat → Anns × τ → PyStr × (Anns × τ)) (st0 : Anns × τ) :
    ((get_string orig mlist repl_fun st0).2).2 =
      ((foldGS orig repl_fun mlist st0).st).2 := by
  unfold get_string foldGS
  simp only []
  split
  · rfl
  · rfl

/-- C3 (amended): In the pages list emitted by `convert_pages`, page numbers
are 1-based and sequential (page `i` has number `i+1`), each page's `cend`
equals the next page's `cstart` minus the 2-character separator, and the last
page's `cend` equals the length of the returned text — all unconditionally.
Moreover, provided the matches are a valid `finditer` result, the match list is
non-empty, its first match starts at offset 0, and the first two matches are
not adjacent at offset 0, concatenating `text[page.cstart:page.cend]` over all
pages, with the synthetic 2-character separator between consecutive pages,
reproduces the returned text exactly. -/
theorem C3_pages_structure (text : PyStr) (mlist : List RMatch) (ann : Anns) :
    ((convert_pages text mlist ann).2.pages).length = mlist.length ∧
    (∀ i (hi : i < ((convert_pages text mlist ann).2.pages).length),
      (((convert_pages text mlist ann).2.pages).get ⟨i, hi⟩).pnum = (i : Int) + 1) ∧
    (∀ i (hi : i + 1 < ((convert_pages text mlist ann).2.pages).length),
      (((convert_pages text mlist ann).2.pages).get ⟨i, by omega⟩).cend =
        (((convert_pages text mlist ann).2.pages).get ⟨i + 1, hi⟩).cstart - 2) ∧
    (∀ i (hi : i < ((convert_pages text mlist ann).2.pages).length),
      i + 1 = ((convert_pages text mlist ann).2.pages).length →
      (((convert_pages text mlist ann).2.pages).get ⟨i, hi⟩).cend =
        ((((convert_pages text mlist ann).1).length : Nat) : Int)) ∧
    ((∀ x ∈ mlist, x.s < x.e ∧ x.e ≤ text.length ∧ x.ot = none) →
     (∀ x ∈ mlist, x.s + 2 ≤ x.e) →
     mlist.Pairwise (fun a b => a.e ≤ b.s) →
     PbSafe mlist →
     mlist ≠ [] →
     (∀ m1, mlist.head? = some m1 → m1.s = 0) →
     joinSep (((convert_pages text mlist ann).2.pages).map
        (fun p => pySlice (convert_pages text mlist ann).1 p.cstart.toNat p.cend.toNat)) =
      (convert_pages text mlist ann).1) := by
  have hpg : (convert_pages text mlist ann).2.pages =
      build_pages ((get_string text mlist repl_pb_marker (ann, [])).2).2
        ((get_string text mlist repl_pb_marker (ann, [])).1).length := rfl
  have hout : (convert_pages text mlist ann).1 =
      (get_string text mlist repl_pb_marker (ann, [])).1 := rfl
  have hplen : ((convert_pages text mlist ann).2.pages).length =
      ((get_string text mlist repl_pb_marker (ann, [])).2).2.length := by
    rw [hpg, build_pages_length]
  have hst22 := get_string_st2 text mlist repl_pb_marker (ann, [])
  have hlen : ((get_string text mlist repl_pb_marker (ann, [])).2).2.length =
      mlist.length := by
    rw [hst22]
    have hl := pb_fold_len text mlist
      ({ st := (ann, []) } : GSState (List (Option PyStr × Int)))
    have hl0 : (({ st := (ann, []) } :
        GSState (List (Option PyStr × Int))).st).2.length = 0 := rfl
    show ((List.foldl (process_match text repl_pb_marker)
      ({ st := (ann, []) } : GSState (List (Option PyStr × Int))) mlist).st).2.length =
      mlist.length
    rw [hl, hl0]
    omega
  refine ⟨?_, ?_, ?_, ?_, ?_⟩
  · rw [hplen, hlen]
  · intro i hi
    have hi2 : i < ((get_string text mlist repl_pb_marker (ann, [])).2).2.length := by
      rw [← hplen]
      exact hi
    have hg := build_pages_get ((get_string text mlist repl_pb_marker (ann, [])).2).2
      ((get_string text mlist repl_pb_marker (ann, [])).1).length i hi2
    have he : (((convert_pages text mlist ann).2.pages).get ⟨i, hi⟩) =
        ((build_pages ((get_string text mlist repl_pb_marker (ann, [])).2).2
          ((get_string text mlist repl_pb_marker (ann, [])).1).length).get
          ⟨i, by rw [build_pages_length]; exact hi2⟩) := rfl
    rw [he, hg]
  · intro i hi
    have hi2 : i < ((get_string text mlist repl_pb_marker (ann, [])).2).2.length := by
      rw [← hplen]
      omega
    have hi3 : i + 1 < ((get_string text mlist repl_pb_marker (ann, [])).2).2.length := by
      rw [← hplen]
      exact hi
    have hg1 := build_pages_get ((get_string text mlist repl_pb_marker (ann, [])).2).2
      ((get_string text mlist repl_pb_marker (ann, [])).1).length i hi2
    have hg2 := build_pages_get ((get_string text mlist repl_pb_marker (ann, [])).2).2
      ((get_string text mlist repl_pb_marker (ann, [])).1).length (i + 1) hi3
    have he1 : (((convert_pages text mlist ann).2.pages).get ⟨i, by omega⟩) =
        ((build_pages ((get_string text mlist repl_pb_marker (ann, [])).2).2
          ((get_string text mlist repl_pb_marker (ann, [])).1).length).get
          ⟨i, by rw [build_pages_length]; exact hi2⟩) := rfl
    have he2 : (((convert_pages text mlist ann).2.pages).get ⟨i + 1, hi⟩) =
        ((build_pages ((get_string text mlist repl_pb_marker (ann, [])).2).2
          ((get_string text mlist repl_pb_marker (ann, [])).1).length).get
          ⟨i + 1, by rw [build_pages_length]; exact hi3⟩) := rfl
    rw [he1, he2, hg1, hg2]
    simp only []
    rw [if_pos (by omega : i <
      ((get_string text mlist repl_pb_marker (ann, [])).2).2.length - 1)]
  · intro i hi hlast
    have hi2 : i < ((get_string text mlist repl_pb_marker (ann, [])).2).2.length := by
      rw [← hplen]
      exact hi
    have hg := build_pages_get ((get_string text mlist repl_pb_marker (ann, [])).2).2
      ((get_string text mlist repl_pb_marker (ann, [])).1).length i hi2
    have he : (((convert_pages text mlist ann).2.pages).get ⟨i, hi⟩) =
        ((build_pages ((get_string text mlist repl_pb_marker (ann, [])).2).2
          ((get_string text mlist repl_pb_marker (ann, [])).1).length).get
          ⟨i, by rw [build_pages_length]; exact hi2⟩) := rfl
    rw [he, hg]
    simp only []
    rw [if_neg (by rw [hplen] at hlast; omega), hout]
  · intro hval hsize hpw hsafe hne hfirst
    obtain ⟨hbounds, hchain, hslices, _, hhead⟩ :=
      convert_pages_parts_facts text mlist ann hval hsize hpw hsafe
    have hmap := build_pages_map_slice (get_string text mlist repl_pb_marker (ann, [])).1
      ((get_string text mlist repl_pb_marker (ann, [])).2).2
    have hgoal : joinSep (((convert_pages text mlist ann).2.pages).map
        (fun p => pySlice (convert_pages text mlist ann).1 p.cstart.toNat p.cend.toNat)) =
        joinSep (sliceList (get_string text mlist repl_pb_marker (ann, [])).1
          ((((get_string text mlist repl_pb_marker (ann, [])).2).2).map
            (fun q => q.2))) := by
      rw [hpg, hout, hmap]
    rw [hgoal, hout]
    have hpne : ((get_string text mlist repl_pb_marker (ann, [])).2).2 ≠ [] := by
      intro h
      rw [h] at hlen
      simp at hlen
      exact hne (List.length_eq_zero.mp hlen.symm)
    obtain ⟨m1, hm1⟩ : ∃ m1, mlist.head? = some m1 := by
      cases mlist with
      | nil => exact absurd rfl hne
      | cons a t => exact ⟨a, rfl⟩
    have hm1s := hfirst m1 hm1
    have hd := drop_partition (get_string text mlist repl_pb_marker (ann, [])).1
      ((((get_string text mlist repl_pb_marker (ann, [])).2).2).map (fun q => q.2))
      ((List.chain'_map _).mpr hchain)
      (by
        intro c hc
        rcases List.mem_map.mp hc with ⟨part, hp, hpe⟩
        rw [← hpe]
        exact hbounds part hp)
      (by
        intro c hc hcpos
        rcases List.mem_map.mp hc with ⟨part, hp, hpe⟩
        rw [← hpe] at hcpos ⊢
        exact hslices part hp hcpos)
      0
      (by
        cases hparts : ((get_string text mlist repl_pb_marker (ann, [])).2).2 with
        | nil => exact absurd hparts hpne
        | cons p0 pr =>
          have hh := hhead m1 hm1
          rw [hparts] at hh
          simp only [List.headD_cons] at hh
          rw [hm1s] at hh
          norm_num at hh
          simp only [List.map_cons, List.head?_cons, Option.some.injEq]
          exact hh)
    rw [hd]
    show _ = (get_string text mlist repl_pb_marker (ann, [])).1
    rw [Int.toNat_zero, List.drop_zero]

/-- A page-marker input whose single match starts at offset 0. -/
def c3btext : PyStr := "<pb_marker>1</pb_marker>ab".data

/-- The single `finditer` match of the page-marker pattern on `c3btext`. -/
def c3bmatch : RMatch :=
  { s := 0, e := 24, g0 := "<pb_marker>1</pb_marker>".data, pname := some "1".data }

theorem C3_pages_structure_witness :
    ((convert_pages c3text [c3match] {}).2.pages).length = 1 ∧
    ((convert_pages c3btext [c3bmatch] {}).2.pages).map
        (fun p => (p.pnum, p.cstart, p.cend)) = [(1, 0, 2)] ∧
    joinSep (((convert_pages c3btext [c3bmatch] {}).2.pages).map
        (fun p => pySlice (convert_pages c3btext [c3bmatch] {}).1
          p.cstart.toNat p.cend.toNat)) =
      (convert_pages c3btext [c3bmatch] {}).1 :=
  ⟨(C3_pages_structure c3text [c3match] {}).1,
   by decide,
   (C3_pages_structure c3btext [c3bmatch] {}).2.2.2.2
      (by decide) (by decide) (by decide) trivial (by simp)
      (by
        intro m1 h
        simp only [List.head?_cons, Option.some.injEq] at h
        rw [← h]
        rfl)⟩

/-- Bounds for the highlight pass: the recorded hi spans carry the match's own
offsets and the match content replaces the match, so all annotations stay in
bounds. -/
theorem convert_hi_bounds (text : PyStr) (mlist : List RMatch) (ann : Anns)
    (hval : ∀ x ∈ mlist, x.s < x.e ∧ x.e ≤ text.length ∧ (x.ot ≠ none → x.s + 1 < x.e))
    (hcont : ∀ x ∈ mlist, (x.content.getD []).length ≤ x.e - x.s)
    (hpw : mlist.Pairwise (fun a b => a.e ≤ b.s))
    (hann : AnnBounds ann text.length) :
    AnnBounds ((convert_hi text mlist ann).2)
      ((convert_hi text mlist ann).1).length := by
  have hrepl : ∀ x ∈ mlist, ∀ n st, ((repl_hi_marker x n st).1).length ≤ x.e - x.s := by
    intro x hx n st
    show (x.content.getD []).length ≤ x.e - x.s
    exact hcont x hx
  exact get_string_bounds text mlist repl_hi_marker ann () hval hpw hrepl hann
    (by
      intro x hx n st h
      obtain ⟨hp, hh, hm, hd⟩ := h
      refine ⟨hp, ?_, hm, hd⟩
      intro hi2 hmem
      have hmem2 : hi2 ∈ st.1.hi ++
          [{ rend := x.rend, cstart := ((x.s : Nat) : Int),
             cend := ((x.e : Nat) : Int) }] := hmem
      rcases List.mem_append.mp hmem2 with h2 | h2
      · exact hh hi2 h2
      · simp only [List.mem_singleton] at h2
        obtain ⟨hxs, hxe, _⟩ := hval x hx
        rw [h2]
        refine ⟨by positivity, ?_, ?_⟩
        · show ((x.s : Nat) : Int) ≤ ((x.e : Nat) : Int)
          omega
        · show ((x.e : Nat) : Int) ≤ _
          omega)

/-- Bounds for the marker-removal pass. -/
theorem remove_other_markers_bounds (text : PyStr) (mlist : List RMatch) (ann : Anns)
    (hval : ∀ x ∈ mlist, x.s < x.e ∧ x.e ≤ text.length ∧ x.ot = none)
    (hpw : mlist.Pairwise (fun a b => a.e ≤ b.s))
    (hann : AnnBounds ann text.length) :
    AnnBounds ((remove_other_markers text mlist ann).2)
      ((remove_other_markers text mlist ann).1).length := by
  have hval2 : ∀ x ∈ mlist, x.s < x.e ∧ x.e ≤ text.length ∧
      (x.ot ≠ none → x.s + 1 < x.e) :=
    fun x hx => ⟨(hval x hx).1, (hval x hx).2.1, fun h => absurd (hval x hx).2.2 h⟩
  exact get_string_bounds text mlist (fun _ _ st => (([] : PyStr), st)) ann ()
    hval2 hpw (fun x hx n st => by simp) hann (fun x hx n st h => h)

theorem simple_replacements_len (esc r : PyStr)
    (h : simple_replacements esc = some r) : r.length = 1 := by
  unfold simple_replacements at h
  split_ifs at h <;> simp only [Option.some.injEq] at h <;> rw [← h] <;> rfl

/-- Bounds for the entity-unescaping pass. -/
theorem unescape_xml_bounds (text : PyStr) (mlist : List RMatch) (ann : Anns)
    (hval : ∀ x ∈ mlist, x.s < x.e ∧ x.e ≤ text.length ∧ x.ot = none)
    (hpw : mlist.Pairwise (fun a b => a.e ≤ b.s))
    (hann : AnnBounds ann text.length) :
    AnnBounds ((unescape_xml text mlist ann).2)
      ((unescape_xml text mlist ann).1).length := by
  have hval2 : ∀ x ∈ mlist, x.s < x.e ∧ x.e ≤ text.length ∧
      (x.ot ≠ none → x.s + 1 < x.e) :=
    fun x hx => ⟨(hval x hx).1, (hval x hx).2.1, fun h => absurd (hval x hx).2.2 h⟩
  have hrepl : ∀ x ∈ mlist, ∀ n st, ((repl_esc_xml x n st).1).length ≤ x.e - x.s := by
    intro x hx n st
    have hse := (hval x hx).1
    unfold repl_esc_xml
    cases hsr : simple_replacements x.g0 with
    | some r =>
      simp only []
      rw [simple_replacements_len x.g0 r hsr]
      omega
    | none =>
      simp only [List.length_cons, List.length_nil]
      omega
  exact get_string_bounds text mlist repl_esc_xml ann ()
    hval2 hpw hrepl hann (by
      intro x hx n st h
      unfold repl_esc_xml
      cases simple_replacements x.g0 with
      | some r => exact h
      | none => exact h)

/-- Bounds for the two newline-normalization passes. -/
theorem normalize_new_lines_bounds (text : PyStr) (mlist1 mlist2 : List RMatch)
    (ann : Anns)
    (hval1 : ∀ x ∈ mlist1, x.s < x.e ∧ x.e ≤ text.length ∧ x.ot = none)
    (hpw1 : mlist1.Pairwise (fun a b => a.e ≤ b.s))
    (hval2 : ∀ x ∈ mlist2, x.s < x.e ∧
      x.e ≤ ((get_string text mlist1 (fun _ _ st => ((['\n'] : PyStr), st))
        (ann, ())).1).length ∧ x.ot = none)
    (hsize2 : ∀ x ∈ mlist2, x.s + 2 ≤ x.e)
    (hpw2 : mlist2.Pairwise (fun a b => a.e ≤ b.s))
    (hann : AnnBounds ann text.length) :
    AnnBounds ((normalize_new_lines text mlist1 mlist2 ann).2)
      ((normalize_new_lines text mlist1 mlist2 ann).1).length := by
  have hv1 : ∀ x ∈ mlist1, x.s < x.e ∧ x.e ≤ text.length ∧
      (x.ot ≠ none → x.s + 1 < x.e) :=
    fun x hx => ⟨(hval1 x hx).1, (hval1 x hx).2.1, fun h => absurd (hval1 x hx).2.2 h⟩
  have hb1 := get_string_bounds text mlist1 (fun _ _ st => ((['\n'] : PyStr), st)) ann ()
    hv1 hpw1 (fun x hx n st => by
      simp only [List.length_cons, List.length_nil]
      have := (hval1 x hx).1
      omega) hann (fun x hx n st h => h)
  have hv2 : ∀ x ∈ mlist2, x.s < x.e ∧
      x.e ≤ ((get_string text mlist1 (fun _ _ st => ((['\n'] : PyStr), st))
        (ann, ())).1).length ∧ (x.ot ≠ none → x.s + 1 < x.e) :=
    fun x hx => ⟨(hval2 x hx).1, (hval2 x hx).2.1, fun h => absurd (hval2 x hx).2.2 h⟩
  exact get_string_bounds
    ((get_string text mlist1 (fun _ _ st => ((['\n'] : PyStr), st)) (ann, ())).1)
    mlist2 (fun _ _ st => (nl2, st))
    (((get_string text mlist1 (fun _ _ st => ((['\n'] : PyStr), st)) (ann, ())).2).1) ()
    hv2 hpw2 (fun x hx n st => by
      show nl2.length ≤ x.e - x.s
      have := hsize2 x hx
      show ([' ', ' '] : PyStr).length ≤ x.e - x.s
      simp only [List.length_cons, List.length_nil]
      omega) hb1 (fun x hx n st h => h)

theorem shift_all_bounds (ann : Anns) (L s : Nat) (hs : s ≤ L)
    (hann : AnnBounds ann L) :
    AnnBounds (_shift_all_annotations ann (-(s : Int))) (L - s) := by
  obtain ⟨hp, hh, hm, hd⟩ := hann
  have hLs : ((L - s : Nat) : Int) = (L : Int) - (s : Int) := by omega
  unfold _shift_all_annotations
  split
  · rename_i h0
    have hs0 : (s : Int) = 0 := by omega
    have : s = 0 := by omega
    subst this
    exact ⟨fun p hp2 => by
        obtain ⟨a, b, c⟩ := hp p hp2
        exact ⟨a, b, by omega⟩,
      fun h hh2 => by
        obtain ⟨a, b, c⟩ := hh h hh2
        exact ⟨a, b, by omega⟩,
      fun kv hkv => by
        obtain ⟨a, b⟩ := hm kv hkv
        exact ⟨a, by omega⟩,
      fun b hb2 => by
        obtain ⟨x, y, z⟩ := hd b hb2
        exact ⟨x, y, by omega⟩⟩
  · refine ⟨?_, ?_, ?_, ?_⟩
    · intro p hp2
      simp only [List.mem_map] at hp2
      obtain ⟨q, hq, rfl⟩ := hp2
      obtain ⟨a, b, c⟩ := hp q hq
      refine ⟨le_max_left _ _, ?_, ?_⟩
      · show max 0 (q.cstart + -(s : Int)) ≤ max 0 (q.cend + -(s : Int))
        omega
      · show max 0 (q.cend + -(s : Int)) ≤ ((L - s : Nat) : Int)
        omega
    · intro h hh2
      simp only [List.mem_map] at hh2
      obtain ⟨q, hq, rfl⟩ := hh2
      obtain ⟨a, b, c⟩ := hh q hq
      refine ⟨le_max_left _ _, ?_, ?_⟩
      · show max 0 (q.cstart + -(s : Int)) ≤ max 0 (q.cend + -(s : Int))
        omega
      · show max 0 (q.cend + -(s : Int)) ≤ ((L - s : Nat) : Int)
        omega
    · intro kv hkv
      simp only [List.mem_map] at hkv
      obtain ⟨q, hq, rfl⟩ := hkv
      obtain ⟨a, b⟩ := hm q hq
      refine ⟨le_max_left _ _, ?_⟩
      show max 0 (q.2 + -(s : Int)) ≤ ((L - s : Nat) : Int)
      omega
    · intro b hb2
      simp only [List.mem_map] at hb2
      obtain ⟨q, hq, rfl⟩ := hb2
      obtain ⟨x, y, z⟩ := hd q hq
      refine ⟨le_max_left _ _, ?_, ?_⟩
      · show max 0 (q.cstart + -(s : Int)) ≤ max 0 (q.cend + -(s : Int))
        omega
      · show max 0 (q.cend + -(s : Int)) ≤ ((L - s : Nat) : Int)
        omega

theorem clamp_above_bounds (ann : Anns) (L n : Nat) (hn : n ≤ L)
    (hann : AnnBounds ann L) :
    AnnBounds (clamp_above ann (n : Int)) n := by
  obtain ⟨hp, hh, hm, hd⟩ := hann
  unfold clamp_above
  refine ⟨?_, ?_, ?_, ?_⟩
  · intro p hp2
    simp only [List.mem_map] at hp2
    obtain ⟨q, hq, rfl⟩ := hp2
    obtain ⟨a, b, c⟩ := hp q hq
    simp only []
    constructor
    · split <;> omega
    · constructor
      · split <;> split <;> omega
      · split <;> omega
  · intro h hh2
    simp only [List.mem_map] at hh2
    obtain ⟨q, hq, rfl⟩ := hh2
    obtain ⟨a, b, c⟩ := hh q hq
    simp only []
    constructor
    · split <;> omega
    · constructor
      · split <;> split <;> omega
      · split <;> omega
  · intro kv hkv
    simp only [List.mem_map] at hkv
    obtain ⟨q, hq, rfl⟩ := hkv
    obtain ⟨a, b⟩ := hm q hq
    by_cases hc : (n : Int) < q.2
    · rw [if_pos hc]
      exact ⟨by positivity, le_refl _⟩
    · rw [if_neg hc]
      exact ⟨a, by omega⟩
  · intro b hb2
    simp only [List.mem_map] at hb2
    obtain ⟨q, hq, rfl⟩ := hb2
    obtain ⟨x, y, z⟩ := hd q hq
    simp only []
    constructor
    · split <;> omega
    · constructor
      · split <;> split <;> omega
      · split <;> omega

/-- Bounds preservation for whitespace trimming. -/
theorem trim_bounds (text : PyStr) (ann : Anns)
    (hann : AnnBounds ann text.length) :
    AnnBounds ((trim_text_and_adjust_annotations text ann).2)
      ((trim_text_and_adjust_annotations text ann).1).length := by
  unfold trim_text_and_adjust_annotations
  simp only []
  have hsc : (text.takeWhile pyIsSpace).length ≤ text.length :=
    (List.takeWhile_sublist _).length_le
  by_cases hs : 0 < (text.takeWhile pyIsSpace).length
  · rw [if_pos hs, if_pos hs]
    have hann1 : AnnBounds
        (_shift_all_annotations ann (-(((text.takeWhile pyIsSpace).length : Nat) : Int)))
        (text.length - (text.takeWhile pyIsSpace).length) := by
      exact shift_all_bounds ann text.length _ hsc hann
    have hlen1 : (text.drop (text.takeWhile pyIsSpace).length).length =
        text.length - (text.takeWhile pyIsSpace).length := List.length_drop _ _
    by_cases he : 0 <
        ((text.drop (text.takeWhile pyIsSpace).length).reverse.takeWhile pyIsSpace).length
    · rw [if_pos he]
      have hec : ((text.drop
          (text.takeWhile pyIsSpace).length).reverse.takeWhile pyIsSpace).length ≤
          (text.drop (text.takeWhile pyIsSpace).length).length := by
        have h2 := (List.takeWhile_sublist (l :=
          (text.drop (text.takeWhile pyIsSpace).length).reverse) pyIsSpace).length_le
        rw [List.length_reverse] at h2
        exact h2
      have htake : ((text.drop (text.takeWhile pyIsSpace).length).take
          ((text.drop (text.takeWhile pyIsSpace).length).length -
            ((text.drop
              (text.takeWhile pyIsSpace).length).reverse.takeWhile pyIsSpace).length)).length =
          (text.drop (text.takeWhile pyIsSpace).length).length -
            ((text.drop
              (text.takeWhile pyIsSpace).length).reverse.takeWhile pyIsSpace).length := by
        rw [List.length_take]
        omega
      have hann2 : AnnBounds
          (_shift_all_annotations ann (-(((text.takeWhile pyIsSpace).length : Nat) : Int)))
          (text.drop (text.takeWhile pyIsSpace).length).length := by
        rw [hlen1]
        exact hann1
      have hcb := clamp_above_bounds _
        (text.drop (text.takeWhile pyIsSpace).length).length
        ((text.drop (text.takeWhile pyIsSpace).length).length -
          ((text.drop
            (text.takeWhile pyIsSpace).length).reverse.takeWhile pyIsSpace).length)
        (by omega) hann2
      rw [htake]
      exact hcb
    · rw [if_neg he]
      rw [hlen1]
      exact hann1
  · rw [if_neg hs, if_neg hs]
    by_cases he : 0 < (text.reverse.takeWhile pyIsSpace).length
    · rw [if_pos he]
      have hec : (text.reverse.takeWhile pyIsSpace).length ≤ text.length := by
        have h2 := (List.takeWhile_sublist (l := text.reverse) pyIsSpace).length_le
        rw [List.length_reverse] at h2
        exact h2
      have htake : (text.take
          (text.length - (text.reverse.takeWhile pyIsSpace).length)).length =
          text.length - (text.reverse.takeWhile pyIsSpace).length := by
        rw [List.length_take]
        omega
      have hcb := clamp_above_bounds ann text.length
        (text.length - (text.reverse.takeWhile pyIsSpace).length) (by omega) hann
      rw [htake]
      exact hcb
    · rw [if_neg he]
      exact hann

theorem skip_newlines_fuel_bounds (text : PyStr) :
    ∀ (fuel : Nat) (p : Int), p ≤ skip_newlines_fuel text fuel p ∧
      (p ≤ (text.length : Int) → skip_newlines_fuel text fuel p ≤ (text.length : Int)) := by
  intro fuel
  induction fuel with
  | zero =>
    intro p
    exact ⟨le_refl _, fun h => h⟩
  | succ f ih =>
    intro p
    unfold skip_newlines_fuel
    split
    · rename_i hcond
      obtain ⟨h1, h2⟩ := ih (p + 1)
      refine ⟨by omega, fun hp => h2 (by omega)⟩
    · exact ⟨le_refl _, fun h => h⟩

theorem skip_newlines_bounds (text : PyStr) (p : Int) :
    p ≤ skip_newlines text p ∧
      (p ≤ (text.length : Int) → skip_newlines text p ≤ (text.length : Int)) :=
  skip_newlines_fuel_bounds text _ p

/-- Bounds preservation for the newline alignment of div ends and milestones. -/
theorem align_bounds (text : PyStr) (ann : Anns)
    (hann : AnnBounds ann text.length) :
    AnnBounds (align_div_milestones_nl text ann) text.length := by
  obtain ⟨hp, hh, hm, hd⟩ := hann
  unfold align_div_milestones_nl
  split
  · exact ⟨hp, hh, hm, hd⟩
  · refine ⟨hp, hh, ?_, ?_⟩
    · intro kv hkv
      simp only [List.mem_map] at hkv
      obtain ⟨q, hq, rfl⟩ := hkv
      obtain ⟨a, b⟩ := hm q hq
      obtain ⟨s1, s2⟩ := skip_newlines_bounds text q.2
      refine ⟨?_, ?_⟩
      · show (0 : Int) ≤ skip_newlines text q.2
        omega
      · show skip_newlines text q.2 ≤ ((text.length : Nat) : Int)
        exact s2 b
    · intro b hb2
      simp only [List.mem_map] at hb2
      obtain ⟨q, hq, rfl⟩ := hb2
      obtain ⟨x, y, z⟩ := hd q hq
      obtain ⟨s1, s2⟩ := skip_newlines_bounds text q.cend
      refine ⟨x, ?_, ?_⟩
      · show q.cstart ≤ skip_newlines text q.cend
        omega
      · show skip_newlines text q.cend ≤ ((text.length : Nat) : Int)
        exact s2 z

theorem foldl_pres {α β : Type} (P : β → Prop) (f : β → α → β) :
    ∀ (l : List α) (b0 : β), (∀ b a, a ∈ l → P b → P (f b a)) → P b0 →
    P (l.foldl f b0) := by
  intro l
  induction l with
  | nil => intro b0 _ h; exact h
  | cons a t ih =>
    intro b0 hstep h0
    simp only [List.foldl_cons]
    exact ih (f b0 a) (fun b x hx hb => hstep b x (by simp [hx]) hb) (hstep b0 a (by simp) h0)

/-- Bounds preservation for the synthesized page-boundary milestones. -/
theorem synth_bounds (ann : Anns) (L : Nat)
    (hann : AnnBounds ann L) :
    AnnBounds (synthesize_page_boundary_milestones ann) L := by
  obtain ⟨hp, hh, hm, hd⟩ := hann
  unfold synthesize_page_boundary_milestones
  refine ⟨hp, hh, ?_, hd⟩
  refine foldl_pres (fun ms => ∀ kv ∈ ms, 0 ≤ kv.2 ∧ kv.2 ≤ (L : Int)) _
    ann.pages ann.milestones ?_ hm
  intro ms pg hpg hms kv hkv
  obtain ⟨a, b, c⟩ := hp pg hpg
  rcases dictUpsert_mem _ _ _ kv hkv with h | h
  · rcases dictUpsert_mem _ _ _ kv h with h2 | h2
    · exact hms kv h2
    · rw [h2]
      exact ⟨a, by omega⟩
  · rw [h]
    exact ⟨by omega, c⟩

/-- Intermediate results of the `convert_tei_root_to_standoff` string pipeline,
named per stage for stating per-pass hypotheses. -/
def pipe1 (x : PyStr) (md : MatchData) : PyStr × Anns :=
  convert_div_boundaries x md.mdiv {}

def pipe2 (x : PyStr) (md : MatchData) : PyStr × Anns :=
  convert_milestones (pipe1 x md).1 md.mmil (pipe1 x md).2

def pipe3 (x : PyStr) (md : MatchData) : PyStr × Anns :=
  convert_pages (pipe2 x md).1 md.mpb (pipe2 x md).2

def pipe4 (x : PyStr) (md : MatchData) : PyStr × Anns :=
  convert_hi (pipe3 x md).1 md.mhi (pipe3 x md).2

def pipe5 (x : PyStr) (md : MatchData) : PyStr × Anns :=
  remove_other_markers (pipe4 x md).1 md.mrm (pipe4 x md).2

def pipe6 (x : PyStr) (md : MatchData) : PyStr × Anns :=
  unescape_xml (pipe5 x md).1 md.mesc (pipe5 x md).2

def pipe7 (x : PyStr) (md : MatchData) : PyStr × Anns :=
  normalize_new_lines (pipe6 x md).1 md.mnl1 md.mnl2 (pipe6 x md).2

def pipe8 (x : PyStr) (md : MatchData) : PyStr × Anns :=
  trim_text_and_adjust_annotations (pipe7 x md).1 (pipe7 x md).2

theorem pipeline_eq (x : PyStr) (pres : Bool) (md : MatchData) :
    convert_standoff_pipeline x pres md =
      ((pipe8 x md).1, synthesize_page_boundary_milestones
        (if pres then (pipe8 x md).2
         else align_div_milestones_nl (pipe8 x md).1 (pipe8 x md).2)) := rfl

/-- Validity of a `finditer` result over a given string: matches are nonempty,
in bounds, ordered and non-overlapping, with no opening-tag group. -/
def MatchesOK (orig : PyStr) (ml : List RMatch) : Prop :=
  (∀ x ∈ ml, x.s < x.e ∧ x.e ≤ orig.length ∧ x.ot = none) ∧
  ml.Pairwise (fun a b => a.e ≤ b.s)

theorem annbounds_empty (n : Nat) : AnnBounds ({} : Anns) n := by
  refine ⟨?_, ?_, ?_, ?_⟩ <;> intro y hy <;> simp at hy

/-- C2 (amended): under validity of each pass's match list — and provided the
page-break matches do not start with two adjacent matches at offset 0 — every
start/end offset of every page, highlight span and division boundary, and every
milestone offset of the emitted annotation set, lies within `[0, len(text)]`,
and `start ≤ end` holds for every page, span and division. -/
theorem C2_offsets_within_bounds (xml_str : PyStr) (pres : Bool) (md : MatchData)
    (hdiv : MatchesOK xml_str md.mdiv)
    (hdivsz : ∀ x ∈ md.mdiv, x.s + 2 ≤ x.e)
    (hmil : MatchesOK (pipe1 xml_str md).1 md.mmil)
    (hpb : MatchesOK (pipe2 xml_str md).1 md.mpb)
    (hpbsz : ∀ x ∈ md.mpb, x.s + 2 ≤ x.e)
    (hsafe : PbSafe md.mpb)
    (hhi : ∀ x ∈ md.mhi, x.s < x.e ∧ x.e ≤ ((pipe3 xml_str md).1).length ∧
      (x.ot ≠ none → x.s + 1 < x.e) ∧ (x.content.getD []).length ≤ x.e - x.s)
    (hhipw : md.mhi.Pairwise (fun a b => a.e ≤ b.s))
    (hrm : MatchesOK (pipe4 xml_str md).1 md.mrm)
    (hesc : MatchesOK (pipe5 xml_str md).1 md.mesc)
    (hnl1 : MatchesOK (pipe6 xml_str md).1 md.mnl1)
    (hnl2v : MatchesOK (get_string (pipe6 xml_str md).1 md.mnl1
      (fun _ _ st => ((['\n'] : PyStr), st)) ((pipe6 xml_str md).2, ())).1 md.mnl2)
    (hnl2sz : ∀ x ∈ md.mnl2, x.s + 2 ≤ x.e) :
    AnnBounds (convert_standoff_pipeline xml_str pres md).2
      ((convert_standoff_pipeline xml_str pres md).1).length := by
  have h1 : AnnBounds (pipe1 xml_str md).2 ((pipe1 xml_str md).1).length :=
    convert_div_boundaries_bounds xml_str md.mdiv {} hdiv.1 hdivsz hdiv.2
      (annbounds_empty _)
  have h2 : AnnBounds (pipe2 xml_str md).2 ((pipe2 xml_str md).1).length :=
    convert_milestones_bounds (pipe1 xml_str md).1 md.mmil (pipe1 xml_str md).2
      hmil.1 hmil.2 h1
  have h3 : AnnBounds (pipe3 xml_str md).2 ((pipe3 xml_str md).1).length :=
    convert_pages_bounds (pipe2 xml_str md).1 md.mpb (pipe2 xml_str md).2
      hpb.1 hpbsz hpb.2 hsafe h2
  have h4 : AnnBounds (pipe4 xml_str md).2 ((pipe4 xml_str md).1).length :=
    convert_hi_bounds (pipe3 xml_str md).1 md.mhi (pipe3 xml_str md).2
      (fun x hx => ⟨(hhi x hx).1, (hhi x hx).2.1, (hhi x hx).2.2.1⟩)
      (fun x hx => (hhi x hx).2.2.2) hhipw h3
  have h5 : AnnBounds (pipe5 xml_str md).2 ((pipe5 xml_str md).1).length :=
    remove_other_markers_bounds (pipe4 xml_str md).1 md.mrm (pipe4 xml_str md).2
      hrm.1 hrm.2 h4
  have h6 : AnnBounds (pipe6 xml_str md).2 ((pipe6 xml_str md).1).length :=
    unescape_xml_bounds (pipe5 xml_str md).1 md.mesc (pipe5 xml_str md).2
      hesc.1 hesc.2 h5
  have h7 : AnnBounds (pipe7 xml_str md).2 ((pipe7 xml_str md).1).length :=
    normalize_new_lines_bounds (pipe6 xml_str md).1 md.mnl1 md.mnl2
      (pipe6 xml_str md).2 hnl1.1 hnl1.2 hnl2v.1 hnl2sz hnl2v.2 h6
  have h8 : AnnBounds (pipe8 xml_str md).2 ((pipe8 xml_str md).1).length :=
    trim_bounds (pipe7 xml_str md).1 (pipe7 xml_str md).2 h7
  rw [pipeline_eq]
  cases pres with
  | true =>
    rw [if_pos rfl]
    exact synth_bounds _ _ h8
  | false =>
    rw [if_neg (by simp)]
    exact synth_bounds _ _ (align_bounds _ _ h8)

/-- A body whose two page markers are adjacent at the very start of the
text: `<pb_marker>1a</pb_marker><pb_marker>1b</pb_marker>text`. -/
def c2text : PyStr := "<pb_marker>1a</pb_marker><pb_marker>1b</pb_marker>text".data

/-- The `finditer` matches of the page-marker pattern on `c2text`. -/
def c2md : MatchData :=
  { mpb := [{ s := 0, e := 25, g0 := pySlice c2text 0 25, pname := some "1a".data },
            { s := 25, e := 50, g0 := pySlice c2text 25 50, pname := some "1b".data }] }

instance annBoundsDecidable (ann : Anns) (n : Nat) : Decidable (AnnBounds ann n) := by
  unfold AnnBounds
  infer_instance

/-- C2 counterexample: with two adjacent page markers at the start of the body,
the converter emits a page whose `cend` is `-2`, violating both the
`0 ≤ start ≤ end` claim for pages and the milestone-offset bounds (via the
synthesized `eop` milestone). -/
theorem C2_counterexample_adjacent_markers :
    ((convert_standoff_pipeline c2text true c2md).2.pages.map
      (fun p => p.cend)).head? = some (-2) ∧
    ¬ AnnBounds (convert_standoff_pipeline c2text true c2md).2
      ((convert_standoff_pipeline c2text true c2md).1).length := by
  constructor
  · decide
  · decide

/-- A well-formed single-page body for exercising the pipeline bounds. -/
def c2wtext : PyStr := "<pb_marker>1</pb_marker>ab".data

/-- The single `finditer` page-marker match on `c2wtext`. -/
def c2wmd : MatchData :=
  { mpb := [{ s := 0, e := 24, g0 := pySlice c2wtext 0 24, pname := some "1".data }] }

theorem C2_offsets_within_bounds_witness :
    AnnBounds (convert_standoff_pipeline c2wtext true c2wmd).2
      ((convert_standoff_pipeline c2wtext true c2wmd).1).length :=
  C2_offsets_within_bounds c2wtext true c2wmd
    ⟨by decide, by decide⟩ (by decide)
    ⟨by decide, by decide⟩ ⟨by decide, by decide⟩ (by decide) trivial
    (by decide) (by decide)
    ⟨by decide, by decide⟩ ⟨by decide, by decide⟩ ⟨by decide, by decide⟩
    ⟨by decide, by decide⟩ (by decide)
